import Mathlib

/-!
# Channel watermark ticker

A shallow embedding of `internal/proxynode/channels_time_ticker.go`.

* Go maps are finite maps with unique keys (`AList`); a read of a missing key
  yields `none` (Go's `ok = false`).
* `Timestamp` is Go's `uint64`: values are naturals and the only arithmetic
  operation of the file, the sum in `tick`, wraps at `2 ^ 64`.
* The two collaborators of the ticker, the timestamp allocator `tso.AllocOne`
  and `getStatisticsFunc`, are impure; every operation that calls them takes
  the pair `(value, error)` the call returns as an argument and records the
  calls it makes.
* `sendTimeTickMsgInterval` is a package constant declared outside this file;
  it is a parameter of `tick`, already converted to `Timestamp`.
* Locks are not modelled: each operation is one atomic step.
-/

namespace proxynode

/-- Physical channel name: Go `pChan`, a string. -/
abbrev pChan := String

/-- Go `Timestamp`, an unsigned 64-bit value. -/
abbrev Timestamp := Nat

/-- Number of values of a `uint64`. -/
def uint64Modulus : Nat := 2 ^ 64

/-- Go `error` values, represented by their message. -/
abbrev Error := String

/-- Range of the in-flight message timestamps of one channel. -/
structure pChanStatistics where
  minTs : Timestamp
  maxTs : Timestamp
deriving DecidableEq, Repr

/-- Go `map[pChan]Timestamp`. -/
abbrev TimestampMap := AList (fun _ : pChan => Timestamp)

/-- Go `map[pChan]*pChanStatistics`: an entry `none` is a nil pointer. The nil map is the
empty map. -/
abbrev StatisticsMap := AList (fun _ : pChan => Option pChanStatistics)

/-- The two mappings of `channelsTimeTickerImpl`. -/
structure channelsTimeTickerImpl where
  minTsStatistics : TimestampMap
  currents : TimestampMap

/-- Calls to the collaborators of the ticker. -/
inductive Call where
  | AllocOne
  | getStatisticsFunc
deriving DecidableEq, Repr

/-- How a call of `tick` ends: it returns (with its error value, the state it leaves and
the collaborator calls it made, in order), or it panics on a nil statistics pointer. -/
inductive TickOutcome where
  | returned (err : Option Error) (ticker : channelsTimeTickerImpl) (calls : List Call)
  | panicked

/-- Constructor `newChannelsTimeTicker`: both mappings hold `0` for every given channel. -/
def newChannelsTimeTicker (pchans : List pChan) : channelsTimeTickerImpl :=
  pchans.foldl
    (fun ticker pchan =>
      { minTsStatistics := ticker.minTsStatistics.insert pchan 0
        currents := ticker.currents.insert pchan 0 })
    { minTsStatistics := ∅, currents := ∅ }

/-- Method `initStatistics`: every published watermark is reset to `0`. -/
def initStatistics (ticker : channelsTimeTickerImpl) : channelsTimeTickerImpl :=
  { ticker with
    minTsStatistics :=
      ticker.minTsStatistics.keys.foldl (fun m pchan => m.insert pchan 0)
        ticker.minTsStatistics }

/-- Method `initCurrents`: every candidate is set to `current`. -/
def initCurrents (ticker : channelsTimeTickerImpl) (current : Timestamp) :
    channelsTimeTickerImpl :=
  { ticker with
    currents :=
      ticker.currents.keys.foldl (fun m pchan => m.insert pchan current) ticker.currents }

/-- Method `start`, without the launch of the background loop. `allocOne` is what
`tso.AllocOne()` returns. -/
def start (ticker : channelsTimeTickerImpl) (allocOne : Timestamp × Option Error) :
    Option Error × channelsTimeTickerImpl :=
  let ticker := initStatistics ticker
  match allocOne with
  | (_, some err) => (some err, ticker)
  | (current, none) => (none, initCurrents ticker current)

/-- Body of the loop of `tick` for one channel of `currents`; `none` is the panic of
`stat.minTs` on a nil pointer. -/
def tickChannel (sendTimeTickMsgInterval now : Timestamp) (stats : StatisticsMap)
    (ticker : channelsTimeTickerImpl) (pchan : pChan) : Option channelsTimeTickerImpl :=
  let current := (ticker.currents.lookup pchan).getD 0
  match stats.lookup pchan with
  | none =>
    some { minTsStatistics := ticker.minTsStatistics.insert pchan current
           currents := ticker.currents.insert pchan now }
  | some none => none
  | some (some stat) =>
    if stat.minTs > current then
      let cur := if stat.minTs > now then now else current
      let next := (now + sendTimeTickMsgInterval) % uint64Modulus
      let next := if next > stat.maxTs then stat.maxTs else next
      some { minTsStatistics := ticker.minTsStatistics.insert pchan cur
             currents := ticker.currents.insert pchan next }
    else
      some ticker

/-- Method `tick`: one cycle. `allocOne` is what `tso.AllocOne()` returns and `getStatistics`
what `getStatisticsFunc()` returns; the error of the latter is only logged. -/
def tick (sendTimeTickMsgInterval : Timestamp) (ticker : channelsTimeTickerImpl)
    (allocOne : Timestamp × Option Error) (getStatistics : StatisticsMap × Option Error) :
    TickOutcome :=
  match allocOne with
  | (_, some err) => .returned (some err) ticker [Call.AllocOne]
  | (now, none) =>
    let stats := getStatistics.1
    match ticker.currents.keys.foldlM (tickChannel sendTimeTickMsgInterval now stats) ticker with
    | some ticker => .returned none ticker [Call.AllocOne, Call.getStatisticsFunc]
    | none => .panicked

/-- Method `addPChan`: the channel is registered with `0` in `minTsStatistics`, then in
`currents`; each mapping is checked just before its own insertion. -/
def addPChan (ticker : channelsTimeTickerImpl) (pchan : pChan) :
    Option Error × channelsTimeTickerImpl :=
  match ticker.minTsStatistics.lookup pchan with
  | some _ => (some ("pChan " ++ pchan ++ " already exist in minTsStatistics"), ticker)
  | none =>
    let ticker := { ticker with minTsStatistics := ticker.minTsStatistics.insert pchan 0 }
    match ticker.currents.lookup pchan with
    | some _ => (some ("pChan " ++ pchan ++ " already exist in currents"), ticker)
    | none => (none, { ticker with currents := ticker.currents.insert pchan 0 })

/-- Method `removePChan`: the channel is deleted from `minTsStatistics`, then from
`currents`; each mapping is checked just before its own deletion. -/
def removePChan (ticker : channelsTimeTickerImpl) (pchan : pChan) :
    Option Error × channelsTimeTickerImpl :=
  match ticker.minTsStatistics.lookup pchan with
  | none => (some ("pChan " ++ pchan ++ " don't exist in minTsStatistics"), ticker)
  | some _ =>
    let ticker := { ticker with minTsStatistics := ticker.minTsStatistics.erase pchan }
    match ticker.currents.lookup pchan with
    | none => (some ("pChan " ++ pchan ++ " don't exist in currents"), ticker)
    | some _ => (none, { ticker with currents := ticker.currents.erase pchan })

/-- Method `getLastTick`, with the ticker as the call leaves it. -/
def getLastTick (ticker : channelsTimeTickerImpl) (pchan : pChan) :
    (Timestamp × Option Error) × channelsTimeTickerImpl :=
  match ticker.minTsStatistics.lookup pchan with
  | none => ((0, some ("pChan " ++ pchan ++ " not found")), ticker)
  | some ts => ((ts, none), ticker)

/-- Method `getMinTsStatistics`, with the ticker as the call leaves it: the result is a
new map filled from the entries of `minTsStatistics`. -/
def getMinTsStatistics (ticker : channelsTimeTickerImpl) :
    (TimestampMap × Option Error) × channelsTimeTickerImpl :=
  ((ticker.minTsStatistics.entries.foldl
      (fun ret e => if e.2 > 0 then ret.insert e.1 e.2 else ret) ∅, none), ticker)

/-- The two mappings have the same channels. -/
def sameKeys (ticker : channelsTimeTickerImpl) : Prop :=
  ∀ pchan : pChan, pchan ∈ ticker.minTsStatistics ↔ pchan ∈ ticker.currents

/-! ## Sequences of calls -/

/-- One call on a started ticker, with what the collaborators return during it. -/
inductive Op where
  | tick (allocOne : Timestamp × Option Error) (getStatistics : StatisticsMap × Option Error)
  | addPChan (pchan : pChan)
  | removePChan (pchan : pChan)

/-- State after one call, whether the call returns an error or not; `none` when it
panics. -/
def step (sendTimeTickMsgInterval : Timestamp) (ticker : channelsTimeTickerImpl) :
    Op → Option channelsTimeTickerImpl
  | .tick allocOne getStatistics =>
    match tick sendTimeTickMsgInterval ticker allocOne getStatistics with
    | .returned _ ticker _ => some ticker
    | .panicked => none
  | .addPChan pchan => some (addPChan ticker pchan).2
  | .removePChan pchan => some (removePChan ticker pchan).2

/-- State after a sequence of calls. -/
def run (sendTimeTickMsgInterval : Timestamp) (ticker : channelsTimeTickerImpl)
    (ops : List Op) : Option channelsTimeTickerImpl :=
  ops.foldlM (step sendTimeTickMsgInterval) ticker

/-- Whether the call is a cycle whose allocation succeeds. -/
def isSuccessfulTick : Op → Bool
  | .tick (_, none) _ => true
  | _ => false

/-- Whether the call is `removePChan` of the channel `c`. -/
def removes (c : pChan) : Op → Bool
  | .removePChan pchan => pchan == c
  | _ => false

/-- Timestamps the authority returns to the cycles of a sequence of calls, in order. -/
def allocated : List Op → List Timestamp
  | [] => []
  | .tick (now, none) _ :: ops => now :: allocated ops
  | _ :: ops => allocated ops

/-- The timestamp given to the first successful cycle of the calls, or `N` when none of
them is one. -/
def nextAllocated : List Op → Timestamp → Timestamp
  | [], N => N
  | .tick (now, none) _ :: _, _ => now
  | _ :: ops, N => nextAllocated ops N

/-- When a cycle at `now` is given a statistics entry for `c`: the entry is a range
`minTs ≤ maxTs`, the sum `now + sendTimeTickMsgInterval` fits in 64 bits, and the lesser
of that sum and `maxTs`, which the cycle can make the candidate of `c`, is at most
`next`. Nothing is asked when there is no entry for `c`. -/
def statisticsBounded (sendTimeTickMsgInterval now next : Timestamp) (stats : StatisticsMap)
    (c : pChan) : Bool :=
  match stats.lookup c with
  | some (some stat) =>
    decide (stat.minTs ≤ stat.maxTs) &&
      decide (now + sendTimeTickMsgInterval < uint64Modulus) &&
      decide (min (now + sendTimeTickMsgInterval) stat.maxTs ≤ next)
  | _ => true

/-- In every successful cycle of the calls, the statistics entry of `c` is bounded by the
timestamp given to the next successful cycle, which is `N` after the last one. -/
def cyclesBounded (sendTimeTickMsgInterval : Timestamp) (c : pChan) :
    List Op → Timestamp → Bool
  | [], _ => true
  | .tick (now, none) getStatistics :: ops, N =>
    statisticsBounded sendTimeTickMsgInterval now (nextAllocated ops N) getStatistics.1 c &&
      cyclesBounded sendTimeTickMsgInterval c ops N
  | _ :: ops, N => cyclesBounded sendTimeTickMsgInterval c ops N

/-- The candidate of `c`, if any, is not past the timestamp `last`, and the published
watermark of `c`, if any, comes with a candidate and is at most that candidate. -/
def watermarkInv (last : Timestamp) (ticker : channelsTimeTickerImpl) (c : pChan) : Prop :=
  (∀ cand : Timestamp, ticker.currents.lookup c = some cand → cand ≤ last) ∧
    (∀ w : Timestamp, ticker.minTsStatistics.lookup c = some w →
      ∃ cand : Timestamp, ticker.currents.lookup c = some cand ∧ w ≤ cand)

/-- The flag "`c` was registered with `addPChan` since the last successful cycle", after
one more call. -/
def addedStep (c : pChan) (added : Bool) : Op → Bool
  | .tick (_, none) _ => false
  | .addPChan pchan => added || pchan == c
  | _ => added

/-- Whether `c` was registered with `addPChan` after the last successful cycle of the
calls (after the start when none of them is one). -/
def addedSinceCycle (c : pChan) (ops : List Op) : Bool :=
  ops.foldl (addedStep c) false

/-- For a cycle whose allocation succeeds: `now` is not `0` and, when there is a
statistics entry for `c`, neither `minTs`, `maxTs` nor the 64-bit sum
`now + sendTimeTickMsgInterval` is `0`. Other calls are not constrained. -/
def cycleNonZero (sendTimeTickMsgInterval : Timestamp) (c : pChan) : Op → Bool
  | .tick (now, none) getStatistics =>
    decide (now ≠ 0) &&
      (match getStatistics.1.lookup c with
        | some (some stat) =>
          decide (stat.minTs ≠ 0) && decide (stat.maxTs ≠ 0) &&
            decide ((now + sendTimeTickMsgInterval) % uint64Modulus ≠ 0)
        | _ => true)
  | _ => true

/-- The candidate of `c`, if any, is not `0`. -/
def candidateNonZero (ticker : channelsTimeTickerImpl) (c : pChan) : Prop :=
  ∀ cand : Timestamp, ticker.currents.lookup c = some cand → cand ≠ 0

/-! ## Sample inputs -/

/-- A value of `sendTimeTickMsgInterval`: 200 ms, counted in nanoseconds. -/
def interval200ms : Timestamp := 200000000

/-- A ticker built for two channels and started with the timestamp `5`: both watermarks
are `0` and both candidates are `5`. -/
def startedAt5 : channelsTimeTickerImpl :=
  (start (newChannelsTimeTicker ["c1", "c2"]) (5, none)).2

/-- Statistics with one entry per listed channel, as a query builds them. -/
def statisticsOf (entries : List (pChan × pChanStatistics)) : StatisticsMap :=
  entries.foldl (fun m e => m.insert e.1 (some e.2)) ∅

end proxynode

/-!
# Load priority queue

A shallow embedding of `internal/indexservice/priority_queue.go` and of the functions of
Go's standard library `container/heap` that it calls (`Fix`, `Remove`, `up`, `down`).

* `pq.items` is a list; an element of the slice is a pointer, and a pointer is represented
  by the position of the item it points to (no item is referenced from two positions).
* Go `int` is the 64-bit signed integer: the sum in `IncPriority` is wrapped by `wrapInt`.
* A call that would index the slice out of range panics: the result is `none`.
* The lock is not modelled: each method is one atomic step.
-/

namespace indexservice

/-- Go `UniqueID`, an `int64`. -/
abbrev UniqueID := Int

/-- Value of an integer expression as a Go `int` (64-bit two's complement). -/
def wrapInt (x : Int) : Int := (x + 2 ^ 63) % 2 ^ 64 - 2 ^ 63

/-- Go `PQItem`. The field `value` is an interface value (`none` is nil, `some h` a
client handle) and `addr` a pointer to an address (ip and port). -/
structure PQItem where
  value : Option Nat
  key : UniqueID
  addr : Option (String × Int)
  priority : Int
  index : Int
deriving DecidableEq, Repr

/-- Go `PriorityQueue`. -/
structure PriorityQueue where
  items : List PQItem
deriving DecidableEq, Repr

/-- Method `Len`. -/
def Len (pq : PriorityQueue) : Nat := pq.items.length

/-- Method `Less`, for positions in range. -/
def Less (pq : PriorityQueue) (i j : Nat) : Bool :=
  match pq.items[i]?, pq.items[j]? with
  | some a, some b => decide (a.priority < b.priority)
  | _, _ => false

/-- Method `Swap`, for positions in range: the two pointers are exchanged, then each item
records its new position. -/
def Swap (pq : PriorityQueue) (i j : Nat) : PriorityQueue :=
  match pq.items[i]?, pq.items[j]? with
  | some a, some b =>
    { items := (pq.items.set i { b with index := i }).set j { a with index := j } }
  | _, _ => pq

/-- Method `Push`: the item records the old length as its position and is appended. -/
def Push (pq : PriorityQueue) (x : PQItem) : PriorityQueue :=
  { items := pq.items ++ [{ x with index := (Len pq : Int) }] }

/-- Method `Pop`: the last item, marked with position `-1`, and the queue without it;
`none` on the empty queue. -/
def Pop (pq : PriorityQueue) : Option (PQItem × PriorityQueue) :=
  match pq.items.getLast? with
  | none => none
  | some item => some ({ item with index := -1 }, { items := pq.items.dropLast })

/-- Method `getItemByKey`: the position of the first item with the key, if any. -/
def getItemByKey (pq : PriorityQueue) (key : UniqueID) : Option Nat :=
  pq.items.findIdx? (fun item => decide (item.key = key))

/-- Loop of `heap.up`, bounded by `fuel` iterations; a loop started at `j` makes at most
`j` of them. In Go:
`for { i := (j - 1) / 2; if i == j || !h.Less(j, i) { break }; h.Swap(i, j); j = i }`,
where `(j - 1) / 2` is `0` for `j = 0`. -/
def heap.upLoop : Nat → PriorityQueue → Nat → PriorityQueue
  | 0, h, _ => h
  | fuel + 1, h, j =>
    let i := (j - 1) / 2
    if i = j ∨ !Less h j i then h
    else heap.upLoop fuel (Swap h i j) i

/-- Library function `heap.up`. -/
def heap.up (h : PriorityQueue) (j : Nat) : PriorityQueue := heap.upLoop j h j

/-- Loop of `heap.down`, bounded by `fuel` iterations: the queue and the final value of
`i`. A loop started at `i` with the bound `n` makes at most `n - i` of them. In Go:
`for { j1 := 2*i + 1; if j1 >= n || j1 < 0 { break }; j := j1;`
`if j2 := j1 + 1; j2 < n && h.Less(j2, j1) { j = j2 };`
`if !h.Less(j, i) { break }; h.Swap(i, j); i = j }; return i > i0`. -/
def heap.downLoop : Nat → PriorityQueue → Nat → Nat → PriorityQueue × Nat
  | 0, h, i, _ => (h, i)
  | fuel + 1, h, i, n =>
    let j1 := 2 * i + 1
    if j1 ≥ n then (h, i)
    else
      let j := if j1 + 1 < n ∧ Less h (j1 + 1) j1 then j1 + 1 else j1
      if !Less h j i then (h, i)
      else heap.downLoop fuel (Swap h i j) j n

/-- The child that one iteration of `heap.down` at `i` compares with `i`: the right one
when it is in range and less than the left one, else the left one. -/
def heap.minChild (h : PriorityQueue) (i n : Nat) : Nat :=
  if 2 * i + 1 + 1 < n ∧ Less h (2 * i + 1 + 1) (2 * i + 1) then 2 * i + 1 + 1 else 2 * i + 1

/-- Library function `heap.down`: the queue and whether the item moved. -/
def heap.down (h : PriorityQueue) (i0 n : Nat) : PriorityQueue × Bool :=
  let r := heap.downLoop n h i0 n
  (r.1, decide (r.2 > i0))

/-- Library function `heap.Fix`, in Go `if !down(h, i, h.Len()) { up(h, i) }`. At
`i = -1`, and at `i = 0` on the empty queue, both loops stop before any access; any other
position out of range panics in `up`. -/
def heap.Fix (h : PriorityQueue) (i : Int) : Option PriorityQueue :=
  if 0 ≤ i ∧ i < (Len h : Int) then
    let r := heap.down h i.toNat (Len h)
    if !r.2 then some (heap.up r.1 i.toNat) else some r.1
  else if i = -1 ∨ i = 0 then some h
  else none

/-- Library function `heap.Remove`, without the popped item it returns. In Go:
`n := h.Len() - 1; if n != i { h.Swap(i, n); if !down(h, i, n) { up(h, i) } };`
`return h.Pop()`. A position out of range panics in `Swap` or in `Pop`. -/
def heap.Remove (h : PriorityQueue) (i : Int) : Option PriorityQueue :=
  if 0 ≤ i ∧ i < (Len h : Int) then
    let n := Len h - 1
    let h1 :=
      if n ≠ i.toNat then
        let h2 := Swap h i.toNat n
        let r := heap.down h2 i.toNat n
        if !r.2 then heap.up r.1 i.toNat else r.1
      else h
    (Pop h1).map (fun r => r.2)
  else none

/-- Method `IncPriority`. It has no result: the outcome is the queue it leaves, or `none`
when it panics. -/
def IncPriority (pq : PriorityQueue) (key : UniqueID) (priority : Int) :
    Option PriorityQueue :=
  match getItemByKey pq key with
  | none => some pq
  | some p =>
    match pq.items[p]? with
    | none => some pq
    | some item =>
      heap.Fix
        { items := pq.items.set p { item with priority := wrapInt (item.priority + priority) } }
        item.index

/-- Method `UpdatePriority`. It has no result: the outcome is the queue it leaves, or
`none` when it panics. -/
def UpdatePriority (pq : PriorityQueue) (key : UniqueID) (priority : Int) :
    Option PriorityQueue :=
  match getItemByKey pq key with
  | none => some pq
  | some p =>
    match pq.items[p]? with
    | none => some pq
    | some item =>
      heap.Fix { items := pq.items.set p { item with priority := priority } } item.index

/-- Method `Remove`. It has no result: the outcome is the queue it leaves, or `none` when
it panics. -/
def Remove (pq : PriorityQueue) (key : UniqueID) : Option PriorityQueue :=
  match getItemByKey pq key with
  | none => some pq
  | some p =>
    match pq.items[p]? with
    | none => some pq
    | some item => heap.Remove pq item.index

/-- Method `Peek`: the first item, or `none` (nil) on the empty queue. -/
def Peek (pq : PriorityQueue) : Option PQItem :=
  if Len pq = 0 then none else pq.items[0]?

/-- Method `PeekClient`. -/
def PeekClient (pq : PriorityQueue) : UniqueID × Option Nat :=
  match Peek pq with
  | none => (-1, none)
  | some item => (item.key, item.value)

/-- The empty queue, the zero value of `PriorityQueue`. -/
def emptyQueue : PriorityQueue := { items := [] }

/-- An item as a caller builds it before `Push`: key, client handle and priority. -/
def newItem (key : UniqueID) (value : Nat) (priority : Int) : PQItem :=
  { value := some value, key := key, addr := none, priority := priority, index := 0 }

/-- One call on the queue. -/
inductive PQOp where
  | Push (x : PQItem)
  | IncPriority (key : UniqueID) (priority : Int)
  | UpdatePriority (key : UniqueID) (priority : Int)
  | Remove (key : UniqueID)

/-- Queue after one call; `none` when the call panics. -/
def applyOp (pq : PriorityQueue) : PQOp → Option PriorityQueue
  | .Push x => some (Push pq x)
  | .IncPriority key priority => IncPriority pq key priority
  | .UpdatePriority key priority => UpdatePriority pq key priority
  | .Remove key => Remove pq key

/-- Queue after a sequence of calls. -/
def runOps (pq : PriorityQueue) (ops : List PQOp) : Option PriorityQueue :=
  ops.foldlM applyOp pq

/-- If the call is a `Push`, no item of the queue carries the key it brings. -/
def pushIsFresh (pq : PriorityQueue) : PQOp → Prop
  | .Push x => ∀ y ∈ pq.items, y.key ≠ x.key
  | _ => True

instance (pq : PriorityQueue) : (op : PQOp) → Decidable (pushIsFresh pq op)
  | .Push x => inferInstanceAs (Decidable (∀ y ∈ pq.items, y.key ≠ x.key))
  | .IncPriority _ _ => isTrue trivial
  | .UpdatePriority _ _ => isTrue trivial
  | .Remove _ => isTrue trivial

/-- Along the sequence of calls, no `Push` is given a key that an item of the queue
carries at that moment. -/
def freshPushes (pq : PriorityQueue) : List PQOp → Prop
  | [] => True
  | op :: ops =>
    pushIsFresh pq op ∧
    (match applyOp pq op with
      | some pq1 => freshPushes pq1 ops
      | none => True)

/-- A min-heap of three workers with the scores `1`, `5` and `3`. -/
def heapOf135 : PriorityQueue :=
  { items :=
      [{ value := some 102, key := 2, addr := none, priority := 1, index := 0 },
       { value := some 101, key := 1, addr := none, priority := 5, index := 1 },
       { value := some 103, key := 3, addr := none, priority := 3, index := 2 }] }

/-- Priority of the item at a position (`0` out of range). -/
def prioAt (items : List PQItem) (i : Nat) : Int :=
  match items[i]? with
  | some a => a.priority
  | none => 0

/-- Min-heap order on the first `n` positions: no item is below its parent. -/
def heapOrdered (items : List PQItem) (n : Nat) : Prop :=
  ∀ k, k < n → 0 < k → prioAt items ((k - 1) / 2) ≤ prioAt items k

/-- Min-heap order on the whole queue. -/
def isMinHeap (pq : PriorityQueue) : Prop := heapOrdered pq.items pq.items.length

/-- Every item records its own position. -/
def indexConsistent (pq : PriorityQueue) : Prop :=
  ∀ i, i < pq.items.length → pq.items[i]?.map (fun a => a.index) = some (i : Int)

instance (pq : PriorityQueue) : Decidable (isMinHeap pq) := by
  unfold isMinHeap heapOrdered
  infer_instance

instance (pq : PriorityQueue) : Decidable (indexConsistent pq) := by
  unfold indexConsistent
  infer_instance

/-- On the first `n` positions, the children of `p` are not below the parent of `p`. -/
def grandparentOK (items : List PQItem) (n p : Nat) : Prop :=
  ∀ k, k < n → 0 < k → (k - 1) / 2 = p → 0 < p →
    prioAt items ((p - 1) / 2) ≤ prioAt items k

/-- On the first `n` positions, no child of `i` is below `i`. -/
def childrenOK (items : List PQItem) (n i : Nat) : Prop :=
  ∀ k, k < n → 0 < k → (k - 1) / 2 = i → prioAt items i ≤ prioAt items k

/-- Min-heap order on the first `n` positions except on the links of `p`, to its parent
and to its children. -/
def fixInv (items : List PQItem) (n p : Nat) : Prop :=
  (∀ k, k < n → 0 < k → k ≠ p → (k - 1) / 2 ≠ p →
      prioAt items ((k - 1) / 2) ≤ prioAt items k) ∧
    grandparentOK items n p

/-- Min-heap order on the first `n` positions except on the links of `i` to its
children. -/
def downInv (items : List PQItem) (n i : Nat) : Prop :=
  (∀ k, k < n → 0 < k → (k - 1) / 2 ≠ i →
      prioAt items ((k - 1) / 2) ≤ prioAt items k) ∧
    grandparentOK items n i

/-- Min-heap order on the first `n` positions except on the link of `j` to its parent. -/
def upInv (items : List PQItem) (n j : Nat) : Prop :=
  (∀ k, k < n → 0 < k → k ≠ j → prioAt items ((k - 1) / 2) ≤ prioAt items k) ∧
    grandparentOK items n j

/-- The worker an item stands for: the item without its position in the slice. -/
def worker (a : PQItem) : PQItem := { a with index := 0 }

end indexservice

/-!
# Retry with backoff

A shallow embedding of `internal/util/retry/retry.go`.

* The operation `fn` is impure: it is represented by the results of its successive
  invocations, `fn k` being what the invocation number `k` (from `0`) returns.
* `attempts` is a Go `int` and `time.Duration` an `int64`, counted in nanoseconds: the
  decrement of `attempts` and the doubling of `sleep` are wrapped by `wrapInt64`.
* `Impl` returns, besides the error, the number of invocations of `fn` and the durations
  passed to `time.Sleep`, in order.
-/

namespace retry

/-- Value of an integer expression as a 64-bit signed Go integer. -/
def wrapInt64 (x : Int) : Int := (x + 2 ^ 63) % 2 ^ 64 - 2 ^ 63

/-- Go `error` values as `Impl` tells them apart: nil, an `InterruptError`, which embeds
an `error`, or any other error. -/
inductive GoError where
  | nil
  | plain (msg : String)
  | InterruptError (error : GoError)
deriving DecidableEq, Repr

/-- Function `NoRetryError`. -/
def NoRetryError (err : GoError) : GoError := GoError.InterruptError err

/-- What a call of `Impl` returns and does. -/
structure Outcome where
  err : GoError
  calls : Nat
  sleeps : List Int
deriving DecidableEq, Repr

/-- Body of `Impl`, with a bound on the depth of the recursion. -/
def ImplLoop : Nat → Int → Int → (Nat → GoError) → Int → Outcome
  | 0, _, _, _, _ => { err := GoError.nil, calls := 0, sleeps := [] }
  | fuel + 1, attempts, sleep, fn, maxSleepTime =>
    match fn 0 with
    | GoError.nil => { err := GoError.nil, calls := 1, sleeps := [] }
    | GoError.InterruptError s => { err := s, calls := 1, sleeps := [] }
    | GoError.plain msg =>
      let attempts := wrapInt64 (attempts - 1)
      if attempts > 0 then
        let r :=
          if sleep < maxSleepTime then
            ImplLoop fuel attempts (wrapInt64 (2 * sleep)) (fun k => fn (k + 1)) maxSleepTime
          else
            ImplLoop fuel attempts maxSleepTime (fun k => fn (k + 1)) maxSleepTime
        { err := r.err, calls := r.calls + 1, sleeps := sleep :: r.sleeps }
      else { err := GoError.plain msg, calls := 1, sleeps := [] }

/-- Function `Impl`. The recursion is as deep as the value of `attempts` after its first
decrement, when that is positive. -/
def Impl (attempts sleep : Int) (fn : Nat → GoError) (maxSleepTime : Int) : Outcome :=
  ImplLoop ((wrapInt64 (attempts - 1)).toNat + 1) attempts sleep fn maxSleepTime

/-- One millisecond as a `time.Duration`. -/
def Millisecond : Int := 1000000

/-- Function `Retry`. -/
def Retry (attempts sleep : Int) (fn : Nat → GoError) : Outcome :=
  Impl attempts sleep fn (Millisecond * 1000)

/-- An operation that fails at every invocation, with an error that tells the number of
the invocation. -/
def alwaysFails (k : Nat) : GoError := GoError.plain (toString k)

/-- An operation whose first `k - 1` invocations fail with ordinary errors and whose later
invocations return `last`. -/
def failsUntil (k : Nat) (last : GoError) (i : Nat) : GoError :=
  if i + 1 < k then GoError.plain (toString i) else last

/-- The sleep that `Impl` hands to its recursive call (lines 32 to 35): twice the sleep
just made when that was below `maxSleepTime`, else `maxSleepTime`. -/
def nextSleep (maxSleepTime sleep : Int) : Int :=
  if sleep < maxSleepTime then wrapInt64 (2 * sleep) else maxSleepTime

end retry

/-!
# Task handlers of the query node

A shallow embedding of the handlers of `internal/querynode/impl.go` that hand a task to
the scheduler: `WatchDmChannels`, `LoadSegments`, `ReleaseCollection`, `ReleasePartitions`.

* The task queue and the tasks are declared outside this file. A handler calls
  `node.scheduler.queue.Enqueue` and then `WaitToFinish` on the task; it takes the error
  each call returns (`none` is nil) as an argument and records the calls it makes. The
  second argument is read only when `WaitToFinish` is called.
* An error is represented by its message, the string `err.Error()` returns.
* A handler returns a `commonpb.Status` and an error; the messages it gives to
  `log.Error` are recorded as well. The request only feeds the debug log.
* In each handler the call of `WaitToFinish` sits in a function literal that is called on
  the spot: its `return` leaves the literal, and the handler goes on after it.
-/

namespace querynode

/-- A Go `error`, by its message. -/
abbrev Error := String

/-- The values of `commonpb.ErrorCode` that the handlers use. -/
inductive ErrorCode where
  | Success
  | UnexpectedError
deriving DecidableEq, Repr

/-- Message `commonpb.Status`; `Reason` is empty when it is not set. -/
structure Status where
  ErrorCode : ErrorCode
  Reason : String
deriving DecidableEq, Repr

/-- The calls a handler makes on the scheduler queue and on the task. -/
inductive Call where
  | Enqueue
  | WaitToFinish
deriving DecidableEq, Repr

/-- What a handler returns and does. -/
structure Reply where
  status : Status
  err : Option Error
  calls : List Call
  logged : List Error
deriving DecidableEq, Repr

/-- Method `WatchDmChannels` (lines 182 to 216), with the task `watchDmChannelsTask`. -/
def WatchDmChannels (enqueue waitToFinish : Option Error) : Reply :=
  match enqueue with
  | some err =>
    { status := { ErrorCode := ErrorCode.UnexpectedError, Reason := err },
      err := some err,
      calls := [Call.Enqueue],
      logged := [err] }
  | none =>
    let waited : List Error :=
      match waitToFinish with
      | some err => [err]
      | none => []
    { status := { ErrorCode := ErrorCode.Success, Reason := "" },
      err := none,
      calls := [Call.Enqueue, Call.WaitToFinish],
      logged := waited }

/-- Method `LoadSegments` (lines 218 to 256), with the task `loadSegmentsTask`. -/
def LoadSegments (enqueue waitToFinish : Option Error) : Reply :=
  match enqueue with
  | some err =>
    { status := { ErrorCode := ErrorCode.UnexpectedError, Reason := err },
      err := some err,
      calls := [Call.Enqueue],
      logged := [err] }
  | none =>
    let waited : List Error :=
      match waitToFinish with
      | some err => [err]
      | none => []
    { status := { ErrorCode := ErrorCode.Success, Reason := "" },
      err := none,
      calls := [Call.Enqueue, Call.WaitToFinish],
      logged := waited }

/-- Method `ReleaseCollection` (lines 258 to 292), with the task `releaseCollectionTask`. -/
def ReleaseCollection (enqueue waitToFinish : Option Error) : Reply :=
  match enqueue with
  | some err =>
    { status := { ErrorCode := ErrorCode.UnexpectedError, Reason := err },
      err := some err,
      calls := [Call.Enqueue],
      logged := [err] }
  | none =>
    let waited : List Error :=
      match waitToFinish with
      | some err => [err]
      | none => []
    { status := { ErrorCode := ErrorCode.Success, Reason := "" },
      err := none,
      calls := [Call.Enqueue, Call.WaitToFinish],
      logged := waited }

/-- Method `ReleasePartitions` (lines 294 to 328), with the task `releasePartitionsTask`. -/
def ReleasePartitions (enqueue waitToFinish : Option Error) : Reply :=
  match enqueue with
  | some err =>
    { status := { ErrorCode := ErrorCode.UnexpectedError, Reason := err },
      err := some err,
      calls := [Call.Enqueue],
      logged := [err] }
  | none =>
    let waited : List Error :=
      match waitToFinish with
      | some err => [err]
      | none => []
    { status := { ErrorCode := ErrorCode.Success, Reason := "" },
      err := none,
      calls := [Call.Enqueue, Call.WaitToFinish],
      logged := waited }

end querynode

namespace proxynode

/-! ## The loop of `tick`, channel by channel -/

theorem tickChannel_lookup_ne {I now : Timestamp} {stats : StatisticsMap}
    {t t1 : channelsTimeTickerImpl} {k c : pChan}
    (h : tickChannel I now stats t k = some t1) (hc : c ≠ k) :
    t1.minTsStatistics.lookup c = t.minTsStatistics.lookup c ∧
      t1.currents.lookup c = t.currents.lookup c := by
  unfold tickChannel at h
  cases hs : stats.lookup k with
  | none =>
    simp only [hs] at h
    cases h
    simp [AList.lookup_insert_ne hc]
  | some o =>
    cases o with
    | none => simp [hs] at h
    | some stat =>
      simp only [hs] at h
      by_cases hm : stat.minTs > (t.currents.lookup k).getD 0
      · rw [if_pos hm] at h
        cases h
        simp [AList.lookup_insert_ne hc]
      · rw [if_neg hm] at h
        cases h
        exact ⟨rfl, rfl⟩

theorem tickLoop_lookup_not_mem {I now : Timestamp} {stats : StatisticsMap} {c : pChan} :
    ∀ (ks : List pChan) (t t1 : channelsTimeTickerImpl),
      ks.foldlM (tickChannel I now stats) t = some t1 → c ∉ ks →
      t1.minTsStatistics.lookup c = t.minTsStatistics.lookup c ∧
        t1.currents.lookup c = t.currents.lookup c := by
  intro ks
  induction ks with
  | nil =>
    intro t t1 h _
    simp at h
    subst h
    exact ⟨rfl, rfl⟩
  | cons k ks ih =>
    intro t t1 h hc
    rw [List.foldlM_cons] at h
    cases hk : tickChannel I now stats t k with
    | none => simp [hk] at h
    | some t0 =>
      simp [hk] at h
      have hne : c ≠ k := fun e => hc (by simp [e])
      have hrest : c ∉ ks := fun e => hc (by simp [e])
      obtain ⟨h1, h2⟩ := tickChannel_lookup_ne hk hne
      obtain ⟨h3, h4⟩ := ih t0 t1 h hrest
      exact ⟨h3.trans h1, h4.trans h2⟩

/-- In a loop over distinct channels, the state a channel of the list ends with is the
one its own iteration leaves, and that iteration starts from the channel's entries of the
initial state. -/
theorem tickLoop_lookup_mem {I now : Timestamp} {stats : StatisticsMap} {c : pChan} :
    ∀ (ks : List pChan) (t t1 : channelsTimeTickerImpl),
      ks.foldlM (tickChannel I now stats) t = some t1 → ks.Nodup → c ∈ ks →
      ∃ u u1 : channelsTimeTickerImpl,
        u.minTsStatistics.lookup c = t.minTsStatistics.lookup c ∧
        u.currents.lookup c = t.currents.lookup c ∧
        tickChannel I now stats u c = some u1 ∧
        t1.minTsStatistics.lookup c = u1.minTsStatistics.lookup c ∧
        t1.currents.lookup c = u1.currents.lookup c := by
  intro ks
  induction ks with
  | nil =>
    intro t t1 _ _ hc
    simp at hc
  | cons k ks ih =>
    intro t t1 h hnd hc
    rw [List.foldlM_cons] at h
    cases hk : tickChannel I now stats t k with
    | none => simp [hk] at h
    | some t0 =>
      simp [hk] at h
      rw [List.nodup_cons] at hnd
      by_cases hck : c = k
      · subst hck
        obtain ⟨h3, h4⟩ := tickLoop_lookup_not_mem ks t0 t1 h hnd.1
        exact ⟨t, t0, rfl, rfl, hk, h3, h4⟩
      · have hmem : c ∈ ks := by
          rcases List.mem_cons.mp hc with e | e
          · exact absurd e hck
          · exact e
        obtain ⟨u, u1, e1, e2, e3, e4, e5⟩ := ih t0 t1 h hnd.2 hmem
        obtain ⟨h1, h2⟩ := tickChannel_lookup_ne hk hck
        exact ⟨u, u1, e1.trans h1, e2.trans h2, e3, e4, e5⟩

/-- What a returning call of `tick` with a successful allocation has done. -/
theorem tick_returned {I now : Timestamp} {t t1 : channelsTimeTickerImpl}
    {gs : StatisticsMap × Option Error} {err : Option Error} {calls : List Call}
    (h : tick I t (now, none) gs = .returned err t1 calls) :
    err = none ∧ calls = [Call.AllocOne, Call.getStatisticsFunc] ∧
      t.currents.keys.foldlM (tickChannel I now gs.1) t = some t1 := by
  unfold tick at h
  simp only at h
  cases hf : t.currents.keys.foldlM (tickChannel I now gs.1) t with
  | none => simp [hf] at h
  | some u =>
    simp only [hf] at h
    injection h with h1 h2 h3
    subst h1 h2 h3
    exact ⟨rfl, rfl, rfl⟩

/-- A returning cycle treats a tracked channel by one run of the loop body, started from
that channel's own entries. -/
theorem tick_channel {I now : Timestamp} {t t1 : channelsTimeTickerImpl}
    {gs : StatisticsMap × Option Error} {err : Option Error} {calls : List Call}
    {c : pChan} {cand : Timestamp}
    (h : tick I t (now, none) gs = .returned err t1 calls)
    (hc : t.currents.lookup c = some cand) :
    ∃ u u1 : channelsTimeTickerImpl,
      u.minTsStatistics.lookup c = t.minTsStatistics.lookup c ∧
      u.currents.lookup c = some cand ∧
      tickChannel I now gs.1 u c = some u1 ∧
      t1.minTsStatistics.lookup c = u1.minTsStatistics.lookup c ∧
      t1.currents.lookup c = u1.currents.lookup c := by
  obtain ⟨_, _, hf⟩ := tick_returned h
  have hmem : c ∈ t.currents.keys := by
    have : c ∈ t.currents := by
      rw [← AList.lookup_isSome, hc]
      rfl
    exact AList.mem_keys.mp this
  obtain ⟨u, u1, e1, e2, e3, e4, e5⟩ :=
    tickLoop_lookup_mem t.currents.keys t t1 hf t.currents.keys_nodup hmem
  exact ⟨u, u1, e1, e2.trans hc, e3, e4, e5⟩

/-- A returning cycle leaves the entries of an untracked channel as they were. -/
theorem tick_untracked {I now : Timestamp} {t t1 : channelsTimeTickerImpl}
    {gs : StatisticsMap × Option Error} {err : Option Error} {calls : List Call}
    {c : pChan}
    (h : tick I t (now, none) gs = .returned err t1 calls)
    (hc : t.currents.lookup c = none) :
    t1.minTsStatistics.lookup c = t.minTsStatistics.lookup c ∧
      t1.currents.lookup c = none := by
  obtain ⟨_, _, hf⟩ := tick_returned h
  have hmem : c ∉ t.currents.keys := by
    have : c ∉ t.currents := AList.lookup_eq_none.mp hc
    exact fun e => this (AList.mem_keys.mpr e)
  obtain ⟨h1, h2⟩ := tickLoop_lookup_not_mem t.currents.keys t t1 hf hmem
  exact ⟨h1, h2.trans hc⟩

/-- The loop body on a channel without a statistics entry. -/
theorem tickChannel_no_statistics {I now : Timestamp} {stats : StatisticsMap}
    {u u1 : channelsTimeTickerImpl} {c : pChan} {cand : Timestamp}
    (hu : u.currents.lookup c = some cand) (hs : stats.lookup c = none)
    (h : tickChannel I now stats u c = some u1) :
    u1.minTsStatistics.lookup c = some cand ∧ u1.currents.lookup c = some now := by
  unfold tickChannel at h
  simp only [hs, hu, Option.getD_some] at h
  cases h
  simp

/-- The loop body on a channel whose oldest in-flight timestamp is past the candidate. -/
theorem tickChannel_advance {I now : Timestamp} {stats : StatisticsMap}
    {u u1 : channelsTimeTickerImpl} {c : pChan} {cand : Timestamp} {stat : pChanStatistics}
    (hu : u.currents.lookup c = some cand) (hs : stats.lookup c = some (some stat))
    (hm : stat.minTs > cand)
    (h : tickChannel I now stats u c = some u1) :
    u1.minTsStatistics.lookup c = some (if stat.minTs > now then now else cand) ∧
      u1.currents.lookup c =
        some (if (now + I) % uint64Modulus > stat.maxTs then stat.maxTs
              else (now + I) % uint64Modulus) := by
  unfold tickChannel at h
  simp only [hs, hu, Option.getD_some, if_pos hm] at h
  cases h
  simp

/-- The loop body on a channel whose oldest in-flight timestamp is not past the
candidate. -/
theorem tickChannel_stalled {I now : Timestamp} {stats : StatisticsMap}
    {u u1 : channelsTimeTickerImpl} {c : pChan} {cand : Timestamp} {stat : pChanStatistics}
    (hu : u.currents.lookup c = some cand) (hs : stats.lookup c = some (some stat))
    (hm : stat.minTs ≤ cand)
    (h : tickChannel I now stats u c = some u1) :
    u1 = u := by
  unfold tickChannel at h
  simp only [hs, hu, Option.getD_some, if_neg (Nat.not_lt.mpr hm)] at h
  cases h
  rfl

/-- A returning cycle on a tracked channel without statistics entry: the candidate is
published and `now` becomes the candidate. -/
theorem tick_no_statistics {I now : Timestamp} {t t1 : channelsTimeTickerImpl}
    {gs : StatisticsMap × Option Error} {err : Option Error} {calls : List Call}
    {c : pChan} {cand : Timestamp}
    (htick : tick I t (now, none) gs = .returned err t1 calls)
    (hc : t.currents.lookup c = some cand)
    (hs : gs.1.lookup c = none) :
    t1.minTsStatistics.lookup c = some cand ∧ t1.currents.lookup c = some now := by
  obtain ⟨u, u1, _, e2, e3, e4, e5⟩ := tick_channel htick hc
  obtain ⟨h1, h2⟩ := tickChannel_no_statistics e2 hs e3
  exact ⟨e4.trans h1, e5.trans h2⟩

/-! ## Claims on one cycle -/

/-- C1 (no-statistics advance): in a cycle whose allocation returns `now` and that
returns without error, a tracked channel with no entry in the statistics of the cycle
gets its previous candidate as published watermark and `now` as new candidate. -/
theorem C1_no_statistics_advance (I now : Timestamp) (t t1 : channelsTimeTickerImpl)
    (gs : StatisticsMap × Option Error) (calls : List Call) (c : pChan) (cand : Timestamp)
    (htick : tick I t (now, none) gs = .returned none t1 calls)
    (hc : t.currents.lookup c = some cand)
    (hs : gs.1.lookup c = none) :
    t1.minTsStatistics.lookup c = some cand ∧ t1.currents.lookup c = some now := by
  obtain ⟨u, u1, _, e2, e3, e4, e5⟩ := tick_channel htick hc
  obtain ⟨h1, h2⟩ := tickChannel_no_statistics e2 hs e3
  exact ⟨e4.trans h1, e5.trans h2⟩

/-- C2, as amended: in a returning cycle with allocated timestamp `now`, a tracked channel
whose statistics entry has `minTs` past the candidate gets `now` as published watermark
when `minTs > now` and the candidate otherwise; this is `min candidate now` whenever
`minTs ≤ now` or `now ≤ candidate`. -/
theorem C2_pending_watermark (I now : Timestamp) (t t1 : channelsTimeTickerImpl)
    (gs : StatisticsMap × Option Error) (calls : List Call) (c : pChan) (cand : Timestamp)
    (stat : pChanStatistics)
    (htick : tick I t (now, none) gs = .returned none t1 calls)
    (hc : t.currents.lookup c = some cand)
    (hs : gs.1.lookup c = some (some stat))
    (hm : stat.minTs > cand) :
    t1.minTsStatistics.lookup c = some (if stat.minTs > now then now else cand) ∧
      (stat.minTs ≤ now ∨ now ≤ cand →
        t1.minTsStatistics.lookup c = some (min cand now)) := by
  obtain ⟨u, u1, _, e2, e3, e4, _⟩ := tick_channel htick hc
  obtain ⟨h1, _⟩ := tickChannel_advance e2 hs hm e3
  have hw := e4.trans h1
  refine ⟨hw, fun hcase => ?_⟩
  rw [hw]
  congr 1
  simp only [Timestamp] at *
  rcases hcase with h | h
  · have hlt : ¬ stat.minTs > now := Nat.not_lt.mpr h
    rw [if_neg hlt]
    have : cand ≤ now := Nat.le_of_lt (Nat.lt_of_lt_of_le hm h)
    exact (Nat.min_eq_left this).symm
  · rw [Nat.min_eq_right h]
    split
    · rfl
    · omega

/-- C3 (next candidate): in a returning cycle with allocated timestamp `now`, a tracked
channel whose statistics entry has `minTs` past the candidate gets a new candidate that is
at most `maxTs`, and that is `min (now + sendTimeTickMsgInterval) maxTs` when the sum
does not overflow 64 bits. -/
theorem C3_pending_next_candidate (I now : Timestamp) (t t1 : channelsTimeTickerImpl)
    (gs : StatisticsMap × Option Error) (calls : List Call) (c : pChan) (cand : Timestamp)
    (stat : pChanStatistics)
    (htick : tick I t (now, none) gs = .returned none t1 calls)
    (hc : t.currents.lookup c = some cand)
    (hs : gs.1.lookup c = some (some stat))
    (hm : stat.minTs > cand) :
    (now + I < uint64Modulus →
        t1.currents.lookup c = some (min (now + I) stat.maxTs)) ∧
      ∃ next : Timestamp, t1.currents.lookup c = some next ∧ next ≤ stat.maxTs := by
  obtain ⟨u, u1, _, e2, e3, _, e5⟩ := tick_channel htick hc
  obtain ⟨_, h2⟩ := tickChannel_advance e2 hs hm e3
  have hn := e5.trans h2
  refine ⟨fun hov => ?_, ?_⟩
  · rw [hn, Nat.mod_eq_of_lt hov]
    congr 1
    simp only [Timestamp] at *
    split
    · rw [Nat.min_eq_right (by omega)]
    · rw [Nat.min_eq_left (by omega)]
  · refine ⟨_, hn, ?_⟩
    simp only [Timestamp] at *
    split
    · exact Nat.le_refl _
    · omega

/-- C5 (stalled-channel isolation): in a returning cycle, a tracked channel `c1` whose
statistics entry has `minTs ≤ currents[c1]` keeps its watermark and its candidate; and for
any other tracked channel `c2`, any cycle with the same `now` in which `c2` has the same
candidate and the same statistics entry (whatever the state and the statistics of the
other channels, `c1` included) treats `c2` the same way: both leave its two entries as
they were, or both write the same watermark and candidate. -/
theorem C5_stalled_channel_isolation (I now : Timestamp) (t t1 : channelsTimeTickerImpl)
    (gs : StatisticsMap × Option Error) (calls : List Call) (c1 : pChan)
    (cand1 : Timestamp) (stat1 : pChanStatistics)
    (htick : tick I t (now, none) gs = .returned none t1 calls)
    (hc1 : t.currents.lookup c1 = some cand1)
    (hs1 : gs.1.lookup c1 = some (some stat1))
    (hstall : stat1.minTs ≤ cand1) :
    (t1.minTsStatistics.lookup c1 = t.minTsStatistics.lookup c1 ∧
        t1.currents.lookup c1 = t.currents.lookup c1) ∧
      ∀ (c2 : pChan) (cand2 : Timestamp), c2 ≠ c1 → t.currents.lookup c2 = some cand2 →
        ∀ (t' t1' : channelsTimeTickerImpl) (gs' : StatisticsMap × Option Error)
          (calls' : List Call),
          tick I t' (now, none) gs' = .returned none t1' calls' →
          t'.currents.lookup c2 = some cand2 →
          gs'.1.lookup c2 = gs.1.lookup c2 →
          (t1.minTsStatistics.lookup c2 = t.minTsStatistics.lookup c2 ∧
              t1.currents.lookup c2 = t.currents.lookup c2 ∧
              t1'.minTsStatistics.lookup c2 = t'.minTsStatistics.lookup c2 ∧
              t1'.currents.lookup c2 = t'.currents.lookup c2) ∨
            (t1'.minTsStatistics.lookup c2 = t1.minTsStatistics.lookup c2 ∧
              t1'.currents.lookup c2 = t1.currents.lookup c2) := by
  constructor
  · obtain ⟨u, u1, e1, e2, e3, e4, e5⟩ := tick_channel htick hc1
    have hu := tickChannel_stalled e2 hs1 hstall e3
    subst hu
    exact ⟨e4.trans e1, e5.trans (e2.trans hc1.symm)⟩
  · intro c2 cand2 _ hc2 t' t1' gs' calls' htick' hc2' hgs
    obtain ⟨u, u1, e1, e2, e3, e4, e5⟩ := tick_channel htick hc2
    obtain ⟨v, v1, f1, f2, f3, f4, f5⟩ := tick_channel htick' hc2'
    cases hs : gs.1.lookup c2 with
    | none =>
      obtain ⟨a1, a2⟩ := tickChannel_no_statistics e2 hs e3
      obtain ⟨b1, b2⟩ := tickChannel_no_statistics f2 (hgs.trans hs) f3
      exact Or.inr ⟨(f4.trans b1).trans (e4.trans a1).symm,
        (f5.trans b2).trans (e5.trans a2).symm⟩
    | some o =>
      cases o with
      | none =>
        unfold tickChannel at e3
        simp [hs] at e3
      | some stat =>
        by_cases hm : stat.minTs > cand2
        · obtain ⟨a1, a2⟩ := tickChannel_advance e2 hs hm e3
          obtain ⟨b1, b2⟩ := tickChannel_advance f2 (hgs.trans hs) hm f3
          exact Or.inr ⟨(f4.trans b1).trans (e4.trans a1).symm,
            (f5.trans b2).trans (e5.trans a2).symm⟩
        · have hle : stat.minTs ≤ cand2 := Nat.not_lt.mp hm
          have hu := tickChannel_stalled e2 hs hle e3
          have hv := tickChannel_stalled f2 (hgs.trans hs) hle f3
          subst hu hv
          exact Or.inl ⟨e4.trans e1, e5.trans (e2.trans hc2.symm), f4.trans f1,
            f5.trans (f2.trans hc2'.symm)⟩

/-- C7 (allocation failure): when `AllocOne` returns an error, `tick` returns that error,
leaves the ticker as it was and has called `AllocOne` only: the statistics are not
queried, whatever the query would return. -/
theorem C7_alloc_failure_skips_cycle (I ts : Timestamp) (err : Error)
    (t : channelsTimeTickerImpl) (gs : StatisticsMap × Option Error) :
    tick I t (ts, some err) gs = .returned (some err) t [Call.AllocOne] ∧
      Call.getStatisticsFunc ∉ [Call.AllocOne] := by
  constructor
  · rfl
  · decide

/-! ## Channel membership -/

theorem foldl_insert_lookup (v : Timestamp) (c : pChan) :
    ∀ (ks : List pChan) (m : TimestampMap),
      (ks.foldl (fun m k => m.insert k v) m).lookup c =
        if c ∈ ks then some v else m.lookup c := by
  intro ks
  induction ks with
  | nil => intro m; simp
  | cons k ks ih =>
    intro m
    rw [List.foldl_cons, ih]
    by_cases hck : c = k
    · subst hck
      simp
    · by_cases hmem : c ∈ ks
      · simp [hmem]
      · simp [hmem, hck, AList.lookup_insert_ne hck]

theorem newChannelsTimeTicker_fold_lookup (c : pChan) :
    ∀ (pchans : List pChan) (t : channelsTimeTickerImpl),
      ((pchans.foldl
          (fun ticker pchan =>
            ({ minTsStatistics := ticker.minTsStatistics.insert pchan 0
               currents := ticker.currents.insert pchan 0 } : channelsTimeTickerImpl))
          t).minTsStatistics.lookup c =
          if c ∈ pchans then some 0 else t.minTsStatistics.lookup c) ∧
        ((pchans.foldl
          (fun ticker pchan =>
            ({ minTsStatistics := ticker.minTsStatistics.insert pchan 0
               currents := ticker.currents.insert pchan 0 } : channelsTimeTickerImpl))
          t).currents.lookup c =
          if c ∈ pchans then some 0 else t.currents.lookup c) := by
  intro pchans
  induction pchans with
  | nil => intro t; simp
  | cons k ks ih =>
    intro t
    rw [List.foldl_cons]
    obtain ⟨h1, h2⟩ := ih
      ({ minTsStatistics := t.minTsStatistics.insert k 0
         currents := t.currents.insert k 0 } : channelsTimeTickerImpl)
    rw [h1, h2]
    by_cases hck : c = k
    · subst hck
      simp
    · by_cases hmem : c ∈ ks
      · simp [hmem]
      · simp [hmem, hck, AList.lookup_insert_ne hck]

/-- The state built by `newChannelsTimeTicker`, entry by entry. -/
theorem newChannelsTimeTicker_lookup (pchans : List pChan) (c : pChan) :
    (newChannelsTimeTicker pchans).minTsStatistics.lookup c =
        (if c ∈ pchans then some 0 else none) ∧
      (newChannelsTimeTicker pchans).currents.lookup c =
        (if c ∈ pchans then some 0 else none) := by
  have h := newChannelsTimeTicker_fold_lookup c pchans
    ({ minTsStatistics := ∅, currents := ∅ } : channelsTimeTickerImpl)
  simpa [newChannelsTimeTicker] using h

theorem initStatistics_lookup (t : channelsTimeTickerImpl) (c : pChan) :
    (initStatistics t).minTsStatistics.lookup c =
        (if (t.minTsStatistics.lookup c).isSome then some 0 else none) ∧
      (initStatistics t).currents = t.currents := by
  refine ⟨?_, rfl⟩
  show (t.minTsStatistics.keys.foldl (fun m k => m.insert k 0) t.minTsStatistics).lookup c = _
  rw [foldl_insert_lookup]
  by_cases hmem : c ∈ t.minTsStatistics.keys
  · have : (t.minTsStatistics.lookup c).isSome = true :=
      AList.lookup_isSome.mpr (AList.mem_keys.mpr hmem)
    simp [hmem, this]
  · have hn : t.minTsStatistics.lookup c = none :=
      AList.lookup_eq_none.mpr (fun e => hmem (AList.mem_keys.mp e))
    simp [hmem, hn]

theorem initCurrents_lookup (t : channelsTimeTickerImpl) (current : Timestamp) (c : pChan) :
    (initCurrents t current).currents.lookup c =
        (if (t.currents.lookup c).isSome then some current else none) ∧
      (initCurrents t current).minTsStatistics = t.minTsStatistics := by
  refine ⟨?_, rfl⟩
  show (t.currents.keys.foldl (fun m k => m.insert k current) t.currents).lookup c = _
  rw [foldl_insert_lookup]
  by_cases hmem : c ∈ t.currents.keys
  · have : (t.currents.lookup c).isSome = true :=
      AList.lookup_isSome.mpr (AList.mem_keys.mpr hmem)
    simp [hmem, this]
  · have hn : t.currents.lookup c = none :=
      AList.lookup_eq_none.mpr (fun e => hmem (AList.mem_keys.mp e))
    simp [hmem, hn]

theorem sameKeys_iff_lookup (t : channelsTimeTickerImpl) :
    sameKeys t ↔
      ∀ c : pChan, (t.minTsStatistics.lookup c).isSome = (t.currents.lookup c).isSome := by
  unfold sameKeys
  constructor
  · intro h c
    have hc := h c
    rw [← AList.lookup_isSome, ← AList.lookup_isSome] at hc
    exact Bool.eq_iff_iff.mpr hc
  · intro h c
    rw [← AList.lookup_isSome, ← AList.lookup_isSome, h c]

theorem sameKeys_newChannelsTimeTicker (pchans : List pChan) :
    sameKeys (newChannelsTimeTicker pchans) := by
  rw [sameKeys_iff_lookup]
  intro c
  obtain ⟨h1, h2⟩ := newChannelsTimeTicker_lookup pchans c
  rw [h1, h2]

theorem sameKeys_start {t : channelsTimeTickerImpl} (ht : sameKeys t)
    (a : Timestamp × Option Error) : sameKeys (start t a).2 := by
  rw [sameKeys_iff_lookup] at ht ⊢
  intro c
  have hc := ht c
  obtain ⟨ts, e⟩ := a
  cases e with
  | some err =>
    show ((initStatistics t).minTsStatistics.lookup c).isSome =
      ((initStatistics t).currents.lookup c).isSome
    rw [(initStatistics_lookup t c).1, (initStatistics_lookup t c).2, ← hc]
    cases t.minTsStatistics.lookup c <;> rfl
  | none =>
    show ((initCurrents (initStatistics t) ts).minTsStatistics.lookup c).isSome =
      ((initCurrents (initStatistics t) ts).currents.lookup c).isSome
    rw [(initCurrents_lookup (initStatistics t) ts c).1,
      (initCurrents_lookup (initStatistics t) ts c).2,
      (initStatistics_lookup t c).1, (initStatistics_lookup t c).2, ← hc]
    cases t.minTsStatistics.lookup c <;> rfl

theorem sameKeys_tick {t : channelsTimeTickerImpl} (ht : sameKeys t) {I : Timestamp}
    {a : Timestamp × Option Error} {gs : StatisticsMap × Option Error}
    {err : Option Error} {t1 : channelsTimeTickerImpl} {calls : List Call}
    (h : tick I t a gs = .returned err t1 calls) : sameKeys t1 := by
  obtain ⟨now, e⟩ := a
  cases e with
  | some e0 =>
    have h0 : tick I t (now, some e0) gs = .returned (some e0) t [Call.AllocOne] := rfl
    rw [h0] at h
    injection h with _ h2 _
    rw [← h2]
    exact ht
  | none =>
    rw [sameKeys_iff_lookup] at ht ⊢
    intro c
    have hc := ht c
    cases hcur : t.currents.lookup c with
    | none =>
      obtain ⟨h1, h2⟩ := tick_untracked h hcur
      rw [h1, h2, hc, hcur]
    | some cand =>
      obtain ⟨u, u1, e1, e2, e3, e4, e5⟩ := tick_channel h hcur
      rw [e4, e5]
      cases hs : gs.1.lookup c with
      | none =>
        obtain ⟨a1, a2⟩ := tickChannel_no_statistics e2 hs e3
        rw [a1, a2]
        rfl
      | some o =>
        cases o with
        | none =>
          unfold tickChannel at e3
          simp [hs] at e3
        | some stat =>
          by_cases hm : stat.minTs > cand
          · obtain ⟨a1, a2⟩ := tickChannel_advance e2 hs hm e3
            rw [a1, a2]
            rfl
          · have hu := tickChannel_stalled e2 hs (Nat.not_lt.mp hm) e3
            subst hu
            rw [e1, e2, hc, hcur]

theorem sameKeys_addPChan {t : channelsTimeTickerImpl} (ht : sameKeys t) (c : pChan) :
    sameKeys (addPChan t c).2 := by
  have hc := (sameKeys_iff_lookup t).mp ht c
  unfold addPChan
  cases hw : t.minTsStatistics.lookup c with
  | some w => exact ht
  | none =>
    rw [hw] at hc
    have hcur : t.currents.lookup c = none := by
      cases h : t.currents.lookup c with
      | none => rfl
      | some v => rw [h] at hc; cases hc
    simp only [hcur]
    intro c'
    show c' ∈ t.minTsStatistics.insert c 0 ↔ c' ∈ t.currents.insert c 0
    rw [AList.mem_insert, AList.mem_insert, ht c']

theorem sameKeys_removePChan {t : channelsTimeTickerImpl} (ht : sameKeys t) (c : pChan) :
    sameKeys (removePChan t c).2 := by
  have hc := (sameKeys_iff_lookup t).mp ht c
  unfold removePChan
  cases hw : t.minTsStatistics.lookup c with
  | none => exact ht
  | some w =>
    rw [hw] at hc
    cases hcur : t.currents.lookup c with
    | none => rw [hcur] at hc; cases hc
    | some v =>
      simp only [hcur]
      intro c'
      show c' ∈ t.minTsStatistics.erase c ↔ c' ∈ t.currents.erase c
      rw [AList.mem_erase, AList.mem_erase, ht c']

/-- C8 (mapping agreement): the state built by `newChannelsTimeTicker` has the same
channels in both mappings, and from a state where this holds it holds again after `start`
(successful or failed), after a `tick` that returns (with or without an error), after
`addPChan` and after `removePChan` (each successful or failed). -/
theorem C8_mapping_agreement (pchans : List pChan) (t : channelsTimeTickerImpl)
    (ht : sameKeys t) (I : Timestamp) (a : Timestamp × Option Error)
    (gs : StatisticsMap × Option Error) (c : pChan) :
    sameKeys (newChannelsTimeTicker pchans) ∧
      sameKeys (start t a).2 ∧
      (∀ (err : Option Error) (t1 : channelsTimeTickerImpl) (calls : List Call),
        tick I t a gs = .returned err t1 calls → sameKeys t1) ∧
      sameKeys (addPChan t c).2 ∧
      sameKeys (removePChan t c).2 :=
  ⟨sameKeys_newChannelsTimeTicker pchans, sameKeys_start ht a,
    fun _ _ _ h => sameKeys_tick ht h, sameKeys_addPChan ht c, sameKeys_removePChan ht c⟩

/-- C9 (adding a channel): in a state whose mappings have the same channels, `addPChan`
of an untracked channel returns no error, gives the channel the value `0` in both
mappings and leaves every other entry as it was; a second `addPChan` of the same channel
returns the "already exist" error and the state the first call left. -/
theorem C9_addPChan (t : channelsTimeTickerImpl) (c : pChan) (ht : sameKeys t)
    (hc : t.minTsStatistics.lookup c = none) :
    (addPChan t c).1 = none ∧
      (addPChan t c).2.minTsStatistics.lookup c = some 0 ∧
      (addPChan t c).2.currents.lookup c = some 0 ∧
      (∀ c' : pChan, c' ≠ c →
        (addPChan t c).2.minTsStatistics.lookup c' = t.minTsStatistics.lookup c' ∧
          (addPChan t c).2.currents.lookup c' = t.currents.lookup c') ∧
      addPChan (addPChan t c).2 c =
        (some ("pChan " ++ c ++ " already exist in minTsStatistics"), (addPChan t c).2) := by
  have hk := (sameKeys_iff_lookup t).mp ht c
  rw [hc] at hk
  have hcur : t.currents.lookup c = none := by
    cases h : t.currents.lookup c with
    | none => rfl
    | some v => rw [h] at hk; cases hk
  have hadd : addPChan t c =
      (none, { minTsStatistics := t.minTsStatistics.insert c 0
               currents := t.currents.insert c 0 }) := by
    unfold addPChan
    simp only [hc, hcur]
  rw [hadd]
  refine ⟨rfl, ?_, ?_, ?_, ?_⟩
  · simp
  · simp
  · intro c' hne
    simp [AList.lookup_insert_ne hne]
  · unfold addPChan
    simp

/-- C10 (removing a channel): in a state whose mappings have the same channels,
`removePChan` of an untracked channel returns the "don't exist" error and the state
unchanged; `removePChan` of a tracked channel returns no error, deletes the channel from
both mappings and leaves every other entry as it was. -/
theorem C10_removePChan (t : channelsTimeTickerImpl) (c : pChan) (ht : sameKeys t) :
    (t.minTsStatistics.lookup c = none →
        removePChan t c =
          (some ("pChan " ++ c ++ " don't exist in minTsStatistics"), t)) ∧
      (∀ w : Timestamp, t.minTsStatistics.lookup c = some w →
        (removePChan t c).1 = none ∧
          (removePChan t c).2.minTsStatistics.lookup c = none ∧
          (removePChan t c).2.currents.lookup c = none ∧
          ∀ c' : pChan, c' ≠ c →
            (removePChan t c).2.minTsStatistics.lookup c' = t.minTsStatistics.lookup c' ∧
              (removePChan t c).2.currents.lookup c' = t.currents.lookup c') := by
  constructor
  · intro hc
    unfold removePChan
    simp only [hc]
  · intro w hw
    have hk := (sameKeys_iff_lookup t).mp ht c
    rw [hw] at hk
    cases hcur : t.currents.lookup c with
    | none => rw [hcur] at hk; cases hk
    | some v =>
      have hrem : removePChan t c =
          (none, { minTsStatistics := t.minTsStatistics.erase c
                   currents := t.currents.erase c }) := by
        unfold removePChan
        simp only [hw, hcur]
      rw [hrem]
      refine ⟨rfl, ?_, ?_, ?_⟩
      · simp
      · simp
      · intro c' hne
        simp [AList.lookup_erase_ne hne]

/-! ## The claims on concrete cycles -/

/-- Witness of C1: a cycle at `now = 10` without statistics on a ticker started at `5`
publishes `5` for `c1` and makes `10` its candidate. -/
theorem C1_no_statistics_advance_witness :
    ({ minTsStatistics := AList.insert "c2" 5 (AList.insert "c1" 5 ∅)
       currents := AList.insert "c2" 10 (AList.insert "c1" 10 ∅) } :
        channelsTimeTickerImpl).minTsStatistics.lookup "c1" = some 5 ∧
      ({ minTsStatistics := AList.insert "c2" 5 (AList.insert "c1" 5 ∅)
         currents := AList.insert "c2" 10 (AList.insert "c1" 10 ∅) } :
        channelsTimeTickerImpl).currents.lookup "c1" = some 10 :=
  C1_no_statistics_advance interval200ms 10 startedAt5
    { minTsStatistics := AList.insert "c2" 5 (AList.insert "c1" 5 ∅)
      currents := AList.insert "c2" 10 (AList.insert "c1" 10 ∅) }
    (∅, none) [Call.AllocOne, Call.getStatisticsFunc] "c1" 5 (by rfl) (by decide) (by decide)

/-- Counterexample to C2 as stated: on a ticker started at `5` (candidate `5` for `c2`),
the cycle at `now = 10` with the statistics `{minTs = 20, maxTs = 30}` for `c2` returns
without error and publishes `10` for `c2`, not `min 5 10 = 5`. -/
theorem C2_counterexample :
    tick interval200ms startedAt5 (10, none) (statisticsOf [("c2", ⟨20, 30⟩)], none) =
        .returned none
          { minTsStatistics := AList.insert "c2" 10 (AList.insert "c1" 5 ∅)
            currents := AList.insert "c2" 30 (AList.insert "c1" 10 ∅) }
          [Call.AllocOne, Call.getStatisticsFunc] ∧
      startedAt5.currents.lookup "c2" = some 5 ∧
      (statisticsOf [("c2", ⟨20, 30⟩)]).lookup "c2" = some (some ⟨20, 30⟩) ∧
      (20 : Timestamp) > 5 ∧
      (AList.insert "c2" 10 (AList.insert "c1" 5 ∅) : TimestampMap).lookup "c2" = some 10 ∧
      (AList.insert "c2" 10 (AList.insert "c1" 5 ∅) : TimestampMap).lookup "c2" ≠
        some (min 5 10) :=
  ⟨by rfl, by decide, by decide, by decide, by decide, by decide⟩

/-- Witness of C2 as amended, on the cycle of the counterexample: `minTs = 20 > now = 10`,
so `now` is published. -/
theorem C2_pending_watermark_witness :
    (AList.insert "c2" 10 (AList.insert "c1" 5 ∅) : TimestampMap).lookup "c2" =
        some (if (20 : Timestamp) > 10 then 10 else 5) ∧
      ((20 : Timestamp) ≤ 10 ∨ (10 : Timestamp) ≤ 5 →
        (AList.insert "c2" 10 (AList.insert "c1" 5 ∅) : TimestampMap).lookup "c2" =
          some (min 5 10)) :=
  C2_pending_watermark interval200ms 10 startedAt5
    { minTsStatistics := AList.insert "c2" 10 (AList.insert "c1" 5 ∅)
      currents := AList.insert "c2" 30 (AList.insert "c1" 10 ∅) }
    (statisticsOf [("c2", ⟨20, 30⟩)], none) [Call.AllocOne, Call.getStatisticsFunc]
    "c2" 5 ⟨20, 30⟩ (by rfl) (by decide) (by decide) (by decide)

/-- Witness of C3: with candidate `5`, `now = 10` and the statistics
`{minTs = 20, maxTs = 30}`, the new candidate is `min (10 + 200000000) 30 = 30`. -/
theorem C3_pending_next_candidate_witness :
    ((10 : Timestamp) + interval200ms < uint64Modulus →
        (AList.insert "c2" 30 (AList.insert "c1" 10 ∅) : TimestampMap).lookup "c2" =
          some (min (10 + interval200ms) 30)) ∧
      ∃ next : Timestamp,
        (AList.insert "c2" 30 (AList.insert "c1" 10 ∅) : TimestampMap).lookup "c2" =
          some next ∧ next ≤ 30 :=
  C3_pending_next_candidate interval200ms 10 startedAt5
    { minTsStatistics := AList.insert "c2" 10 (AList.insert "c1" 5 ∅)
      currents := AList.insert "c2" 30 (AList.insert "c1" 10 ∅) }
    (statisticsOf [("c2", ⟨20, 30⟩)], none) [Call.AllocOne, Call.getStatisticsFunc]
    "c2" 5 ⟨20, 30⟩ (by rfl) (by decide) (by decide) (by decide)

/-- Witness of C5: at `now = 10` with the statistics `c1 ↦ {3, 30}` (stalled: `3 ≤ 5`) and
`c2 ↦ {8, 9}`, `c1` keeps watermark `0` and candidate `5`; with `c1 ↦ {7, 30}` instead
(not stalled), `c2` is written the same watermark and candidate. -/
theorem C5_stalled_channel_isolation_witness :
    ((AList.insert "c2" 5 (AList.insert "c1" 0 ∅) : TimestampMap).lookup "c1" =
          startedAt5.minTsStatistics.lookup "c1" ∧
        (AList.insert "c2" 9 (AList.insert "c1" 5 ∅) : TimestampMap).lookup "c1" =
          startedAt5.currents.lookup "c1") ∧
      (((AList.insert "c2" 5 (AList.insert "c1" 0 ∅) : TimestampMap).lookup "c2" =
            startedAt5.minTsStatistics.lookup "c2" ∧
          (AList.insert "c2" 9 (AList.insert "c1" 5 ∅) : TimestampMap).lookup "c2" =
            startedAt5.currents.lookup "c2" ∧
          (AList.insert "c2" 5 (AList.insert "c1" 5 ∅) : TimestampMap).lookup "c2" =
            startedAt5.minTsStatistics.lookup "c2" ∧
          (AList.insert "c2" 9 (AList.insert "c1" 30 ∅) : TimestampMap).lookup "c2" =
            startedAt5.currents.lookup "c2") ∨
        ((AList.insert "c2" 5 (AList.insert "c1" 5 ∅) : TimestampMap).lookup "c2" =
            (AList.insert "c2" 5 (AList.insert "c1" 0 ∅) : TimestampMap).lookup "c2" ∧
          (AList.insert "c2" 9 (AList.insert "c1" 30 ∅) : TimestampMap).lookup "c2" =
            (AList.insert "c2" 9 (AList.insert "c1" 5 ∅) : TimestampMap).lookup "c2")) :=
  have h := C5_stalled_channel_isolation interval200ms 10 startedAt5
    { minTsStatistics := AList.insert "c2" 5 (AList.insert "c1" 0 ∅)
      currents := AList.insert "c2" 9 (AList.insert "c1" 5 ∅) }
    (statisticsOf [("c1", ⟨3, 30⟩), ("c2", ⟨8, 9⟩)], none)
    [Call.AllocOne, Call.getStatisticsFunc] "c1" 5 ⟨3, 30⟩
    (by rfl) (by decide) (by decide) (by decide)
  ⟨h.1, h.2 "c2" 5 (by decide) (by decide) startedAt5
    { minTsStatistics := AList.insert "c2" 5 (AList.insert "c1" 5 ∅)
      currents := AList.insert "c2" 9 (AList.insert "c1" 30 ∅) }
    (statisticsOf [("c1", ⟨7, 30⟩), ("c2", ⟨8, 9⟩)], none)
    [Call.AllocOne, Call.getStatisticsFunc] (by rfl) (by decide) (by decide)⟩

/-- C6, the code at the failing input: on a ticker started at `5`, a cycle whose allocation
returns `10` and whose statistics query fails (nil map and an error) returns no error and
has moved every watermark from `0` to `5` and every candidate from `5` to `10`. -/
theorem C6_statistics_failure_still_advances :
    tick interval200ms startedAt5 (10, none) (∅, some "statistics unavailable") =
        .returned none
          { minTsStatistics := AList.insert "c2" 5 (AList.insert "c1" 5 ∅)
            currents := AList.insert "c2" 10 (AList.insert "c1" 10 ∅) }
          [Call.AllocOne, Call.getStatisticsFunc] ∧
      startedAt5.minTsStatistics.lookup "c1" = some 0 ∧
      startedAt5.currents.lookup "c1" = some 5 ∧
      (AList.insert "c2" 5 (AList.insert "c1" 5 ∅) : TimestampMap).lookup "c1" = some 5 ∧
      (AList.insert "c2" 10 (AList.insert "c1" 10 ∅) : TimestampMap).lookup "c1" = some 10 :=
  ⟨by rfl, by decide, by decide, by decide, by decide⟩

/-- Witness of C8, from the state built for the channels `c1` and `c2`. -/
theorem C8_mapping_agreement_witness :
    sameKeys (newChannelsTimeTicker ["c1", "c2"]) ∧
      sameKeys startedAt5 ∧
      (∀ (err : Option Error) (t1 : channelsTimeTickerImpl) (calls : List Call),
        tick interval200ms (newChannelsTimeTicker ["c1", "c2"]) (5, none)
            (statisticsOf [("c2", ⟨20, 30⟩)], none) = .returned err t1 calls →
          sameKeys t1) ∧
      sameKeys (addPChan (newChannelsTimeTicker ["c1", "c2"]) "c3").2 ∧
      sameKeys (removePChan (newChannelsTimeTicker ["c1", "c2"]) "c3").2 :=
  C8_mapping_agreement ["c1", "c2"] (newChannelsTimeTicker ["c1", "c2"])
    (fun _ => Iff.rfl) interval200ms (5, none) (statisticsOf [("c2", ⟨20, 30⟩)], none) "c3"

/-- Witness of C9: `c3` is added to a started ticker on `c1` and `c2`, twice. -/
theorem C9_addPChan_witness :
    (addPChan startedAt5 "c3").1 = none ∧
      (addPChan startedAt5 "c3").2.minTsStatistics.lookup "c3" = some 0 ∧
      (addPChan startedAt5 "c3").2.currents.lookup "c3" = some 0 ∧
      (∀ c' : pChan, c' ≠ "c3" →
        (addPChan startedAt5 "c3").2.minTsStatistics.lookup c' =
            startedAt5.minTsStatistics.lookup c' ∧
          (addPChan startedAt5 "c3").2.currents.lookup c' = startedAt5.currents.lookup c') ∧
      addPChan (addPChan startedAt5 "c3").2 "c3" =
        (some ("pChan " ++ "c3" ++ " already exist in minTsStatistics"),
          (addPChan startedAt5 "c3").2) :=
  C9_addPChan startedAt5 "c3" (fun _ => Iff.rfl) (by decide)

/-- Witness of C10: `c3` is not tracked by a started ticker on `c1` and `c2`, and `c1`
is. -/
theorem C10_removePChan_witness :
    removePChan startedAt5 "c3" =
        (some ("pChan " ++ "c3" ++ " don't exist in minTsStatistics"), startedAt5) ∧
      ((removePChan startedAt5 "c1").1 = none ∧
        (removePChan startedAt5 "c1").2.minTsStatistics.lookup "c1" = none ∧
        (removePChan startedAt5 "c1").2.currents.lookup "c1" = none ∧
        ∀ c' : pChan, c' ≠ "c1" →
          (removePChan startedAt5 "c1").2.minTsStatistics.lookup c' =
              startedAt5.minTsStatistics.lookup c' ∧
            (removePChan startedAt5 "c1").2.currents.lookup c' =
              startedAt5.currents.lookup c') :=
  ⟨(C10_removePChan startedAt5 "c3" (fun _ => Iff.rfl)).1 (by decide),
    (C10_removePChan startedAt5 "c1" (fun _ => Iff.rfl)).2 0 (by decide)⟩

/-! ## Monotonicity over sequences of calls -/

theorem statisticsBounded_lookup {I now next : Timestamp} {stats : StatisticsMap} {c : pChan}
    (h : statisticsBounded I now next stats c = true) {stat : pChanStatistics}
    (hs : stats.lookup c = some (some stat)) :
    stat.minTs ≤ stat.maxTs ∧ now + I < uint64Modulus ∧
      min (now + I) stat.maxTs ≤ next := by
  unfold statisticsBounded at h
  simp only [hs, Bool.and_eq_true, decide_eq_true_eq] at h
  exact ⟨h.1.1, h.1.2, h.2⟩

theorem watermarkInv_mono {L L' : Timestamp} {t : channelsTimeTickerImpl} {c : pChan}
    (h : watermarkInv L t c) (hL : L ≤ L') : watermarkInv L' t c :=
  ⟨fun cand hc => Nat.le_trans (h.1 cand hc) hL, h.2⟩

theorem watermarkInv_start (pchans : List pChan) (ts0 : Timestamp) (c : pChan) :
    watermarkInv ts0 (start (newChannelsTimeTicker pchans) (ts0, none)).2 c := by
  have hW : (start (newChannelsTimeTicker pchans) (ts0, none)).2.minTsStatistics.lookup c =
      if c ∈ pchans then some 0 else none := by
    show (initCurrents (initStatistics (newChannelsTimeTicker pchans)) ts0).minTsStatistics.lookup
      c = _
    rw [(initCurrents_lookup _ ts0 c).2, (initStatistics_lookup _ c).1,
      (newChannelsTimeTicker_lookup pchans c).1]
    by_cases hm : c ∈ pchans <;> simp [hm]
  have hC : (start (newChannelsTimeTicker pchans) (ts0, none)).2.currents.lookup c =
      if c ∈ pchans then some ts0 else none := by
    show (initCurrents (initStatistics (newChannelsTimeTicker pchans)) ts0).currents.lookup
      c = _
    rw [(initCurrents_lookup _ ts0 c).1, (initStatistics_lookup _ c).2,
      (newChannelsTimeTicker_lookup pchans c).2]
    by_cases hm : c ∈ pchans <;> simp [hm]
  unfold watermarkInv
  rw [hW, hC]
  by_cases hm : c ∈ pchans
  · simp only [hm, if_true]
    constructor
    · intro cand hc
      cases hc
      exact Nat.le_refl _
    · intro w hw
      cases hw
      exact ⟨ts0, rfl, Nat.zero_le _⟩
  · simp only [hm, if_false]
    constructor
    · intro cand hc
      cases hc
    · intro w hw
      cases hw

/-- A returning cycle at `now`, from a state in which the candidate of `c` is at most
`now`, does not lower the published watermark of `c`. -/
theorem tick_watermark_le {L now I : Timestamp} {t t1 : channelsTimeTickerImpl}
    {gs : StatisticsMap × Option Error} {err : Option Error} {calls : List Call}
    {c : pChan} (hinv : watermarkInv L t c) (hL : L ≤ now)
    (h : tick I t (now, none) gs = .returned err t1 calls)
    {w w1 : Timestamp}
    (hw : t.minTsStatistics.lookup c = some w)
    (hw1 : t1.minTsStatistics.lookup c = some w1) : w ≤ w1 := by
  obtain ⟨cand, hcur, hwc⟩ := hinv.2 w hw
  have hcL := hinv.1 cand hcur
  obtain ⟨u, u1, e1, e2, e3, e4, _⟩ := tick_channel h hcur
  rw [e4] at hw1
  cases hs : gs.1.lookup c with
  | none =>
    obtain ⟨a1, _⟩ := tickChannel_no_statistics e2 hs e3
    rw [a1] at hw1
    cases hw1
    exact hwc
  | some o =>
    cases o with
    | none =>
      unfold tickChannel at e3
      simp [hs] at e3
    | some stat =>
      by_cases hm : stat.minTs > cand
      · obtain ⟨a1, _⟩ := tickChannel_advance e2 hs hm e3
        rw [a1] at hw1
        injection hw1 with hw1
        rw [← hw1]
        simp only [Timestamp] at *
        split <;> omega
      · have hu := tickChannel_stalled e2 hs (Nat.not_lt.mp hm) e3
        subst hu
        rw [e1, hw] at hw1
        cases hw1
        exact Nat.le_refl _

/-- A returning cycle at `now` whose statistics entry for `c` is bounded by `next`, from a
state in which the candidate of `c` is at most `now`, leaves the candidate of `c` at most
`next` and its watermark at most its candidate. -/
theorem watermarkInv_tick {L now next I : Timestamp} {t t1 : channelsTimeTickerImpl}
    {gs : StatisticsMap × Option Error} {err : Option Error} {calls : List Call}
    {c : pChan} (hinv : watermarkInv L t c) (hL : L ≤ now) (hnext : now ≤ next)
    (hb : statisticsBounded I now next gs.1 c = true)
    (h : tick I t (now, none) gs = .returned err t1 calls) :
    watermarkInv next t1 c := by
  unfold watermarkInv
  cases hcur : t.currents.lookup c with
  | none =>
    obtain ⟨h1, h2⟩ := tick_untracked h hcur
    rw [h1, h2]
    constructor
    · intro cand hc
      cases hc
    · intro w hw
      obtain ⟨cand, hc, _⟩ := hinv.2 w hw
      rw [hcur] at hc
      cases hc
  | some cand =>
    have hcL := hinv.1 cand hcur
    obtain ⟨u, u1, e1, e2, e3, e4, e5⟩ := tick_channel h hcur
    rw [e4, e5]
    cases hs : gs.1.lookup c with
    | none =>
      obtain ⟨a1, a2⟩ := tickChannel_no_statistics e2 hs e3
      rw [a1, a2]
      constructor
      · intro x hx
        cases hx
        exact hnext
      · intro w hw
        cases hw
        exact ⟨now, rfl, Nat.le_trans hcL hL⟩
    | some o =>
      cases o with
      | none =>
        unfold tickChannel at e3
        simp [hs] at e3
      | some stat =>
        obtain ⟨hb1, hb2, hb3⟩ := statisticsBounded_lookup hb hs
        by_cases hm : stat.minTs > cand
        · obtain ⟨a1, a2⟩ := tickChannel_advance e2 hs hm e3
          rw [a1, a2, Nat.mod_eq_of_lt hb2]
          constructor
          · intro x hx
            injection hx with hx
            rw [← hx]
            simp only [Timestamp] at *
            split <;> omega
          · intro w hw
            injection hw with hw
            refine ⟨_, rfl, ?_⟩
            rw [← hw]
            simp only [Timestamp] at *
            split <;> split <;> omega
        · have hu := tickChannel_stalled e2 hs (Nat.not_lt.mp hm) e3
          subst hu
          rw [e1, e2]
          constructor
          · intro x hx
            cases hx
            exact Nat.le_trans hcL (Nat.le_trans hL hnext)
          · intro w hw
            obtain ⟨cand', hc', hle⟩ := hinv.2 w hw
            rw [hcur] at hc'
            cases hc'
            exact ⟨cand, rfl, hle⟩

theorem watermarkInv_addPChan {L : Timestamp} {t : channelsTimeTickerImpl} {c : pChan}
    (hinv : watermarkInv L t c) (p : pChan) : watermarkInv L (addPChan t p).2 c := by
  unfold addPChan
  cases hw : t.minTsStatistics.lookup p with
  | some w => exact hinv
  | none =>
    cases hcur : t.currents.lookup p with
    | some v =>
      simp only [hcur]
      refine ⟨hinv.1, ?_⟩
      intro w hwc
      by_cases hcp : c = p
      · subst hcp
        simp only [AList.lookup_insert] at hwc
        cases hwc
        exact ⟨v, hcur, Nat.zero_le _⟩
      · simp only [AList.lookup_insert_ne hcp] at hwc
        exact hinv.2 w hwc
    | none =>
      simp only [hcur]
      unfold watermarkInv
      by_cases hcp : c = p
      · subst hcp
        simp only [AList.lookup_insert]
        constructor
        · intro cand hc
          cases hc
          exact Nat.zero_le _
        · intro w hwc
          cases hwc
          exact ⟨0, rfl, Nat.le_refl _⟩
      · simp only [AList.lookup_insert_ne hcp]
        exact hinv

theorem watermarkInv_removePChan {L : Timestamp} {t : channelsTimeTickerImpl} {c : pChan}
    (hinv : watermarkInv L t c) (p : pChan) : watermarkInv L (removePChan t p).2 c := by
  unfold removePChan
  cases hw : t.minTsStatistics.lookup p with
  | none => exact hinv
  | some w0 =>
    cases hcur : t.currents.lookup p with
    | none =>
      simp only [hcur]
      refine ⟨hinv.1, ?_⟩
      intro w hwc
      by_cases hcp : c = p
      · subst hcp
        simp only [AList.lookup_erase] at hwc
        cases hwc
      · simp only [AList.lookup_erase_ne hcp] at hwc
        exact hinv.2 w hwc
    | some v =>
      simp only [hcur]
      unfold watermarkInv
      by_cases hcp : c = p
      · subst hcp
        simp only [AList.lookup_erase]
        constructor
        · intro cand hc
          cases hc
        · intro w hwc
          cases hwc
      · simp only [AList.lookup_erase_ne hcp]
        exact hinv

/-- A cycle whose allocation fails returns the state it was given. -/
theorem tick_alloc_error {I ts : Timestamp} {e0 : Error} {t t1 : channelsTimeTickerImpl}
    {gs : StatisticsMap × Option Error} {err : Option Error} {calls : List Call}
    (h : tick I t (ts, some e0) gs = .returned err t1 calls) : t1 = t := by
  have h0 : tick I t (ts, some e0) gs = .returned (some e0) t [Call.AllocOne] := rfl
  rw [h0] at h
  injection h with _ h2 _
  exact h2.symm

theorem step_tick_some {I : Timestamp} {t t1 : channelsTimeTickerImpl}
    {a : Timestamp × Option Error} {gs : StatisticsMap × Option Error}
    (h : step I t (Op.tick a gs) = some t1) :
    ∃ (err : Option Error) (calls : List Call), tick I t a gs = .returned err t1 calls := by
  unfold step at h
  cases ho : tick I t a gs with
  | panicked => simp [ho] at h
  | returned err u calls =>
    simp only [ho] at h
    cases h
    exact ⟨err, calls, rfl⟩

/-- The timestamp given to the next successful cycle is the first of those given to the
cycles of the calls, followed by `N`. -/
theorem nextAllocated_head :
    ∀ (ops : List Op) (N : Timestamp),
      ∃ rest : List Timestamp, allocated ops ++ [N] = nextAllocated ops N :: rest := by
  intro ops
  induction ops with
  | nil => intro N; exact ⟨[], rfl⟩
  | cons op ops ih =>
    intro N
    cases op with
    | tick a gs =>
      obtain ⟨now, e⟩ := a
      cases e with
      | none => exact ⟨allocated ops ++ [N], rfl⟩
      | some e0 => exact ih N
    | addPChan p => exact ih N
    | removePChan p => exact ih N

theorem allocated_append_tick (now : Timestamp) (gs : StatisticsMap × Option Error) :
    ∀ ops : List Op,
      allocated (ops ++ [Op.tick (now, none) gs]) = allocated ops ++ [now] := by
  intro ops
  induction ops with
  | nil => rfl
  | cons op ops ih =>
    cases op with
    | tick a gs0 =>
      obtain ⟨now0, e⟩ := a
      cases e with
      | none =>
        show now0 :: allocated (ops ++ [Op.tick (now, none) gs]) = now0 :: allocated ops ++ [now]
        rw [ih]
        rfl
      | some e0 => exact ih
    | addPChan p => exact ih
    | removePChan p => exact ih

theorem run_append_tick {I now : Timestamp} {gs : StatisticsMap × Option Error}
    {t t1 t2 : channelsTimeTickerImpl} {err : Option Error} {calls : List Call}
    {ops : List Op} (hrun : run I t ops = some t1)
    (htick : tick I t1 (now, none) gs = .returned err t2 calls) :
    run I t (ops ++ [Op.tick (now, none) gs]) = some t2 := by
  unfold run at hrun ⊢
  rw [List.foldlM_append, hrun]
  simp [step, htick]

/-- Along calls with non-decreasing allocated timestamps in which the statistics of `c`
are bounded from cycle to cycle, the candidate of `c` ends at or below the timestamp `N`
allocated next, and its watermark at or below its candidate. -/
theorem watermarkInv_run {I : Timestamp} {c : pChan} :
    ∀ (ops : List Op) (t t1 : channelsTimeTickerImpl) (L N : Timestamp),
      watermarkInv L t c → run I t ops = some t1 →
      cyclesBounded I c ops N = true →
      List.Pairwise (· ≤ ·) (L :: (allocated ops ++ [N])) →
      watermarkInv N t1 c := by
  intro ops
  induction ops with
  | nil =>
    intro t t1 L N hinv hrun _ hp
    simp [run] at hrun
    subst hrun
    refine watermarkInv_mono hinv ?_
    simp [allocated] at hp
    exact hp
  | cons op ops ih =>
    intro t t1 L N hinv hrun hb hp
    simp only [run, List.foldlM_cons] at hrun
    cases hstep : step I t op with
    | none => simp [hstep] at hrun
    | some u =>
      simp only [hstep, Option.bind_eq_bind, Option.some_bind] at hrun
      cases op with
      | tick a gs =>
        obtain ⟨err, calls, htick⟩ := step_tick_some hstep
        obtain ⟨now, e⟩ := a
        cases e with
        | some e0 =>
          have hu := tick_alloc_error htick
          subst hu
          exact ih u t1 L N hinv hrun hb hp
        | none =>
          have hb' : statisticsBounded I now (nextAllocated ops N) gs.1 c = true ∧
              cyclesBounded I c ops N = true := by
            have : (statisticsBounded I now (nextAllocated ops N) gs.1 c &&
                cyclesBounded I c ops N) = true := hb
            rwa [Bool.and_eq_true] at this
          have hp' : List.Pairwise (· ≤ ·) (L :: now :: (allocated ops ++ [N])) := hp
          rw [List.pairwise_cons] at hp'
          obtain ⟨hL, hq⟩ := hp'
          have hLnow : L ≤ now := hL now (List.mem_cons_self _ _)
          obtain ⟨rest, hrest⟩ := nextAllocated_head ops N
          rw [List.pairwise_cons] at hq
          have hnext : now ≤ nextAllocated ops N :=
            hq.1 _ (by rw [hrest]; exact List.mem_cons_self _ _)
          have hinv1 := watermarkInv_tick hinv hLnow hnext hb'.1 htick
          refine ih u t1 (nextAllocated ops N) N hinv1 hrun hb'.2 ?_
          rw [List.pairwise_cons]
          refine ⟨fun x hx => ?_, hq.2⟩
          rw [hrest] at hx
          rcases List.mem_cons.mp hx with hx | hx
          · rw [hx]
          · have h2 := hq.2
            rw [hrest, List.pairwise_cons] at h2
            exact h2.1 x hx
      | addPChan p =>
        simp only [step] at hstep
        cases hstep
        exact ih _ t1 L N (watermarkInv_addPChan hinv p) hrun hb hp
      | removePChan p =>
        simp only [step] at hstep
        cases hstep
        exact ih _ t1 L N (watermarkInv_removePChan hinv p) hrun hb hp

/-- Calls that are neither a successful cycle nor a removal of `c` keep the published
watermark of `c`, and keep its candidate and watermark ordered. -/
theorem run_between_cycles {I L : Timestamp} {c : pChan} {w : Timestamp} :
    ∀ (mid : List Op) (t t1 : channelsTimeTickerImpl),
      run I t mid = some t1 →
      mid.any isSuccessfulTick = false → mid.any (removes c) = false →
      watermarkInv L t c → t.minTsStatistics.lookup c = some w →
      watermarkInv L t1 c ∧ t1.minTsStatistics.lookup c = some w := by
  intro mid
  induction mid with
  | nil =>
    intro t t1 hrun _ _ hinv hw
    simp [run] at hrun
    subst hrun
    exact ⟨hinv, hw⟩
  | cons op ops ih =>
    intro t t1 hrun hns hnr hinv hw
    simp only [run, List.foldlM_cons] at hrun
    rw [List.any_cons, Bool.or_eq_false_iff] at hns hnr
    cases hstep : step I t op with
    | none => simp [hstep] at hrun
    | some u =>
      simp only [hstep, Option.bind_eq_bind, Option.some_bind] at hrun
      cases op with
      | tick a gs =>
        obtain ⟨err, calls, htick⟩ := step_tick_some hstep
        obtain ⟨now, e⟩ := a
        cases e with
        | none =>
          have := hns.1
          simp [isSuccessfulTick] at this
        | some e0 =>
          have hu := tick_alloc_error htick
          subst hu
          exact ih u t1 hrun hns.2 hnr.2 hinv hw
      | addPChan p =>
        simp only [step] at hstep
        cases hstep
        refine ih _ t1 hrun hns.2 hnr.2 (watermarkInv_addPChan hinv p) ?_
        unfold addPChan
        cases hp : t.minTsStatistics.lookup p with
        | some w0 => exact hw
        | none =>
          have hcp : c ≠ p := by
            intro e
            rw [e, hp] at hw
            cases hw
          cases hcur : t.currents.lookup p <;>
            simp [hcur, AList.lookup_insert_ne hcp, hw]
      | removePChan p =>
        simp only [step] at hstep
        cases hstep
        have hcp : c ≠ p := by
          intro e
          have := hnr.1
          simp [removes, e] at this
        refine ih _ t1 hrun hns.2 hnr.2 (watermarkInv_removePChan hinv p) ?_
        unfold removePChan
        cases hp : t.minTsStatistics.lookup p with
        | none => exact hw
        | some w0 =>
          cases hcur : t.currents.lookup p <;>
            simp [hcur, AList.lookup_erase_ne hcp, hw]

/-- C4, as amended (monotonicity): take a ticker built by `newChannelsTimeTicker` and
started, any calls of `tick`, `addPChan` and `removePChan` on it, then two consecutive
successful cycles (between them only failed cycles, `addPChan` and `removePChan` of
channels other than `c`). If the allocated timestamps are non-decreasing and, in every
successful cycle up to and including the earlier of the two, the statistics entry of `c`,
when there is one, has `minTs ≤ maxTs`, with `now + sendTimeTickMsgInterval` fitting in 64
bits and the lesser of that sum and `maxTs` at most the timestamp allocated to the next
successful cycle, then the watermark of `c` published after the later cycle is at least
the one published after the earlier. -/
theorem C4_monotonicity_bounded_statistics (I ts0 : Timestamp) (pchans : List pChan)
    (ops mid : List Op) (now1 now2 : Timestamp) (gs1 gs2 : StatisticsMap × Option Error)
    (t1 t2 t3 t4 : channelsTimeTickerImpl) (calls1 calls2 : List Call) (c : pChan)
    (w2 w4 : Timestamp)
    (hrun : run I (start (newChannelsTimeTicker pchans) (ts0, none)).2 ops = some t1)
    (htick1 : tick I t1 (now1, none) gs1 = .returned none t2 calls1)
    (hmid : run I t2 mid = some t3)
    (hconsecutive : mid.any isSuccessfulTick = false)
    (htick2 : tick I t3 (now2, none) gs2 = .returned none t4 calls2)
    (hmono : List.Pairwise (· ≤ ·) (ts0 :: allocated ops ++ [now1, now2]))
    (hbounded : cyclesBounded I c (ops ++ [Op.tick (now1, none) gs1]) now2 = true)
    (hkept : mid.any (removes c) = false)
    (hw2 : t2.minTsStatistics.lookup c = some w2)
    (hw4 : t4.minTsStatistics.lookup c = some w4) :
    w2 ≤ w4 := by
  have hrun2 := run_append_tick hrun htick1
  have hp : List.Pairwise (· ≤ ·)
      (ts0 :: (allocated (ops ++ [Op.tick (now1, none) gs1]) ++ [now2])) := by
    rw [allocated_append_tick]
    simpa using hmono
  have hinv2 := watermarkInv_run _ _ t2 ts0 now2 (watermarkInv_start pchans ts0 c) hrun2
    hbounded hp
  obtain ⟨hinv3, hw3⟩ := run_between_cycles mid t2 t3 hmid hconsecutive hkept hinv2 hw2
  exact tick_watermark_le hinv3 (Nat.le_refl _) htick2 hw3 hw4

/-- Counterexample to C4 as stated: on a ticker started at `5`, the cycle at `10` sees the
statistics `c1 ↦ {minTs = 12, maxTs = 22}` and makes `22` the candidate of `c1`; the next
two cycles, at `20` and `30`, see no statistics and are consecutive and successful. The
allocated timestamps `5, 10, 20, 30` are non-decreasing, and the watermark of `c1` is `22`
after the earlier of the two cycles and `20` after the later. -/
theorem C4_counterexample :
    run interval200ms startedAt5
        [Op.tick (10, none) (statisticsOf [("c1", ⟨12, 22⟩)], none)] =
        some { minTsStatistics := AList.insert "c2" 5 (AList.insert "c1" 10 ∅),
                 currents := AList.insert "c2" 10 (AList.insert "c1" 22 ∅) } ∧
      tick interval200ms
          { minTsStatistics := AList.insert "c2" 5 (AList.insert "c1" 10 ∅),
            currents := AList.insert "c2" 10 (AList.insert "c1" 22 ∅) }
          (20, none) (∅, none) =
        .returned none
          { minTsStatistics := AList.insert "c1" 22 (AList.insert "c2" 10 ∅),
            currents := AList.insert "c1" 20 (AList.insert "c2" 20 ∅) }
          [Call.AllocOne, Call.getStatisticsFunc] ∧
      tick interval200ms
          { minTsStatistics := AList.insert "c1" 22 (AList.insert "c2" 10 ∅),
            currents := AList.insert "c1" 20 (AList.insert "c2" 20 ∅) }
          (30, none) (∅, none) =
        .returned none
          { minTsStatistics := AList.insert "c2" 20 (AList.insert "c1" 20 ∅),
            currents := AList.insert "c2" 30 (AList.insert "c1" 30 ∅) }
          [Call.AllocOne, Call.getStatisticsFunc] ∧
      List.Pairwise (· ≤ ·)
        (5 :: allocated [Op.tick (10, none) (statisticsOf [("c1", ⟨12, 22⟩)], none)] ++
          [20, 30]) ∧
      (AList.insert "c1" 22 (AList.insert "c2" 10 ∅) : TimestampMap).lookup "c1" = some 22 ∧
      (AList.insert "c2" 20 (AList.insert "c1" 20 ∅) : TimestampMap).lookup "c1" = some 20 ∧
      ¬ (22 : Timestamp) ≤ 20 :=
  ⟨by rfl, by rfl, by rfl, by decide, by decide, by decide, by decide⟩

/-- Witness of C4 as amended: a ticker on `c1` and `c2` started at `5`; a cycle at `10`
with `c1 ↦ {12, 15}`, ahead of `10`; `addPChan c3`; the earlier cycle at `20` with
`c1 ↦ {25, 28}`, ahead of `20`; a failed cycle and `removePChan c2`; the later cycle at
`30` without statistics. The watermark of `c1` is `20` after the earlier cycle and `28`
after the later. -/
theorem C4_monotonicity_bounded_statistics_witness : (20 : Timestamp) ≤ 28 :=
  C4_monotonicity_bounded_statistics interval200ms 5 ["c1", "c2"]
    [Op.tick (10, none) (statisticsOf [("c1", ⟨12, 15⟩)], none), Op.addPChan "c3"]
    [Op.tick (0, some "tso unavailable") (∅, none), Op.removePChan "c2"]
    20 30 (statisticsOf [("c1", ⟨25, 28⟩)], none) (∅, none)
    { minTsStatistics := AList.insert "c3" 0 (AList.insert "c2" 5 (AList.insert "c1" 10 ∅)),
      currents := AList.insert "c3" 0 (AList.insert "c2" 10 (AList.insert "c1" 15 ∅)) }
    { minTsStatistics := AList.insert "c1" 20 (AList.insert "c2" 10 (AList.insert "c3" 0 ∅)),
      currents := AList.insert "c1" 28 (AList.insert "c2" 20 (AList.insert "c3" 20 ∅)) }
    { minTsStatistics := AList.insert "c1" 20 (AList.insert "c3" 0 ∅),
      currents := AList.insert "c1" 28 (AList.insert "c3" 20 ∅) }
    { minTsStatistics := AList.insert "c3" 20 (AList.insert "c1" 28 ∅),
      currents := AList.insert "c3" 30 (AList.insert "c1" 30 ∅) }
    [Call.AllocOne, Call.getStatisticsFunc] [Call.AllocOne, Call.getStatisticsFunc]
    "c1" 20 28
    (by rfl) (by rfl) (by rfl) (by rfl) (by rfl) (by decide) (by rfl) (by rfl)
    (by decide) (by decide)

/-- Why the amended C4 keeps the channel tracked between the two cycles: after the cycle
at `10` the watermark of `c1` is `5`; `removePChan c1` and `addPChan c1` register it
again with `0`, and the next cycle, at `20`, publishes `0`. -/
theorem watermark_reset_by_remove_and_add :
    tick interval200ms startedAt5 (10, none) (∅, none) =
        .returned none
          { minTsStatistics := AList.insert "c2" 5 (AList.insert "c1" 5 ∅),
            currents := AList.insert "c2" 10 (AList.insert "c1" 10 ∅) }
          [Call.AllocOne, Call.getStatisticsFunc] ∧
      run interval200ms
          { minTsStatistics := AList.insert "c2" 5 (AList.insert "c1" 5 ∅),
            currents := AList.insert "c2" 10 (AList.insert "c1" 10 ∅) }
          [Op.removePChan "c1", Op.addPChan "c1"] =
        some { minTsStatistics := AList.insert "c1" 0 (AList.insert "c2" 5 ∅),
                 currents := AList.insert "c1" 0 (AList.insert "c2" 10 ∅) } ∧
      tick interval200ms
          { minTsStatistics := AList.insert "c1" 0 (AList.insert "c2" 5 ∅),
            currents := AList.insert "c1" 0 (AList.insert "c2" 10 ∅) }
          (20, none) (∅, none) =
        .returned none
          { minTsStatistics := AList.insert "c2" 10 (AList.insert "c1" 0 ∅),
            currents := AList.insert "c2" 20 (AList.insert "c1" 20 ∅) }
          [Call.AllocOne, Call.getStatisticsFunc] ∧
      (AList.insert "c2" 5 (AList.insert "c1" 5 ∅) : TimestampMap).lookup "c1" = some 5 ∧
      (AList.insert "c2" 10 (AList.insert "c1" 0 ∅) : TimestampMap).lookup "c1" = some 0 :=
  ⟨by rfl, by rfl, by rfl, by decide, by decide⟩

/-- Why the amended C4 excludes overflow: on a ticker started at `2 ^ 64 - 10`, the cycle
at `2 ^ 64 - 1` with the statistics `c1 ↦ {2 ^ 64 - 5, 2 ^ 64 - 5}`, a range that ends
before the next allocated timestamp, publishes `2 ^ 64 - 10` and wraps the candidate to
`199999999`; the next cycle, again at `2 ^ 64 - 1` and without statistics, publishes
`199999999`. -/
theorem watermark_lowered_by_overflow :
    (18446744073709551611 : Timestamp) ≤ 18446744073709551615 ∧
      tick interval200ms (start (newChannelsTimeTicker ["c1"]) (18446744073709551606, none)).2
          (18446744073709551615, none)
          (statisticsOf [("c1", ⟨18446744073709551611, 18446744073709551611⟩)], none) =
        .returned none
          { minTsStatistics := AList.insert "c1" 18446744073709551606 ∅,
            currents := AList.insert "c1" 199999999 ∅ }
          [Call.AllocOne, Call.getStatisticsFunc] ∧
      tick interval200ms
          { minTsStatistics := AList.insert "c1" 18446744073709551606 ∅,
            currents := AList.insert "c1" 199999999 ∅ }
          (18446744073709551615, none) (∅, none) =
        .returned none
          { minTsStatistics := AList.insert "c1" 199999999 ∅,
            currents := AList.insert "c1" 18446744073709551615 ∅ }
          [Call.AllocOne, Call.getStatisticsFunc] ∧
      (18446744073709551615 : Timestamp) + interval200ms ≥ uint64Modulus :=
  ⟨by decide, by rfl, by rfl, by decide⟩

/-- Why the amended C4 asks for `minTs ≤ maxTs`: on a ticker started at `5`, the cycle at
`10` with the statistics `c1 ↦ {minTs = 8, maxTs = 2}` publishes `5` and makes `2` the
candidate of `c1`; the next cycle, at `20` and without statistics, publishes `2`. -/
theorem watermark_lowered_by_inverted_statistics :
    tick interval200ms startedAt5 (10, none) (statisticsOf [("c1", ⟨8, 2⟩)], none) =
        .returned none
          { minTsStatistics := AList.insert "c2" 5 (AList.insert "c1" 5 ∅),
            currents := AList.insert "c2" 10 (AList.insert "c1" 2 ∅) }
          [Call.AllocOne, Call.getStatisticsFunc] ∧
      tick interval200ms
          { minTsStatistics := AList.insert "c2" 5 (AList.insert "c1" 5 ∅),
            currents := AList.insert "c2" 10 (AList.insert "c1" 2 ∅) }
          (20, none) (∅, none) =
        .returned none
          { minTsStatistics := AList.insert "c1" 2 (AList.insert "c2" 10 ∅),
            currents := AList.insert "c1" 20 (AList.insert "c2" 20 ∅) }
          [Call.AllocOne, Call.getStatisticsFunc] ∧
      (AList.insert "c2" 5 (AList.insert "c1" 5 ∅) : TimestampMap).lookup "c1" = some 5 ∧
      (AList.insert "c1" 2 (AList.insert "c2" 10 ∅) : TimestampMap).lookup "c1" = some 2 :=
  ⟨by rfl, by rfl, by decide, by decide⟩

/-! ## Reading the watermarks -/

theorem getMinTsStatistics_fold_lookup (c : pChan) :
    ∀ (l : List (Sigma fun _ : pChan => Timestamp)) (acc : TimestampMap), l.NodupKeys →
      (l.foldl (fun ret e => if e.2 > 0 then ret.insert e.1 e.2 else ret) acc).lookup c =
        match l.dlookup c with
        | some v => if v > 0 then some v else acc.lookup c
        | none => acc.lookup c := by
  intro l
  induction l with
  | nil => intro acc _; rfl
  | cons e l ih =>
    intro acc hnd
    obtain ⟨k, v⟩ := e
    rw [List.nodupKeys_cons] at hnd
    rw [List.foldl_cons, ih _ hnd.2]
    by_cases hck : c = k
    · subst hck
      have hnone : l.dlookup c = none := List.dlookup_eq_none.mpr hnd.1
      rw [hnone, List.dlookup_cons_eq]
      by_cases hv : v > 0
      · simp [hv]
      · simp [hv]
    · rw [List.dlookup_cons_ne l ⟨k, v⟩ hck]
      have hacc : (if v > 0 then acc.insert k v else acc).lookup c = acc.lookup c := by
        by_cases hv : v > 0
        · simp [hv, AList.lookup_insert_ne hck]
        · simp [hv]
      simp only [hacc]

/-- The snapshot of `getMinTsStatistics`, entry by entry. -/
theorem getMinTsStatistics_lookup (t : channelsTimeTickerImpl) (c : pChan) :
    (getMinTsStatistics t).1.1.lookup c =
      match t.minTsStatistics.lookup c with
      | some v => if v > 0 then some v else none
      | none => none := by
  have h := getMinTsStatistics_fold_lookup c t.minTsStatistics.entries ∅
    t.minTsStatistics.nodupKeys
  simpa [getMinTsStatistics, AList.lookup] using h

/-- A returning cycle keeps every channel of `minTsStatistics` in it. -/
theorem tick_keeps_channel {I : Timestamp} {t t1 : channelsTimeTickerImpl}
    {a : Timestamp × Option Error} {gs : StatisticsMap × Option Error}
    {err : Option Error} {calls : List Call} {c : pChan}
    (h : tick I t a gs = .returned err t1 calls)
    (hc : (t.minTsStatistics.lookup c).isSome = true) :
    (t1.minTsStatistics.lookup c).isSome = true := by
  obtain ⟨now, e⟩ := a
  cases e with
  | some e0 =>
    rw [tick_alloc_error h]
    exact hc
  | none =>
    cases hcur : t.currents.lookup c with
    | none =>
      rw [(tick_untracked h hcur).1]
      exact hc
    | some cand =>
      obtain ⟨u, u1, e1, e2, e3, e4, _⟩ := tick_channel h hcur
      rw [e4]
      cases hs : gs.1.lookup c with
      | none =>
        rw [(tickChannel_no_statistics e2 hs e3).1]
        rfl
      | some o =>
        cases o with
        | none =>
          unfold tickChannel at e3
          simp [hs] at e3
        | some stat =>
          by_cases hm : stat.minTs > cand
          · rw [(tickChannel_advance e2 hs hm e3).1]
            rfl
          · have hu := tickChannel_stalled e2 hs (Nat.not_lt.mp hm) e3
            subst hu
            rw [e1]
            exact hc

/-- Calls other than `removePChan c` keep `c` in `minTsStatistics`. -/
theorem run_keeps_channel {I : Timestamp} {c : pChan} :
    ∀ (ops : List Op) (t t1 : channelsTimeTickerImpl),
      run I t ops = some t1 → ops.any (removes c) = false →
      (t.minTsStatistics.lookup c).isSome = true →
      (t1.minTsStatistics.lookup c).isSome = true := by
  intro ops
  induction ops with
  | nil =>
    intro t t1 hrun _ hc
    simp [run] at hrun
    subst hrun
    exact hc
  | cons op ops ih =>
    intro t t1 hrun hnr hc
    simp only [run, List.foldlM_cons] at hrun
    rw [List.any_cons, Bool.or_eq_false_iff] at hnr
    cases hstep : step I t op with
    | none => simp [hstep] at hrun
    | some u =>
      simp only [hstep, Option.bind_eq_bind, Option.some_bind] at hrun
      refine ih u t1 hrun hnr.2 ?_
      cases op with
      | tick a gs =>
        obtain ⟨err, calls, htick⟩ := step_tick_some hstep
        exact tick_keeps_channel htick hc
      | addPChan p =>
        simp only [step] at hstep
        cases hstep
        unfold addPChan
        cases hp : t.minTsStatistics.lookup p with
        | some w0 => exact hc
        | none =>
          have hcp : c ≠ p := by
            intro e
            rw [e, hp] at hc
            cases hc
          cases hcur : t.currents.lookup p <;>
            simp [hcur, AList.lookup_insert_ne hcp, hc]
      | removePChan p =>
        simp only [step] at hstep
        cases hstep
        have hcp : c ≠ p := by
          intro e
          have := hnr.1
          simp [removes, e] at this
        unfold removePChan
        cases hp : t.minTsStatistics.lookup p with
        | none => exact hc
        | some w0 =>
          cases hcur : t.currents.lookup p <;>
            simp [hcur, AList.lookup_erase_ne hcp, hc]

/-- C11 (`getLastTick`): for a tracked channel the call returns the published watermark
and no error; for an untracked channel it returns `0` and the "not found" error, and it
returns an error in that case only; it leaves the ticker as it was. In particular a
channel given to the constructor is answered without error after `start` and after any
calls of `tick`, `addPChan` and `removePChan` that do not remove it. -/
theorem C11_getLastTick (t : channelsTimeTickerImpl) (c : pChan) (pchans : List pChan)
    (a0 : Timestamp × Option Error) (I : Timestamp) (ops : List Op)
    (t1 : channelsTimeTickerImpl) :
    (∀ w : Timestamp, t.minTsStatistics.lookup c = some w →
        getLastTick t c = ((w, none), t)) ∧
      (t.minTsStatistics.lookup c = none →
        getLastTick t c = ((0, some ("pChan " ++ c ++ " not found")), t)) ∧
      ((getLastTick t c).1.2 ≠ none ↔ t.minTsStatistics.lookup c = none) ∧
      (getLastTick t c).2 = t ∧
      (c ∈ pchans → run I (start (newChannelsTimeTicker pchans) a0).2 ops = some t1 →
        ops.any (removes c) = false →
        ∃ w : Timestamp, t1.minTsStatistics.lookup c = some w ∧
          getLastTick t1 c = ((w, none), t1)) := by
  have hsome : ∀ (u : channelsTimeTickerImpl) (w : Timestamp),
      u.minTsStatistics.lookup c = some w → getLastTick u c = ((w, none), u) := by
    intro u w hw
    unfold getLastTick
    simp only [hw]
  refine ⟨hsome t, ?_, ?_, ?_, ?_⟩
  · intro hn
    unfold getLastTick
    simp only [hn]
  · unfold getLastTick
    cases hw : t.minTsStatistics.lookup c <;> simp
  · unfold getLastTick
    cases hw : t.minTsStatistics.lookup c <;> rfl
  · intro hmem hrun hnr
    have h0 : ((start (newChannelsTimeTicker pchans) a0).2.minTsStatistics.lookup c).isSome
        = true := by
      have hnew := (newChannelsTimeTicker_lookup pchans c).1
      obtain ⟨ts, e⟩ := a0
      cases e with
      | some err =>
        show ((initStatistics (newChannelsTimeTicker pchans)).minTsStatistics.lookup c).isSome
          = true
        rw [(initStatistics_lookup _ c).1, hnew]
        simp [hmem]
      | none =>
        show ((initCurrents (initStatistics (newChannelsTimeTicker pchans))
          ts).minTsStatistics.lookup c).isSome = true
        rw [(initCurrents_lookup _ ts c).2, (initStatistics_lookup _ c).1, hnew]
        simp [hmem]
    have h1 := run_keeps_channel ops _ t1 hrun hnr h0
    cases hw : t1.minTsStatistics.lookup c with
    | none => rw [hw] at h1; cases h1
    | some w => exact ⟨w, rfl, hsome t1 w hw⟩

/-- C12 (`getMinTsStatistics`): the call returns no error and a map in which `c ↦ ts`
holds exactly when `minTsStatistics[c] = ts` and `ts > 0`; it leaves the ticker as it
was. -/
theorem C12_getMinTsStatistics (t : channelsTimeTickerImpl) :
    (getMinTsStatistics t).1.2 = none ∧
      (∀ (c : pChan) (ts : Timestamp),
        (getMinTsStatistics t).1.1.lookup c = some ts ↔
          t.minTsStatistics.lookup c = some ts ∧ ts > 0) ∧
      (getMinTsStatistics t).2 = t := by
  refine ⟨rfl, ?_, rfl⟩
  intro c ts
  rw [getMinTsStatistics_lookup]
  cases hw : t.minTsStatistics.lookup c with
  | none => simp
  | some v =>
    by_cases hv : v > 0
    · simp only [hv, if_true, Option.some.injEq]
      constructor
      · intro e
        subst e
        exact ⟨rfl, hv⟩
      · intro e
        exact e.1
    · simp only [hv, if_false]
      constructor
      · intro e
        cases e
      · intro e
        obtain ⟨e1, e2⟩ := e
        injection e1 with e1
        subst e1
        exact absurd e2 hv

/-- Witness of C11: on a ticker started at `5`, `c1` is answered `0` without error and
`c3` is not found; after a cycle at `10` and `removePChan c2`, `c1` is still answered. -/
theorem C11_getLastTick_witness :
    getLastTick startedAt5 "c1" = ((0, none), startedAt5) ∧
      getLastTick startedAt5 "c3" =
        ((0, some ("pChan " ++ "c3" ++ " not found")), startedAt5) ∧
      ∃ w : Timestamp,
        ({ minTsStatistics := AList.insert "c1" 5 ∅,
            currents := AList.insert "c1" 10 ∅ } :
            channelsTimeTickerImpl).minTsStatistics.lookup "c1" = some w ∧
          getLastTick
              { minTsStatistics := AList.insert "c1" 5 ∅,
                currents := AList.insert "c1" 10 ∅ } "c1" =
            ((w, none),
              { minTsStatistics := AList.insert "c1" 5 ∅,
                currents := AList.insert "c1" 10 ∅ }) :=
  ⟨(C11_getLastTick startedAt5 "c1" [] (0, none) 0 [] startedAt5).1 0 (by decide),
    (C11_getLastTick startedAt5 "c3" [] (0, none) 0 [] startedAt5).2.1 (by decide),
    (C11_getLastTick startedAt5 "c1" ["c1", "c2"] (5, none) interval200ms
      [Op.tick (10, none) (∅, none), Op.removePChan "c2"]
      { minTsStatistics := AList.insert "c1" 5 ∅,
        currents := AList.insert "c1" 10 ∅ }).2.2.2.2
      (by decide) (by rfl) (by rfl)⟩

/-- Counterexample to C13 as stated: a ticker started at `5` gets `addPChan c3` and then a
cycle at `10` without statistics. All allocated timestamps are non-zero, `c3` is tracked
and has no pending statistics, and after the cycle its published watermark is `0`, so it
is absent from the result of `getMinTsStatistics`. -/
theorem C13_counterexample :
    run interval200ms startedAt5 [Op.addPChan "c3"] =
        some { minTsStatistics := AList.insert "c3" 0 (AList.insert "c1" 0 (AList.insert "c2" 0 ∅)),
                 currents := AList.insert "c3" 0 (AList.insert "c1" 5 (AList.insert "c2" 5 ∅)) } ∧
      tick interval200ms
          { minTsStatistics := AList.insert "c3" 0 (AList.insert "c1" 0 (AList.insert "c2" 0 ∅)),
            currents := AList.insert "c3" 0 (AList.insert "c1" 5 (AList.insert "c2" 5 ∅)) }
          (10, none) (∅, none) =
        .returned none
          { minTsStatistics := AList.insert "c2" 5 (AList.insert "c1" 5 (AList.insert "c3" 0 ∅)),
            currents := AList.insert "c2" 10 (AList.insert "c1" 10 (AList.insert "c3" 10 ∅)) }
          [Call.AllocOne, Call.getStatisticsFunc] ∧
      (AList.insert "c3" 0 (AList.insert "c1" 5 (AList.insert "c2" 5 ∅)) : TimestampMap).lookup "c3" = some 0 ∧
      (AList.insert "c2" 5 (AList.insert "c1" 5 (AList.insert "c3" 0 ∅)) : TimestampMap).lookup "c3" = some 0 ∧
      (getMinTsStatistics
          { minTsStatistics := AList.insert "c2" 5 (AList.insert "c1" 5 (AList.insert "c3" 0 ∅)),
            currents := AList.insert "c2" 10 (AList.insert "c1" 10 (AList.insert "c3" 10 ∅)) }).1.1.lookup
        "c3" = none :=
  ⟨by rfl, by rfl, by decide, by decide, by decide⟩

theorem addPChan_currents_ne (t : channelsTimeTickerImpl) {p c : pChan} (h : c ≠ p) :
    (addPChan t p).2.currents.lookup c = t.currents.lookup c := by
  unfold addPChan
  cases hw : t.minTsStatistics.lookup p with
  | some w => rfl
  | none =>
    cases hcur : t.currents.lookup p <;> simp [hcur, AList.lookup_insert_ne h]

theorem removePChan_currents (t : channelsTimeTickerImpl) (p c : pChan) :
    (removePChan t p).2.currents.lookup c = t.currents.lookup c ∨
      (removePChan t p).2.currents.lookup c = none := by
  unfold removePChan
  cases hw : t.minTsStatistics.lookup p with
  | none => exact Or.inl rfl
  | some w =>
    cases hcur : t.currents.lookup p with
    | none => exact Or.inl (by simp [hcur])
    | some v =>
      by_cases hcp : c = p
      · right
        subst hcp
        simp [hcur]
      · left
        simp [hcur, AList.lookup_erase_ne hcp]

/-- After a returning cycle with a timestamp and statistics other than `0`, the candidate
of a tracked channel is not `0`, whatever it was before. -/
theorem candidateNonZero_tick {I now : Timestamp} {t t1 : channelsTimeTickerImpl}
    {gs : StatisticsMap × Option Error} {err : Option Error} {calls : List Call}
    {c : pChan} (hnz : cycleNonZero I c (Op.tick (now, none) gs) = true)
    (h : tick I t (now, none) gs = .returned err t1 calls) :
    candidateNonZero t1 c := by
  intro cand1 hc1
  simp only [cycleNonZero, Bool.and_eq_true, decide_eq_true_eq] at hnz
  obtain ⟨hnow, hstat⟩ := hnz
  cases hcur : t.currents.lookup c with
  | none =>
    rw [(tick_untracked h hcur).2] at hc1
    cases hc1
  | some cand =>
    obtain ⟨u, u1, _, e2, e3, _, e5⟩ := tick_channel h hcur
    rw [e5] at hc1
    cases hs : gs.1.lookup c with
    | none =>
      rw [(tickChannel_no_statistics e2 hs e3).2] at hc1
      cases hc1
      exact hnow
    | some o =>
      cases o with
      | none =>
        unfold tickChannel at e3
        simp [hs] at e3
      | some stat =>
        simp only [hs, Bool.and_eq_true, decide_eq_true_eq] at hstat
        obtain ⟨⟨hmin, hmax⟩, hsum⟩ := hstat
        by_cases hm : stat.minTs > cand
        · rw [(tickChannel_advance e2 hs hm e3).2] at hc1
          injection hc1 with hc1
          rw [← hc1]
          split
          · exact hmax
          · exact hsum
        · have hu := tickChannel_stalled e2 hs (Nat.not_lt.mp hm) e3
          subst hu
          rw [e2] at hc1
          cases hc1
          intro h0
          simp only [Timestamp] at *
          omega

/-- Along calls whose successful cycles have timestamps and statistics other than `0`,
the candidate of a channel is not `0` unless the channel was registered with `addPChan`
after the last successful cycle. -/
theorem candidateNonZero_run {I : Timestamp} {c : pChan} :
    ∀ (ops : List Op) (t t1 : channelsTimeTickerImpl) (added : Bool),
      (added = false → candidateNonZero t c) → run I t ops = some t1 →
      ops.all (cycleNonZero I c) = true →
      ops.foldl (addedStep c) added = false → candidateNonZero t1 c := by
  intro ops
  induction ops with
  | nil =>
    intro t t1 added hinv hrun _ hadded
    simp [run] at hrun
    subst hrun
    exact hinv hadded
  | cons op ops ih =>
    intro t t1 added hinv hrun hall hadded
    simp only [run, List.foldlM_cons] at hrun
    rw [List.all_cons, Bool.and_eq_true] at hall
    rw [List.foldl_cons] at hadded
    cases hstep : step I t op with
    | none => simp [hstep] at hrun
    | some u =>
      simp only [hstep, Option.bind_eq_bind, Option.some_bind] at hrun
      refine ih u t1 (addedStep c added op) ?_ hrun hall.2 hadded
      intro hflag
      cases op with
      | tick a gs =>
        obtain ⟨err, calls, htick⟩ := step_tick_some hstep
        obtain ⟨now, e⟩ := a
        cases e with
        | some e0 =>
          have hu := tick_alloc_error htick
          subst hu
          exact hinv hflag
        | none => exact candidateNonZero_tick hall.1 htick
      | addPChan p =>
        simp only [step] at hstep
        cases hstep
        simp only [addedStep, Bool.or_eq_false_iff, beq_eq_false_iff_ne, ne_eq] at hflag
        intro cand hc
        rw [addPChan_currents_ne t (fun e => hflag.2 e.symm)] at hc
        exact hinv hflag.1 cand hc
      | removePChan p =>
        simp only [step] at hstep
        cases hstep
        intro cand hc
        rcases removePChan_currents t p c with h1 | h1
        · rw [h1] at hc
          exact hinv hflag cand hc
        · rw [h1] at hc
          cases hc

/-- C13, as amended: take a ticker built by `newChannelsTimeTicker` and started with a
timestamp other than `0`, and any calls of `tick`, `addPChan` and `removePChan` on it in
which every allocated timestamp is not `0` and, for the statistics entries of `c`, neither
`minTs`, `maxTs` nor the 64-bit sum `now + sendTimeTickMsgInterval` is `0`. If `c` is
tracked, was not registered with `addPChan` after the last successful cycle, and has no
statistics entry in the next returning cycle, then after that cycle its published
watermark is its candidate from before, which is not `0`, and `getMinTsStatistics`
returns it for `c`. -/
theorem C13_nonzero_watermark_published (I ts0 : Timestamp) (pchans : List pChan)
    (ops : List Op) (now : Timestamp) (gs : StatisticsMap × Option Error)
    (t1 t2 : channelsTimeTickerImpl) (calls : List Call) (c : pChan) (cand : Timestamp)
    (hts0 : ts0 ≠ 0)
    (hrun : run I (start (newChannelsTimeTicker pchans) (ts0, none)).2 ops = some t1)
    (hnonzero : ops.all (cycleNonZero I c) = true)
    (hnotadded : addedSinceCycle c ops = false)
    (htick : tick I t1 (now, none) gs = .returned none t2 calls)
    (htracked : t1.currents.lookup c = some cand)
    (hnostat : gs.1.lookup c = none) :
    cand ≠ 0 ∧ t2.minTsStatistics.lookup c = some cand ∧
      (getMinTsStatistics t2).1.1.lookup c = some cand := by
  have hstart : candidateNonZero (start (newChannelsTimeTicker pchans) (ts0, none)).2 c := by
    intro x hx
    have hC : (initCurrents (initStatistics (newChannelsTimeTicker pchans)) ts0).currents.lookup
        c = some x := hx
    rw [(initCurrents_lookup _ ts0 c).1, (initStatistics_lookup _ c).2,
      (newChannelsTimeTicker_lookup pchans c).2] at hC
    by_cases hmem : c ∈ pchans
    · simp [hmem] at hC
      rw [← hC]
      exact hts0
    · simp [hmem] at hC
  have hcand : cand ≠ 0 :=
    candidateNonZero_run ops _ t1 false (fun _ => hstart) hrun hnonzero hnotadded cand
      htracked
  have hw := (tick_no_statistics htick htracked hnostat).1
  refine ⟨hcand, hw, ?_⟩
  rw [getMinTsStatistics_lookup, hw]
  have hpos : cand > 0 := Nat.pos_of_ne_zero hcand
  simp [hpos]

/-- Witness of C13 as amended: on a ticker started at `5`, `addPChan c3`, a cycle at `10`
with `c3 ↦ {7, 9}`, `removePChan c2` and a failed cycle leave `c3` with the candidate
`9`; the cycle at `20`, without statistics, publishes `9` for `c3`, and
`getMinTsStatistics` returns it. -/
theorem C13_nonzero_watermark_published_witness :
    (9 : Timestamp) ≠ 0 ∧
      (AList.insert "c3" 9 (AList.insert "c1" 10 ∅) : TimestampMap).lookup "c3" = some 9 ∧
      (getMinTsStatistics
          { minTsStatistics := AList.insert "c3" 9 (AList.insert "c1" 10 ∅),
            currents := AList.insert "c3" 20 (AList.insert "c1" 20 ∅) }).1.1.lookup
        "c3" = some 9 :=
  C13_nonzero_watermark_published interval200ms 5 ["c1", "c2"]
    [Op.addPChan "c3", Op.tick (10, none) (statisticsOf [("c3", ⟨7, 9⟩)], none),
      Op.removePChan "c2", Op.tick (0, some "tso unavailable") (∅, none)]
    20 (∅, none)
    { minTsStatistics := AList.insert "c1" 5 (AList.insert "c3" 0 ∅),
      currents := AList.insert "c1" 10 (AList.insert "c3" 9 ∅) }
    { minTsStatistics := AList.insert "c3" 9 (AList.insert "c1" 10 ∅),
      currents := AList.insert "c3" 20 (AList.insert "c1" 20 ∅) }
    [Call.AllocOne, Call.getStatisticsFunc] "c3" 9
    (by decide) (by rfl) (by decide) (by decide) (by rfl) (by decide) (by decide)

/-- Why the amended C13 asks for `maxTs` other than `0`: on a ticker started at `5`, the
cycle at `10` with `c1 ↦ {minTs = 7, maxTs = 0}` makes `0` the candidate of `c1`, and the
next cycle, at `20` and without statistics, publishes `0` for it. -/
theorem zero_watermark_from_zero_maxTs :
    tick interval200ms startedAt5 (10, none) (statisticsOf [("c1", ⟨7, 0⟩)], none) =
        .returned none
          { minTsStatistics := AList.insert "c2" 5 (AList.insert "c1" 5 ∅),
            currents := AList.insert "c2" 10 (AList.insert "c1" 0 ∅) }
          [Call.AllocOne, Call.getStatisticsFunc] ∧
      tick interval200ms
          { minTsStatistics := AList.insert "c2" 5 (AList.insert "c1" 5 ∅),
            currents := AList.insert "c2" 10 (AList.insert "c1" 0 ∅) }
          (20, none) (∅, none) =
        .returned none
          { minTsStatistics := AList.insert "c1" 0 (AList.insert "c2" 10 ∅),
            currents := AList.insert "c1" 20 (AList.insert "c2" 20 ∅) }
          [Call.AllocOne, Call.getStatisticsFunc] ∧
      (AList.insert "c1" 0 (AList.insert "c2" 10 ∅) : TimestampMap).lookup "c1" = some 0 :=
  ⟨by rfl, by rfl, by decide⟩

/-- Why the amended C13 asks for `minTs` other than `0`: after `addPChan c3`, the cycle
at `10` with `c3 ↦ {minTs = 0, maxTs = 9}` leaves the candidate `0` of `c3` as it is,
and the next cycle, at `20` and without statistics, publishes `0` for it. -/
theorem zero_watermark_from_zero_minTs :
    run interval200ms startedAt5
        [Op.addPChan "c3", Op.tick (10, none) (statisticsOf [("c3", ⟨0, 9⟩)], none)] =
        some { minTsStatistics := AList.insert "c2" 5 (AList.insert "c1" 5 (AList.insert "c3" 0 ∅)),
                 currents := AList.insert "c2" 10 (AList.insert "c1" 10 (AList.insert "c3" 0 ∅)) } ∧
      tick interval200ms
          { minTsStatistics := AList.insert "c2" 5 (AList.insert "c1" 5 (AList.insert "c3" 0 ∅)),
            currents := AList.insert "c2" 10 (AList.insert "c1" 10 (AList.insert "c3" 0 ∅)) }
          (20, none) (∅, none) =
        .returned none
          { minTsStatistics := AList.insert "c3" 0 (AList.insert "c1" 10 (AList.insert "c2" 10 ∅)),
            currents := AList.insert "c3" 20 (AList.insert "c1" 20 (AList.insert "c2" 20 ∅)) }
          [Call.AllocOne, Call.getStatisticsFunc] ∧
      addedSinceCycle "c3"
        [Op.addPChan "c3", Op.tick (10, none) (statisticsOf [("c3", ⟨0, 9⟩)], none)] = false ∧
      (AList.insert "c3" 0 (AList.insert "c1" 10 (AList.insert "c2" 10 ∅)) : TimestampMap).lookup
        "c3" = some 0 :=
  ⟨by rfl, by rfl, by decide, by decide⟩

/-- Why the amended C13 asks for a 64-bit sum other than `0`: on a ticker started at `5`,
the cycle at `2 ^ 64 - 200000000` with `c1 ↦ {2 ^ 64 - 1, 2 ^ 64 - 1}` wraps the sum to
`0` and makes it the candidate of `c1`; the next cycle, without statistics, publishes `0`
for it. -/
theorem zero_watermark_from_overflow :
    tick interval200ms startedAt5 (18446744073509551616, none)
        (statisticsOf [("c1", ⟨18446744073709551615, 18446744073709551615⟩)], none) =
        .returned none
          { minTsStatistics := AList.insert "c2" 5 (AList.insert "c1" 18446744073509551616 ∅),
            currents := AList.insert "c2" 18446744073509551616 (AList.insert "c1" 0 ∅) }
          [Call.AllocOne, Call.getStatisticsFunc] ∧
      tick interval200ms
          { minTsStatistics := AList.insert "c2" 5 (AList.insert "c1" 18446744073509551616 ∅),
            currents := AList.insert "c2" 18446744073509551616 (AList.insert "c1" 0 ∅) }
          (18446744073509551616, none) (∅, none) =
        .returned none
          { minTsStatistics :=
              AList.insert "c1" 0 (AList.insert "c2" 18446744073509551616 ∅),
            currents := AList.insert "c1" 18446744073509551616
              (AList.insert "c2" 18446744073509551616 ∅) }
          [Call.AllocOne, Call.getStatisticsFunc] ∧
      ((18446744073509551616 : Timestamp) + interval200ms) % uint64Modulus = 0 :=
  ⟨by rfl, by rfl, by decide⟩

end proxynode

namespace indexservice

/-! ## `Swap` and the loops of `container/heap`: what they keep -/

theorem getElem?_lt_length {α : Type} {l : List α} {i : Nat} {a : α}
    (h : l[i]? = some a) : i < l.length := by
  by_contra hn
  rw [List.getElem?_eq_none (Nat.le_of_not_lt hn)] at h
  cases h

/-- Exchanging the values of two positions gives a permutation. -/
theorem set_set_perm {α : Type} [DecidableEq α] (l : List α) (i j : Nat) (a b : α)
    (hi : l[i]? = some a) (hj : l[j]? = some b) :
    ((l.set i b).set j a).Perm l := by
  have hil := getElem?_lt_length hi
  have hjl := getElem?_lt_length hj
  have hia : l[i] = a := by
    rw [List.getElem?_eq_getElem hil] at hi
    exact Option.some.inj hi
  have hjb : l[j] = b := by
    rw [List.getElem?_eq_getElem hjl] at hj
    exact Option.some.inj hj
  by_cases hij : i = j
  · subst hij
    have hab : a = b := by rw [← hia, hjb]
    subst hab
    have h2 : (l.set i a).set i a = l := by
      apply List.ext_getElem?
      intro k
      rw [List.set_set, List.getElem?_set]
      by_cases hik : i = k
      · subst hik
        simp [hil, hi]
      · simp [hik]
    rw [h2]
  · rw [List.perm_iff_count]
    intro x
    have hjl' : j < (l.set i b).length := by simpa using hjl
    rw [List.count_set a x (l.set i b) j hjl', List.count_set b x l i hil]
    have hj' : (l.set i b)[j] = b := by
      rw [List.getElem_set_ne hij]
      exact hjb
    rw [hj', hia]
    have hca : a = x → 1 ≤ l.count x := by
      intro hax
      subst hax
      have : a ∈ l := by
        rw [← hia]
        exact List.getElem_mem hil
      exact List.count_pos_iff.mpr this
    by_cases hax : a = x <;> by_cases hbx : b = x <;> simp [hax, hbx]
    · have := hca hax
      subst hax
      omega
    · have := hca hax
      subst hax
      omega

theorem Swap_length (pq : PriorityQueue) (i j : Nat) :
    (Swap pq i j).items.length = pq.items.length := by
  unfold Swap
  cases hi : pq.items[i]? with
  | none => rfl
  | some a =>
    cases hj : pq.items[j]? with
    | none => rfl
    | some b => simp

theorem Swap_getElem? {pq : PriorityQueue} {i j : Nat} {a b : PQItem}
    (hi : pq.items[i]? = some a) (hj : pq.items[j]? = some b) (k : Nat) :
    (Swap pq i j).items[k]? =
      if k = j then some { a with index := j }
      else if k = i then some { b with index := i }
      else pq.items[k]? := by
  have hil := getElem?_lt_length hi
  have hjl := getElem?_lt_length hj
  unfold Swap
  simp only [hi, hj]
  rw [List.getElem?_set, List.getElem?_set]
  by_cases hkj : k = j
  · subst hkj
    simp [hjl]
  · have hjk : ¬ j = k := fun e => hkj e.symm
    simp only [hjk, hkj, if_false]
    by_cases hki : k = i
    · subst hki
      simp [hil]
    · have hik : ¬ i = k := fun e => hki e.symm
      simp [hik, hki]

theorem Swap_worker_perm (pq : PriorityQueue) (i j : Nat) :
    ((Swap pq i j).items.map worker).Perm (pq.items.map worker) := by
  unfold Swap
  cases hi : pq.items[i]? with
  | none => exact List.Perm.refl _
  | some a =>
    cases hj : pq.items[j]? with
    | none => exact List.Perm.refl _
    | some b =>
      simp only [List.map_set]
      have h1 : (pq.items.map worker)[i]? = some (worker a) := by simp [hi]
      have h2 : (pq.items.map worker)[j]? = some (worker b) := by simp [hj]
      exact set_set_perm (pq.items.map worker) i j (worker a) (worker b) h1 h2

theorem indexConsistent_iff (pq : PriorityQueue) :
    indexConsistent pq ↔
      ∀ (i : Nat) (a : PQItem), pq.items[i]? = some a → a.index = (i : Int) := by
  unfold indexConsistent
  constructor
  · intro h i a ha
    have := h i (getElem?_lt_length ha)
    rw [ha] at this
    exact Option.some.inj this
  · intro h i hi
    rw [List.getElem?_eq_getElem hi]
    have := h i _ (List.getElem?_eq_getElem hi)
    simp [this]

theorem Swap_indexConsistent {pq : PriorityQueue} (h : indexConsistent pq) (i j : Nat) :
    indexConsistent (Swap pq i j) := by
  cases hi : pq.items[i]? with
  | none =>
    have : Swap pq i j = pq := by unfold Swap; simp only [hi]
    rw [this]
    exact h
  | some a =>
    cases hj : pq.items[j]? with
    | none =>
      have : Swap pq i j = pq := by unfold Swap; simp only [hi, hj]
      rw [this]
      exact h
    | some b =>
      rw [indexConsistent_iff] at h ⊢
      intro k x hx
      rw [Swap_getElem? hi hj k] at hx
      by_cases hkj : k = j
      · rw [if_pos hkj] at hx
        cases hx
        rw [hkj]
      · rw [if_neg hkj] at hx
        by_cases hki : k = i
        · rw [if_pos hki] at hx
          cases hx
          rw [hki]
        · rw [if_neg hki] at hx
          exact h k x hx

theorem upLoop_length (fuel : Nat) :
    ∀ (h : PriorityQueue) (j : Nat), (heap.upLoop fuel h j).items.length = h.items.length := by
  induction fuel with
  | zero => intro h j; rfl
  | succ fuel ih =>
    intro h j
    unfold heap.upLoop
    simp only
    split
    · rfl
    · rw [ih, Swap_length]

theorem upLoop_worker_perm (fuel : Nat) :
    ∀ (h : PriorityQueue) (j : Nat),
      ((heap.upLoop fuel h j).items.map worker).Perm (h.items.map worker) := by
  induction fuel with
  | zero => intro h j; exact List.Perm.refl _
  | succ fuel ih =>
    intro h j
    unfold heap.upLoop
    simp only
    split
    · exact List.Perm.refl _
    · exact (ih _ _).trans (Swap_worker_perm h _ _)

theorem upLoop_indexConsistent (fuel : Nat) :
    ∀ (h : PriorityQueue) (j : Nat), indexConsistent h →
      indexConsistent (heap.upLoop fuel h j) := by
  induction fuel with
  | zero => intro h j hc; exact hc
  | succ fuel ih =>
    intro h j hc
    unfold heap.upLoop
    simp only
    split
    · exact hc
    · exact ih _ _ (Swap_indexConsistent hc _ _)

theorem downLoop_succ (fuel : Nat) (h : PriorityQueue) (i n : Nat) :
    heap.downLoop (fuel + 1) h i n =
      if 2 * i + 1 ≥ n then (h, i)
      else if !Less h (heap.minChild h i n) i then (h, i)
      else heap.downLoop fuel (Swap h i (heap.minChild h i n)) (heap.minChild h i n) n := by
  rfl

theorem downLoop_length (fuel : Nat) :
    ∀ (h : PriorityQueue) (i n : Nat),
      (heap.downLoop fuel h i n).1.items.length = h.items.length := by
  induction fuel with
  | zero => intro h i n; rfl
  | succ fuel ih =>
    intro h i n
    rw [downLoop_succ]
    split
    · rfl
    · split
      · rfl
      · rw [ih, Swap_length]

theorem downLoop_worker_perm (fuel : Nat) :
    ∀ (h : PriorityQueue) (i n : Nat),
      ((heap.downLoop fuel h i n).1.items.map worker).Perm (h.items.map worker) := by
  induction fuel with
  | zero => intro h i n; exact List.Perm.refl _
  | succ fuel ih =>
    intro h i n
    rw [downLoop_succ]
    split
    · exact List.Perm.refl _
    · split
      · exact List.Perm.refl _
      · exact (ih _ _ _).trans (Swap_worker_perm h _ _)

theorem downLoop_indexConsistent (fuel : Nat) :
    ∀ (h : PriorityQueue) (i n : Nat), indexConsistent h →
      indexConsistent (heap.downLoop fuel h i n).1 := by
  induction fuel with
  | zero => intro h i n hc; exact hc
  | succ fuel ih =>
    intro h i n hc
    rw [downLoop_succ]
    split
    · exact hc
    · split
      · exact hc
      · exact ih _ _ _ (Swap_indexConsistent hc _ _)

/-! ## `heap.down` and `heap.up` restore the order -/

theorem prioAt_of_getElem? {items : List PQItem} {i : Nat} {a : PQItem}
    (h : items[i]? = some a) : prioAt items i = a.priority := by
  unfold prioAt
  rw [h]

theorem Swap_prioAt {pq : PriorityQueue} {i j : Nat} (hi : i < pq.items.length)
    (hj : j < pq.items.length) (k : Nat) :
    prioAt (Swap pq i j).items k =
      if k = j then prioAt pq.items i
      else if k = i then prioAt pq.items j
      else prioAt pq.items k := by
  have hi' : pq.items[i]? = some pq.items[i] := List.getElem?_eq_getElem hi
  have hj' : pq.items[j]? = some pq.items[j] := List.getElem?_eq_getElem hj
  unfold prioAt
  rw [Swap_getElem? hi' hj' k]
  by_cases hkj : k = j
  · rw [if_pos hkj, if_pos hkj, hi']
  · rw [if_neg hkj, if_neg hkj]
    by_cases hki : k = i
    · rw [if_pos hki, if_pos hki, hj']
    · rw [if_neg hki, if_neg hki]

theorem Less_eq_true {pq : PriorityQueue} {i j : Nat} (h : Less pq i j = true) :
    prioAt pq.items i < prioAt pq.items j := by
  unfold Less at h
  unfold prioAt
  cases hi : pq.items[i]? with
  | none => simp [hi] at h
  | some a =>
    cases hj : pq.items[j]? with
    | none => simp [hi, hj] at h
    | some b => simpa [hi, hj] using h

theorem Less_eq_false {pq : PriorityQueue} {i j : Nat} (hi : i < pq.items.length)
    (hj : j < pq.items.length) (h : Less pq i j = false) :
    prioAt pq.items j ≤ prioAt pq.items i := by
  have hi' : pq.items[i]? = some pq.items[i] := List.getElem?_eq_getElem hi
  have hj' : pq.items[j]? = some pq.items[j] := List.getElem?_eq_getElem hj
  unfold Less at h
  unfold prioAt
  simp only [hi', hj', decide_eq_false_iff_not, Int.not_lt] at h ⊢
  exact h

/-- The child selected by one iteration of `down` is a child in range, and no child in
range is below it. -/
theorem minChild_spec (h : PriorityQueue) (i n : Nat) (hn : n ≤ h.items.length)
    (hc : 2 * i + 1 < n) :
    (heap.minChild h i n = 2 * i + 1 ∨ heap.minChild h i n = 2 * i + 2) ∧
      heap.minChild h i n < n ∧
      ∀ k, k < n → 0 < k → (k - 1) / 2 = i →
        prioAt h.items (heap.minChild h i n) ≤ prioAt h.items k := by
  unfold heap.minChild
  by_cases hr : 2 * i + 1 + 1 < n ∧ Less h (2 * i + 1 + 1) (2 * i + 1) = true
  · rw [if_pos hr]
    refine ⟨Or.inr rfl, hr.1, ?_⟩
    intro k hk hk0 hpar
    have hlt := Less_eq_true hr.2
    have hk' : k = 2 * i + 1 ∨ k = 2 * i + 1 + 1 := by omega
    rcases hk' with e | e
    · rw [e]
      exact Int.le_of_lt hlt
    · rw [e]
  · rw [if_neg hr]
    refine ⟨Or.inl rfl, hc, ?_⟩
    intro k hk hk0 hpar
    have hk' : k = 2 * i + 1 ∨ k = 2 * i + 1 + 1 := by omega
    rcases hk' with e | e
    · rw [e]
    · rw [e]
      have hin : 2 * i + 1 + 1 < n := by omega
      have hl : Less h (2 * i + 1 + 1) (2 * i + 1) = false := by
        cases hL : Less h (2 * i + 1 + 1) (2 * i + 1) with
        | false => rfl
        | true => exact absurd ⟨hin, hL⟩ hr
      exact Less_eq_false (by omega) (by omega) hl

/-- One exchange of `down`: the order is then broken below the new position only. -/
theorem down_step {h : PriorityQueue} {i n : Nat} (hn : n ≤ h.items.length)
    (hc : 2 * i + 1 < n) (hinv : fixInv h.items n i)
    (hless : Less h (heap.minChild h i n) i = true) :
    downInv (Swap h i (heap.minChild h i n)).items n (heap.minChild h i n) := by
  obtain ⟨hcases, hcn, hmin⟩ := minChild_spec h i n hn hc
  have hlt := Less_eq_true hless
  generalize heap.minChild h i n = c at *
  have hil : i < h.items.length := by omega
  have hcl : c < h.items.length := by omega
  have hprio := fun k => Swap_prioAt hil hcl k
  obtain ⟨ha, hg⟩ := hinv
  constructor
  · intro k hk hk0 hq
    rw [hprio k, hprio ((k - 1) / 2)]
    by_cases hkc : k = c
    · have hqi : (k - 1) / 2 = i := by omega
      have hic : ¬ i = c := by omega
      simp only [hkc, if_true]
      rw [if_neg (by omega), if_pos (by omega)]
      exact Int.le_of_lt hlt
    · rw [if_neg hkc, if_neg hq]
      by_cases hki : k = i
      · rw [if_pos hki, if_neg (by omega)]
        have hi0 : 0 < i := by omega
        have := hg c hcn (by omega) (by omega) hi0
        rw [hki]
        exact this
      · rw [if_neg hki]
        by_cases hqi : (k - 1) / 2 = i
        · rw [if_pos hqi]
          exact hmin k hk hk0 hqi
        · rw [if_neg hqi]
          exact ha k hk hk0 hki hqi
  · intro k hk hk0 hpar hc0
    rw [hprio k, hprio ((c - 1) / 2)]
    have hci : (c - 1) / 2 = i := by omega
    rw [if_neg (by omega), if_pos hci, if_neg (by omega), if_neg (by omega)]
    have := ha k hk hk0 (by omega) (by omega)
    rw [hpar] at this
    exact this

theorem heapOrdered_of_downInv {items : List PQItem} {n i : Nat}
    (hinv : downInv items n i) (hch : childrenOK items n i) : heapOrdered items n := by
  intro k hk hk0
  by_cases hq : (k - 1) / 2 = i
  · rw [hq]
    exact hch k hk hk0 hq
  · exact hinv.1 k hk hk0 hq

theorem fixInv_of_downInv {items : List PQItem} {n i : Nat} (hinv : downInv items n i) :
    fixInv items n i :=
  ⟨fun k hk hk0 _ hq => hinv.1 k hk hk0 hq, hinv.2⟩

/-- The loop of `down` from a position whose links alone may break the order: either it
stops at once with the children in order, or the item moves and the order holds. -/
theorem downLoop_spec (fuel : Nat) :
    ∀ (h : PriorityQueue) (i n : Nat), n ≤ h.items.length → i < n → n ≤ fuel + i →
      fixInv h.items n i →
      ((heap.downLoop fuel h i n).2 = i ∧ (heap.downLoop fuel h i n).1 = h ∧
          childrenOK h.items n i) ∨
        (i < (heap.downLoop fuel h i n).2 ∧
          heapOrdered (heap.downLoop fuel h i n).1.items n) := by
  induction fuel with
  | zero =>
    intro h i n _ hi hf _
    omega
  | succ fuel ih =>
    intro h i n hn hi hf hinv
    rw [downLoop_succ]
    by_cases hc : 2 * i + 1 ≥ n
    · rw [if_pos hc]
      refine Or.inl ⟨rfl, rfl, ?_⟩
      intro k hk hk0 hpar
      omega
    · rw [if_neg hc]
      have hc' : 2 * i + 1 < n := by omega
      obtain ⟨hcases, hcn, hmin⟩ := minChild_spec h i n hn hc'
      cases hless : Less h (heap.minChild h i n) i with
      | false =>
        refine Or.inl ⟨rfl, rfl, ?_⟩
        intro k hk hk0 hpar
        have h1 := Less_eq_false (i := heap.minChild h i n) (j := i) (by omega) (by omega) hless
        exact Int.le_trans h1 (hmin k hk hk0 hpar)
      | true =>
        simp only [Bool.not_true, Bool.false_eq_true, if_false]
        have hd := down_step hn hc' hinv hless
        have hlen := Swap_length h i (heap.minChild h i n)
        have hci : i < heap.minChild h i n := by omega
        rcases ih (Swap h i (heap.minChild h i n)) (heap.minChild h i n) n
            (by rw [hlen]; exact hn) hcn (by omega) (fixInv_of_downInv hd) with h1 | h1
        · obtain ⟨e1, e2, e3⟩ := h1
          refine Or.inr ⟨by rw [e1]; exact hci, ?_⟩
          rw [e2]
          exact heapOrdered_of_downInv hd e3
        · exact Or.inr ⟨Nat.lt_trans hci h1.1, h1.2⟩

end indexservice

namespace indexservice

theorem upLoop_succ (fuel : Nat) (h : PriorityQueue) (j : Nat) :
    heap.upLoop (fuel + 1) h j =
      if (j - 1) / 2 = j ∨ (!Less h j ((j - 1) / 2)) = true then h
      else heap.upLoop fuel (Swap h ((j - 1) / 2) j) ((j - 1) / 2) := by
  rfl

/-- One exchange of `up`: the order is then broken above the new position only. -/
theorem up_step {h : PriorityQueue} {j n : Nat} (hn : n ≤ h.items.length) (hj : j < n)
    (hj0 : 0 < j) (hinv : upInv h.items n j) (hless : Less h j ((j - 1) / 2) = true) :
    upInv (Swap h ((j - 1) / 2) j).items n ((j - 1) / 2) := by
  have hlt := Less_eq_true hless
  have hil : (j - 1) / 2 < h.items.length := by omega
  have hjl : j < h.items.length := by omega
  have hprio := fun k => Swap_prioAt hil hjl k
  obtain ⟨ha, hg⟩ := hinv
  generalize hi : (j - 1) / 2 = i at *
  have hij : i < j := by omega
  constructor
  · intro k hk hk0 hki
    rw [hprio k, hprio ((k - 1) / 2)]
    by_cases hkj : k = j
    · rw [if_pos hkj]
      have hq : (k - 1) / 2 = i := by omega
      rw [if_neg (by omega), if_pos hq]
      exact Int.le_of_lt hlt
    · rw [if_neg hkj, if_neg hki]
      have hk1 := ha k hk hk0 hkj
      by_cases hqj : (k - 1) / 2 = j
      · rw [if_pos hqj]
        have := hg k hk hk0 hqj hj0
        rw [hi] at this
        exact this
      · rw [if_neg hqj]
        by_cases hqi : (k - 1) / 2 = i
        · rw [if_pos hqi]
          rw [hqi] at hk1
          exact Int.le_trans (Int.le_of_lt hlt) hk1
        · rw [if_neg hqi]
          exact hk1
  · intro k hk hk0 hpar hi0
    rw [hprio k, hprio ((i - 1) / 2)]
    rw [if_neg (by omega), if_neg (by omega)]
    have hup := ha i (by omega) hi0 (by omega)
    by_cases hkj : k = j
    · rw [if_pos hkj]
      exact hup
    · rw [if_neg hkj, if_neg (by omega)]
      have hk1 := ha k hk hk0 hkj
      rw [hpar] at hk1
      exact Int.le_trans hup hk1

/-- The loop of `up` from a position whose link to its parent alone may break the order
restores the order. -/
theorem upLoop_spec (fuel : Nat) :
    ∀ (h : PriorityQueue) (j n : Nat), n ≤ h.items.length → j < n → j ≤ fuel →
      upInv h.items n j → heapOrdered (heap.upLoop fuel h j).items n := by
  induction fuel with
  | zero =>
    intro h j n _ _ hf hinv
    have hj : j = 0 := by omega
    subst hj
    intro k hk hk0
    exact hinv.1 k hk hk0 (by omega)
  | succ fuel ih =>
    intro h j n hn hj hf hinv
    rw [upLoop_succ]
    by_cases hroot : (j - 1) / 2 = j
    · rw [if_pos (Or.inl hroot)]
      have hj0 : j = 0 := by omega
      subst hj0
      intro k hk hk0
      exact hinv.1 k hk hk0 (by omega)
    · have hj0 : 0 < j := by omega
      cases hless : Less h j ((j - 1) / 2) with
      | false =>
        have hcond : (j - 1) / 2 = j ∨ (!false) = true := Or.inr rfl
        rw [if_pos hcond]
        intro k hk hk0
        by_cases hkj : k = j
        · subst hkj
          exact Less_eq_false (by omega) (by omega) hless
        · exact hinv.1 k hk hk0 hkj
      | true =>
        have hcond : ¬ ((j - 1) / 2 = j ∨ (!true) = true) := by
          intro hc
          rcases hc with hc | hc
          · exact hroot hc
          · cases hc
        rw [if_neg hcond]
        have hstep := up_step hn hj hj0 hinv hless
        refine ih _ _ n ?_ (by omega) (by omega) hstep
        rw [Swap_length]
        exact hn

theorem upInv_of_fixInv {items : List PQItem} {n p : Nat} (hinv : fixInv items n p)
    (hch : childrenOK items n p) : upInv items n p := by
  refine ⟨?_, hinv.2⟩
  intro k hk hk0 hkp
  by_cases hq : (k - 1) / 2 = p
  · rw [hq]
    exact hch k hk hk0 hq
  · exact hinv.1 k hk hk0 hkp hq

/-- Whatever the order, `heap.Fix` at a position in range returns, with the same workers
and consistent positions. -/
theorem Fix_keeps (h : PriorityQueue) (p : Nat) (hp : p < h.items.length) :
    ∃ h1 : PriorityQueue, heap.Fix h (p : Int) = some h1 ∧
      (h1.items.map worker).Perm (h.items.map worker) ∧
      h1.items.length = h.items.length ∧
      (indexConsistent h → indexConsistent h1) := by
  have hrange : 0 ≤ (p : Int) ∧ (p : Int) < (Len h : Int) := by
    unfold Len
    omega
  unfold heap.Fix
  rw [if_pos hrange]
  simp only [Int.toNat_ofNat, heap.down]
  split
  · exact ⟨_, rfl, (upLoop_worker_perm _ _ _).trans (downLoop_worker_perm _ _ _ _),
      by rw [heap.up, upLoop_length, downLoop_length],
      fun hc => upLoop_indexConsistent _ _ _ (downLoop_indexConsistent _ _ _ _ hc)⟩
  · exact ⟨_, rfl, downLoop_worker_perm _ _ _ _, downLoop_length _ _ _ _,
      fun hc => downLoop_indexConsistent _ _ _ _ hc⟩

/-- When only the links of `p` may break the order, `heap.Fix` at `p` restores it. -/
theorem Fix_heapOrdered (h h1 : PriorityQueue) (p : Nat) (hp : p < h.items.length)
    (hinv : fixInv h.items h.items.length p) (hfix : heap.Fix h (p : Int) = some h1) :
    isMinHeap h1 := by
  have hrange : 0 ≤ (p : Int) ∧ (p : Int) < (Len h : Int) := by
    unfold Len
    omega
  unfold heap.Fix at hfix
  rw [if_pos hrange] at hfix
  simp only [Int.toNat_ofNat, heap.down] at hfix
  have hspec := downLoop_spec (Len h) h p (Len h) (Nat.le_refl _) hp (by omega) hinv
  unfold isMinHeap
  rcases hspec with ⟨e1, e2, e3⟩ | ⟨e1, e2⟩
  · have hnot : ¬ (heap.downLoop (Len h) h p (Len h)).2 > p := by omega
    simp only [hnot, decide_False, Bool.not_false, if_true, Option.some.injEq] at hfix
    rw [← hfix, e2, heap.up, upLoop_length]
    exact upLoop_spec p h p _ (Nat.le_refl _) hp (Nat.le_refl _) (upInv_of_fixInv hinv e3)
  · have hyes : (heap.downLoop (Len h) h p (Len h)).2 > p := e1
    simp only [hyes, decide_True, Bool.not_true, Bool.false_eq_true, if_false,
      Option.some.injEq] at hfix
    rw [← hfix, downLoop_length]
    exact e2

/-- In a min-heap no item is below the first one. -/
theorem heapOrdered_root_le {items : List PQItem} {n : Nat} (hh : heapOrdered items n) :
    ∀ k, k < n → prioAt items 0 ≤ prioAt items k := by
  intro k
  induction k using Nat.strong_induction_on with
  | _ k ih =>
    intro hk
    by_cases hk0 : k = 0
    · subst hk0
      exact Int.le_refl _
    · have h1 := hh k hk (by omega)
      have h2 := ih ((k - 1) / 2) (by omega) (by omega)
      exact Int.le_trans h2 h1

end indexservice

namespace indexservice

/-! ## Lookup by key, `heap.Fix` after a change of priority, `heap.Remove` -/

theorem getItemByKey_some {pq : PriorityQueue} {key : UniqueID} {p : Nat}
    (h : getItemByKey pq key = some p) :
    ∃ item : PQItem, pq.items[p]? = some item ∧ item.key = key := by
  unfold getItemByKey at h
  have := List.findIdx?_of_eq_some h
  cases hp : pq.items[p]? with
  | none => simp [hp] at this
  | some item =>
    simp only [hp, decide_eq_true_eq] at this
    exact ⟨item, rfl, this⟩

theorem getItemByKey_of_mem {pq : PriorityQueue} {key : UniqueID}
    (h : ∃ x ∈ pq.items, x.key = key) :
    ∃ (p : Nat) (item : PQItem),
      getItemByKey pq key = some p ∧ pq.items[p]? = some item ∧ item.key = key := by
  cases hf : getItemByKey pq key with
  | none =>
    unfold getItemByKey at hf
    rw [List.findIdx?_eq_none_iff] at hf
    obtain ⟨x, hx, hk⟩ := h
    have := hf x hx
    simp [hk] at this
  | some p =>
    obtain ⟨item, h1, h2⟩ := getItemByKey_some hf
    exact ⟨p, item, rfl, h1, h2⟩

theorem getItemByKey_none {pq : PriorityQueue} {key : UniqueID}
    (h : ∀ x ∈ pq.items, x.key ≠ key) : getItemByKey pq key = none := by
  unfold getItemByKey
  rw [List.findIdx?_eq_none_iff]
  intro x hx
  simpa using h x hx

theorem prioAt_set {items : List PQItem} {p : Nat} (hp : p < items.length) (x : PQItem)
    (k : Nat) :
    prioAt (items.set p x) k = if k = p then x.priority else prioAt items k := by
  unfold prioAt
  rw [List.getElem?_set]
  by_cases hk : k = p
  · subst hk
    simp [hp]
  · have : ¬ p = k := fun e => hk e.symm
    simp [hk, this]

/-- After a change of the priority at `p` in a min-heap, only the links of `p` may break
the order. -/
theorem fixInv_set {items : List PQItem} {p : Nat} (hp : p < items.length) (x : PQItem)
    (hh : heapOrdered items items.length) :
    fixInv (items.set p x) (items.set p x).length p := by
  have hlen : (items.set p x).length = items.length := List.length_set _ _ _
  rw [hlen]
  constructor
  · intro k hk hk0 hkp hq
    rw [prioAt_set hp, prioAt_set hp, if_neg hkp, if_neg hq]
    exact hh k hk hk0
  · intro k hk hk0 hq hp0
    rw [prioAt_set hp, prioAt_set hp, if_neg (by omega), if_neg (by omega)]
    have h1 := hh k hk hk0
    have h2 := hh p hp hp0
    rw [hq] at h1
    exact Int.le_trans h2 h1

theorem indexConsistent_set {pq : PriorityQueue} {p : Nat} {item : PQItem}
    (hidx : indexConsistent pq) (hitem : pq.items[p]? = some item) (v : Int) :
    indexConsistent { items := pq.items.set p { item with priority := v } } := by
  rw [indexConsistent_iff] at hidx ⊢
  intro k x hx
  simp only [List.getElem?_set] at hx
  by_cases hk : p = k
  · subst hk
    rw [if_pos rfl, if_pos (getElem?_lt_length hitem)] at hx
    cases hx
    exact hidx p item hitem
  · rw [if_neg hk] at hx
    exact hidx k x hx

/-- The common part of `IncPriority` and `UpdatePriority`: the priority of the item
found is replaced and `heap.Fix` is called at the position the item records. -/
theorem setPriority_Fix (pq : PriorityQueue) (p : Nat) (item : PQItem) (v : Int)
    (hheap : isMinHeap pq) (hidx : indexConsistent pq)
    (hitem : pq.items[p]? = some item) :
    ∃ pq1 : PriorityQueue,
      heap.Fix { items := pq.items.set p { item with priority := v } } item.index =
          some pq1 ∧
        (pq1.items.map worker).Perm
          ((pq.items.set p { item with priority := v }).map worker) ∧
        isMinHeap pq1 ∧ indexConsistent pq1 := by
  have hp := getElem?_lt_length hitem
  have hindex : item.index = (p : Int) := (indexConsistent_iff pq).mp hidx p item hitem
  have hp' : p < ({ items := pq.items.set p { item with priority := v } } :
      PriorityQueue).items.length := by
    simpa using hp
  obtain ⟨pq1, h1, h2, _, h4⟩ := Fix_keeps _ p hp'
  refine ⟨pq1, (congrArg (heap.Fix _) hindex).trans h1, h2, ?_,
    h4 (indexConsistent_set hidx hitem v)⟩
  exact Fix_heapOrdered _ pq1 p hp' (fixInv_set hp _ hheap) h1

theorem Swap_getElem?_ne (pq : PriorityQueue) {i j k : Nat} (hki : k ≠ i) (hkj : k ≠ j) :
    (Swap pq i j).items[k]? = pq.items[k]? := by
  cases hi : pq.items[i]? with
  | none =>
    have : Swap pq i j = pq := by unfold Swap; simp only [hi]
    rw [this]
  | some a =>
    cases hj : pq.items[j]? with
    | none =>
      have : Swap pq i j = pq := by unfold Swap; simp only [hi, hj]
      rw [this]
    | some b => rw [Swap_getElem? hi hj k, if_neg hkj, if_neg hki]

/-- The loop of `down` bounded by `n` leaves the positions from `n` on as they are. -/
theorem downLoop_untouched (fuel : Nat) :
    ∀ (h : PriorityQueue) (i n k : Nat), i < n → n ≤ k →
      (heap.downLoop fuel h i n).1.items[k]? = h.items[k]? := by
  induction fuel with
  | zero => intro h i n k _ _; rfl
  | succ fuel ih =>
    intro h i n k hi hk
    rw [downLoop_succ]
    by_cases hc : 2 * i + 1 ≥ n
    · rw [if_pos hc]
    · rw [if_neg hc]
      have hcn : heap.minChild h i n < n := by
        unfold heap.minChild
        split
        · omega
        · omega
      split
      · rfl
      · rw [ih _ _ n k hcn hk]
        exact Swap_getElem?_ne h (by omega) (by omega)

/-- The loop of `up` from `j` leaves the positions after `j` as they are. -/
theorem upLoop_untouched (fuel : Nat) :
    ∀ (h : PriorityQueue) (j k : Nat), j < k →
      (heap.upLoop fuel h j).items[k]? = h.items[k]? := by
  induction fuel with
  | zero => intro h j k _; rfl
  | succ fuel ih =>
    intro h j k hjk
    rw [upLoop_succ]
    split
    · rfl
    · rw [ih _ _ k (by omega)]
      exact Swap_getElem?_ne h (by omega) (by omega)

theorem prioAt_dropLast (items : List PQItem) {k : Nat} (hk : k < items.length - 1) :
    prioAt items.dropLast k = prioAt items k := by
  unfold prioAt
  rw [List.getElem?_dropLast, if_pos hk]

theorem heapOrdered_dropLast {items : List PQItem} {n : Nat}
    (hh : heapOrdered items n) (hn : n ≤ items.length - 1) :
    heapOrdered items.dropLast n := by
  intro k hk hk0
  rw [prioAt_dropLast items (by omega), prioAt_dropLast items (by omega)]
  exact hh k hk hk0

theorem indexConsistent_dropLast {pq : PriorityQueue} (hidx : indexConsistent pq) :
    indexConsistent { items := pq.items.dropLast } := by
  rw [indexConsistent_iff] at hidx ⊢
  intro k x hx
  simp only [List.getElem?_dropLast] at hx
  split at hx
  · exact hidx k x hx
  · cases hx

/-- What `Pop` leaves when the last item is known. -/
theorem Pop_of_last {h : PriorityQueue} {last : PQItem}
    (hl : h.items[h.items.length - 1]? = some last) :
    (Pop h).map (fun r => r.2) = some { items := h.items.dropLast } ∧
      h.items.dropLast ++ [last] = h.items := by
  have hg : h.items.getLast? = some last := by
    rw [List.getLast?_eq_getElem?]
    exact hl
  constructor
  · unfold Pop
    rw [hg]
    rfl
  · exact List.dropLast_append_getLast? last (by rw [hg]; rfl)

end indexservice

namespace indexservice

/-- The `down`-then-`up` step of `heap.Remove` at `p`, bounded by `n`: the workers and
the consistency of positions are kept and the positions from `n` on are not touched. -/
theorem removeFix_keeps (h2 : PriorityQueue) (p n : Nat) (hp : p < n) :
    ((if !(heap.down h2 p n).2 then heap.up (heap.down h2 p n).1 p
        else (heap.down h2 p n).1).items.map worker).Perm (h2.items.map worker) ∧
      (if !(heap.down h2 p n).2 then heap.up (heap.down h2 p n).1 p
        else (heap.down h2 p n).1).items.length = h2.items.length ∧
      (indexConsistent h2 →
        indexConsistent (if !(heap.down h2 p n).2 then heap.up (heap.down h2 p n).1 p
          else (heap.down h2 p n).1)) ∧
      ∀ k, n ≤ k →
        (if !(heap.down h2 p n).2 then heap.up (heap.down h2 p n).1 p
          else (heap.down h2 p n).1).items[k]? = h2.items[k]? := by
  simp only [heap.down]
  split
  · refine ⟨(upLoop_worker_perm _ _ _).trans (downLoop_worker_perm _ _ _ _), ?_, ?_, ?_⟩
    · rw [heap.up, upLoop_length, downLoop_length]
    · intro hc
      exact upLoop_indexConsistent _ _ _ (downLoop_indexConsistent _ _ _ _ hc)
    · intro k hk
      rw [heap.up, upLoop_untouched _ _ _ _ (by omega)]
      exact downLoop_untouched _ _ _ _ _ hp hk
  · exact ⟨downLoop_worker_perm _ _ _ _, downLoop_length _ _ _ _,
      fun hc => downLoop_indexConsistent _ _ _ _ hc,
      fun k hk => downLoop_untouched _ _ _ _ _ hp hk⟩

/-- The `down`-then-`up` step of `heap.Remove` restores the order on the first `n`
positions when only the links of `p` may break it. -/
theorem removeFix_heapOrdered (h2 : PriorityQueue) (p n : Nat) (hp : p < n)
    (hn : n ≤ h2.items.length) (hinv : fixInv h2.items n p) :
    heapOrdered (if !(heap.down h2 p n).2 then heap.up (heap.down h2 p n).1 p
      else (heap.down h2 p n).1).items n := by
  have hspec := downLoop_spec n h2 p n hn hp (by omega) hinv
  simp only [heap.down]
  rcases hspec with ⟨e1, e2, e3⟩ | ⟨e1, e2⟩
  · have hnot : ¬ (heap.downLoop n h2 p n).2 > p := by omega
    simp only [hnot, decide_False, Bool.not_false, if_true]
    rw [e2, heap.up]
    exact upLoop_spec p h2 p n hn hp (Nat.le_refl _) (upInv_of_fixInv hinv e3)
  · have hyes : (heap.downLoop n h2 p n).2 > p := e1
    simp only [hyes, decide_True, Bool.not_true, Bool.false_eq_true, if_false]
    exact e2

/-- After the exchange of `p` with the last position `n` in a min-heap, only the links of
`p` may break the order of the first `n` positions. -/
theorem fixInv_Swap_last {h : PriorityQueue} {p n : Nat} (hlen : h.items.length = n + 1)
    (hp : p < n) (hh : heapOrdered h.items (n + 1)) :
    fixInv (Swap h p n).items n p := by
  have hprio := fun k => @Swap_prioAt h p n (by omega) (by omega) k
  constructor
  · intro k hk hk0 hkp hq
    have e1 : ¬ k = n := by omega
    have e2 : ¬ (k - 1) / 2 = n := by omega
    rw [hprio k, hprio ((k - 1) / 2), if_neg e1, if_neg hkp, if_neg e2, if_neg hq]
    exact hh k (by omega) hk0
  · intro k hk hk0 hq hp0
    have e1 : ¬ k = n := by omega
    have e2 : ¬ k = p := by omega
    have e3 : ¬ (p - 1) / 2 = n := by omega
    have e4 : ¬ (p - 1) / 2 = p := by omega
    rw [hprio k, hprio ((p - 1) / 2), if_neg e1, if_neg e2, if_neg e3, if_neg e4]
    have h1 := hh k (by omega) hk0
    have h2 := hh p (by omega) hp0
    rw [hq] at h1
    exact Int.le_trans h2 h1

theorem getElem?_of_lt {α : Type} {l : List α} {i : Nat} (h : i < l.length) :
    ∃ a, l[i]? = some a :=
  ⟨_, List.getElem?_eq_getElem h⟩

/-- The queue `heap.Remove` hands to `Pop`, for a position that is not the last. -/
theorem heapRemove_not_last (h : PriorityQueue) (p n : Nat) (hlen : h.items.length = n + 1)
    (hp : p < n) :
    heap.Remove h (p : Int) =
      (Pop (if !(heap.down (Swap h p n) p n).2 then heap.up (heap.down (Swap h p n) p n).1 p
        else (heap.down (Swap h p n) p n).1)).map (fun r => r.2) := by
  have hrange : 0 ≤ (p : Int) ∧ (p : Int) < (Len h : Int) := by
    unfold Len
    omega
  have hn : Len h - 1 = n := by
    unfold Len
    omega
  unfold heap.Remove
  rw [if_pos hrange]
  simp only [Int.toNat_ofNat, hn]
  rw [if_pos (by omega)]

/-- For the last position `heap.Remove` calls `Pop` at once. -/
theorem heapRemove_last (h : PriorityQueue) (n : Nat) (hlen : h.items.length = n + 1) :
    heap.Remove h (n : Int) = (Pop h).map (fun r => r.2) := by
  have hrange : 0 ≤ (n : Int) ∧ (n : Int) < (Len h : Int) := by
    unfold Len
    omega
  have hn : Len h - 1 = n := by
    unfold Len
    omega
  unfold heap.Remove
  rw [if_pos hrange]
  simp only [Int.toNat_ofNat, hn]
  rw [if_neg (by omega)]

/-- Whatever the order, `heap.Remove` at a position in range returns the queue without
the item of that position: the other workers are kept, and so is the consistency of
positions. -/
theorem heapRemove_keeps (h : PriorityQueue) (p : Nat) (x : PQItem)
    (hx : h.items[p]? = some x) :
    ∃ h1 : PriorityQueue, heap.Remove h (p : Int) = some h1 ∧
      (worker x :: h1.items.map worker).Perm (h.items.map worker) ∧
      h1.items.length + 1 = h.items.length ∧
      (indexConsistent h → indexConsistent h1) := by
  have hp := getElem?_lt_length hx
  obtain ⟨n, hlen⟩ : ∃ n, h.items.length = n + 1 := ⟨h.items.length - 1, by omega⟩
  by_cases hpn : p < n
  · rw [heapRemove_not_last h p n hlen hpn]
    obtain ⟨k1, k2, k3, k4⟩ := removeFix_keeps (Swap h p n) p n hpn
    generalize (if !(heap.down (Swap h p n) p n).2 then
        heap.up (heap.down (Swap h p n) p n).1 p
      else (heap.down (Swap h p n) p n).1) = h3 at k1 k2 k3 k4 ⊢
    obtain ⟨y, hy⟩ := getElem?_of_lt (l := h.items) (i := n) (by omega)
    have hlast : h3.items[h3.items.length - 1]? = some { x with index := (n : Int) } := by
      rw [k2, Swap_length, hlen, Nat.add_sub_cancel, k4 n (Nat.le_refl _),
        Swap_getElem? hx hy, if_pos rfl]
    obtain ⟨q1, q2⟩ := Pop_of_last hlast
    refine ⟨_, q1, ?_, ?_, ?_⟩
    · have hperm : (h3.items.map worker).Perm (h.items.map worker) :=
        k1.trans (Swap_worker_perm h _ _)
      rw [← q2] at hperm
      simp only [List.map_append, List.map_cons, List.map_nil] at hperm
      exact (@List.perm_append_comm _ [worker x] _).trans hperm
    · simp only [List.length_dropLast]
      rw [k2, Swap_length]
      omega
    · intro hc
      exact indexConsistent_dropLast (k3 (Swap_indexConsistent hc _ _))
  · have hpe : p = n := by omega
    subst hpe
    rw [heapRemove_last h p hlen]
    have hlast : h.items[h.items.length - 1]? = some x := by
      rw [hlen, Nat.add_sub_cancel]
      exact hx
    obtain ⟨q1, q2⟩ := Pop_of_last hlast
    refine ⟨_, q1, ?_, ?_, ?_⟩
    · have hperm : ((h.items.dropLast ++ [x]).map worker).Perm (h.items.map worker) := by
        rw [q2]
      simp only [List.map_append, List.map_cons, List.map_nil] at hperm
      exact (@List.perm_append_comm _ [worker x] _).trans hperm
    · simp only [List.length_dropLast]
      omega
    · intro hc
      exact indexConsistent_dropLast hc

/-- On a min-heap, `heap.Remove` at a position in range leaves a min-heap. -/
theorem heapRemove_heapOrdered (h h1 : PriorityQueue) (p : Nat) (hp : p < h.items.length)
    (hheap : isMinHeap h) (hr : heap.Remove h (p : Int) = some h1) : isMinHeap h1 := by
  obtain ⟨n, hlen⟩ : ∃ n, h.items.length = n + 1 := ⟨h.items.length - 1, by omega⟩
  obtain ⟨x, hx⟩ := getElem?_of_lt hp
  unfold isMinHeap at hheap ⊢
  by_cases hpn : p < n
  · rw [heapRemove_not_last h p n hlen hpn] at hr
    have hheap' : heapOrdered h.items (n + 1) := by
      rw [← hlen]
      exact hheap
    have hinv := fixInv_Swap_last hlen hpn hheap'
    have hord := removeFix_heapOrdered (Swap h p n) p n hpn
      (by rw [Swap_length]; omega) hinv
    obtain ⟨_, k2, _, k4⟩ := removeFix_keeps (Swap h p n) p n hpn
    generalize (if !(heap.down (Swap h p n) p n).2 then
        heap.up (heap.down (Swap h p n) p n).1 p
      else (heap.down (Swap h p n) p n).1) = h3 at hr hord k2 k4
    obtain ⟨y, hy⟩ := getElem?_of_lt (l := h.items) (i := n) (by omega)
    have hlast : h3.items[h3.items.length - 1]? = some { x with index := (n : Int) } := by
      rw [k2, Swap_length, hlen, Nat.add_sub_cancel, k4 n (Nat.le_refl _),
        Swap_getElem? hx hy, if_pos rfl]
    obtain ⟨q1, _⟩ := Pop_of_last hlast
    rw [q1] at hr
    injection hr with hr
    rw [← hr]
    simp only [List.length_dropLast]
    rw [k2, Swap_length, hlen, Nat.add_sub_cancel]
    exact heapOrdered_dropLast hord (by rw [k2, Swap_length]; omega)
  · have hpe : p = n := by omega
    subst hpe
    rw [heapRemove_last h p hlen] at hr
    have hlast : h.items[h.items.length - 1]? = some x := by
      rw [hlen, Nat.add_sub_cancel]
      exact hx
    obtain ⟨q1, _⟩ := Pop_of_last hlast
    rw [q1] at hr
    injection hr with hr
    rw [← hr]
    simp only [List.length_dropLast]
    refine heapOrdered_dropLast ?_ (Nat.le_refl _)
    intro k hk hk0
    exact hheap k (by omega) hk0

end indexservice

namespace indexservice

/-! ## The claims on the queue -/

theorem wrapInt_of_fits {x : Int} (h1 : -2 ^ 63 ≤ x) (h2 : x < 2 ^ 63) : wrapInt x = x := by
  unfold wrapInt
  omega

/-- On a non-empty min-heap `Peek` returns an item that no item is below. -/
theorem Peek_minimal {pq : PriorityQueue} (hheap : isMinHeap pq)
    (hne : 0 < pq.items.length) :
    ∃ top : PQItem, Peek pq = some top ∧ ∀ x ∈ pq.items, top.priority ≤ x.priority := by
  obtain ⟨top, htop⟩ := getElem?_of_lt hne
  refine ⟨top, ?_, ?_⟩
  · unfold Peek Len
    rw [if_neg (by omega)]
    exact htop
  · intro x hx
    obtain ⟨k, hk, hkx⟩ := List.getElem_of_mem hx
    have hk' : pq.items[k]? = some x := by
      rw [List.getElem?_eq_getElem hk, hkx]
    have := heapOrdered_root_le hheap k hk
    rw [prioAt_of_getElem? htop, prioAt_of_getElem? hk'] at this
    exact this

/-- The methods `IncPriority` and `UpdatePriority` on a key that is found. -/
theorem IncPriority_found {pq : PriorityQueue} {key : UniqueID} {p : Nat} {item : PQItem}
    (hf : getItemByKey pq key = some p) (hitem : pq.items[p]? = some item) (d : Int) :
    IncPriority pq key d =
      heap.Fix { items := pq.items.set p { item with priority := wrapInt (item.priority + d) } }
        item.index := by
  unfold IncPriority
  simp only [hf, hitem]

theorem UpdatePriority_found {pq : PriorityQueue} {key : UniqueID} {p : Nat} {item : PQItem}
    (hf : getItemByKey pq key = some p) (hitem : pq.items[p]? = some item) (v : Int) :
    UpdatePriority pq key v =
      heap.Fix { items := pq.items.set p { item with priority := v } } item.index := by
  unfold UpdatePriority
  simp only [hf, hitem]

theorem Remove_found {pq : PriorityQueue} {key : UniqueID} {p : Nat} {item : PQItem}
    (hf : getItemByKey pq key = some p) (hitem : pq.items[p]? = some item) :
    Remove pq key = heap.Remove pq item.index := by
  unfold Remove
  simp only [hf, hitem]

theorem length_of_worker_perm {l1 l2 : List PQItem}
    (h : (l1.map worker).Perm (l2.map worker)) : l1.length = l2.length := by
  have := h.length_eq
  simpa using this

/-- C14, the code at the failing input: three workers with the scores `5`, `1` and `3`
are pushed in that order on the empty queue; `Push` appends them as they come, and
`PeekClient` returns the first one, the worker with key `1` and score `5`, while the
worker with key `2` has score `1`. -/
theorem C14_Push_then_PeekClient :
    (Push (Push (Push emptyQueue (newItem 1 101 5)) (newItem 2 102 1))
        (newItem 3 103 3)).items.map (fun a => (a.key, a.priority)) =
        [(1, 5), (2, 1), (3, 3)] ∧
      PeekClient
          (Push (Push (Push emptyQueue (newItem 1 101 5)) (newItem 2 102 1))
            (newItem 3 103 3)) = (1, some 101) ∧
      runOps emptyQueue
          [PQOp.Push (newItem 1 101 5), PQOp.Push (newItem 2 102 1),
            PQOp.Push (newItem 3 103 3)] =
        some (Push (Push (Push emptyQueue (newItem 1 101 5)) (newItem 2 102 1))
          (newItem 3 103 3)) :=
  ⟨by decide, by decide, by rfl⟩

/-- C15, as amended (`IncPriority`): on a min-heap with consistent positions that holds a
worker with the key, the call returns; the workers of the new queue are those of the old
one with the priority of the worker found replaced by the sum of its priority and `delta`
as a Go `int`, that is wrapped to 64 bits, which is the sum itself when it fits in 64
bits; the new queue is a min-heap with consistent positions, and `Peek` returns one of
its items of minimal priority. -/
theorem C15_IncPriority (pq : PriorityQueue) (key : UniqueID) (delta : Int)
    (hheap : isMinHeap pq) (hidx : indexConsistent pq)
    (hmem : ∃ x ∈ pq.items, x.key = key) :
    ∃ (p : Nat) (item : PQItem) (pq1 : PriorityQueue),
      getItemByKey pq key = some p ∧ pq.items[p]? = some item ∧ item.key = key ∧
      IncPriority pq key delta = some pq1 ∧
      (pq1.items.map worker).Perm
        ((pq.items.set p
          { item with priority := wrapInt (item.priority + delta) }).map worker) ∧
      (-2 ^ 63 ≤ item.priority + delta → item.priority + delta < 2 ^ 63 →
        wrapInt (item.priority + delta) = item.priority + delta) ∧
      isMinHeap pq1 ∧ indexConsistent pq1 ∧
      ∃ top : PQItem, Peek pq1 = some top ∧ ∀ x ∈ pq1.items, top.priority ≤ x.priority := by
  obtain ⟨p, item, hf, hitem, hkey⟩ := getItemByKey_of_mem hmem
  obtain ⟨pq1, h1, h2, h3, h4⟩ :=
    setPriority_Fix pq p item (wrapInt (item.priority + delta)) hheap hidx hitem
  refine ⟨p, item, pq1, hf, hitem, hkey, (IncPriority_found hf hitem delta).trans h1, h2,
    fun a b => wrapInt_of_fits a b, h3, h4, ?_⟩
  apply Peek_minimal h3
  have hl := length_of_worker_perm h2
  rw [hl, List.length_set]
  exact Nat.lt_of_le_of_lt (Nat.zero_le p) (getElem?_lt_length hitem)

/-- C16 (`UpdatePriority`): on a min-heap with consistent positions that holds a worker
with the key, the call returns; the workers of the new queue are those of the old one
with the priority of the worker found replaced by `v`, whatever it was; the new queue is a
min-heap with consistent positions. -/
theorem C16_UpdatePriority (pq : PriorityQueue) (key : UniqueID) (v : Int)
    (hheap : isMinHeap pq) (hidx : indexConsistent pq)
    (hmem : ∃ x ∈ pq.items, x.key = key) :
    ∃ (p : Nat) (item : PQItem) (pq1 : PriorityQueue),
      getItemByKey pq key = some p ∧ pq.items[p]? = some item ∧ item.key = key ∧
      UpdatePriority pq key v = some pq1 ∧
      (pq1.items.map worker).Perm
        ((pq.items.set p { item with priority := v }).map worker) ∧
      pq1.items.length = pq.items.length ∧
      isMinHeap pq1 ∧ indexConsistent pq1 := by
  obtain ⟨p, item, hf, hitem, hkey⟩ := getItemByKey_of_mem hmem
  obtain ⟨pq1, h1, h2, h3, h4⟩ := setPriority_Fix pq p item v hheap hidx hitem
  refine ⟨p, item, pq1, hf, hitem, hkey, (UpdatePriority_found hf hitem v).trans h1, h2,
    ?_, h3, h4⟩
  rw [length_of_worker_perm h2, List.length_set]

/-- C17 (`Remove`): on a min-heap with consistent positions that holds a worker with the
key, the call returns a queue with one item less; its workers together with the worker
found are the workers of the old queue; when the keys of the old queue are distinct, no
item of the new queue has the key; the new queue is a min-heap with consistent
positions. -/
theorem C17_Remove (pq : PriorityQueue) (key : UniqueID)
    (hheap : isMinHeap pq) (hidx : indexConsistent pq)
    (hmem : ∃ x ∈ pq.items, x.key = key) :
    ∃ (p : Nat) (item : PQItem) (pq1 : PriorityQueue),
      getItemByKey pq key = some p ∧ pq.items[p]? = some item ∧ item.key = key ∧
      Remove pq key = some pq1 ∧
      pq1.items.length + 1 = pq.items.length ∧
      (worker item :: pq1.items.map worker).Perm (pq.items.map worker) ∧
      ((pq.items.map (fun a => a.key)).Nodup → ∀ x ∈ pq1.items, x.key ≠ key) ∧
      isMinHeap pq1 ∧ indexConsistent pq1 := by
  obtain ⟨p, item, hf, hitem, hkey⟩ := getItemByKey_of_mem hmem
  have hindex : item.index = (p : Int) := (indexConsistent_iff pq).mp hidx p item hitem
  obtain ⟨pq1, h1, h2, h3, h4⟩ := heapRemove_keeps pq p item hitem
  have hrem : Remove pq key = some pq1 := by
    rw [Remove_found hf hitem, hindex]
    exact h1
  refine ⟨p, item, pq1, hf, hitem, hkey, hrem, h3, h2, ?_,
    heapRemove_heapOrdered pq pq1 p (getElem?_lt_length hitem) hheap h1, h4 hidx⟩
  intro hnd x hx hxk
  have hkeys := h2.map (fun a => a.key)
  simp only [List.map_cons, List.map_map] at hkeys
  have hfun : ((fun a => a.key) ∘ worker) = fun a : PQItem => a.key := rfl
  rw [hfun] at hkeys
  have hnd1 : (item.key :: pq1.items.map (fun a => a.key)).Nodup := by
    have : (worker item).key = item.key := rfl
    rw [this] at hkeys
    exact hkeys.nodup_iff.mpr hnd
  rw [List.nodup_cons] at hnd1
  apply hnd1.1
  rw [hkey, ← hxk]
  exact List.mem_map_of_mem _ hx

end indexservice

namespace indexservice

/-! ## Keys along sequences of calls -/

theorem keys_perm_of_worker_perm {l1 l2 : List PQItem}
    (h : (l1.map worker).Perm (l2.map worker)) :
    (l1.map (fun a => a.key)).Perm (l2.map (fun a => a.key)) := by
  have hk := h.map (fun a => a.key)
  simp only [List.map_map] at hk
  have hfun : ((fun a => a.key) ∘ worker) = fun a : PQItem => a.key := rfl
  rw [hfun] at hk
  exact hk

theorem keys_set_priority {items : List PQItem} {p : Nat} {item : PQItem}
    (hitem : items[p]? = some item) (v : Int) :
    (items.set p { item with priority := v }).map (fun a => a.key) =
      items.map (fun a => a.key) := by
  apply List.ext_getElem?
  intro k
  simp only [List.getElem?_map, List.getElem?_set]
  by_cases hk : p = k
  · subst hk
    simp [getElem?_lt_length hitem, hitem]
  · simp [hk]

/-- Whenever `heap.Fix` returns, the workers are the same. -/
theorem Fix_some_perm {h h1 : PriorityQueue} {i : Int} (hfix : heap.Fix h i = some h1) :
    (h1.items.map worker).Perm (h.items.map worker) := by
  by_cases hrange : 0 ≤ i ∧ i < (Len h : Int)
  · have hp : i.toNat < h.items.length := by
      unfold Len at hrange
      omega
    obtain ⟨h2, e1, e2, _, _⟩ := Fix_keeps h i.toNat hp
    have hi : ((i.toNat : Nat) : Int) = i := Int.toNat_of_nonneg hrange.1
    rw [hi, hfix] at e1
    injection e1 with e1
    rw [e1]
    exact e2
  · unfold heap.Fix at hfix
    rw [if_neg hrange] at hfix
    split at hfix
    · injection hfix with hfix
      rw [hfix]
    · cases hfix

/-- Whenever `heap.Remove` returns, the position was in range and the queue has lost the
item of that position. -/
theorem heapRemove_some {h h1 : PriorityQueue} {i : Int} (hr : heap.Remove h i = some h1) :
    ∃ x : PQItem, h.items[i.toNat]? = some x ∧
      (worker x :: h1.items.map worker).Perm (h.items.map worker) := by
  by_cases hrange : 0 ≤ i ∧ i < (Len h : Int)
  · have hp : i.toNat < h.items.length := by
      unfold Len at hrange
      omega
    obtain ⟨x, hx⟩ := getElem?_of_lt hp
    obtain ⟨h2, e1, e2, _, _⟩ := heapRemove_keeps h i.toNat x hx
    have hi : ((i.toNat : Nat) : Int) = i := Int.toNat_of_nonneg hrange.1
    rw [hi, hr] at e1
    injection e1 with e1
    rw [e1]
    exact ⟨x, hx, e2⟩
  · unfold heap.Remove at hr
    rw [if_neg hrange] at hr
    cases hr

/-- One call keeps the keys distinct, provided a `Push` brings a key that no item
carries. -/
theorem applyOp_keys_nodup {pq pq1 : PriorityQueue} {op : PQOp}
    (hnd : (pq.items.map (fun a => a.key)).Nodup)
    (hfresh : pushIsFresh pq op)
    (hop : applyOp pq op = some pq1) :
    (pq1.items.map (fun a => a.key)).Nodup := by
  cases op with
  | Push x =>
    simp only [applyOp, Option.some.injEq] at hop
    rw [← hop]
    simp only [Push, List.map_append, List.map_cons, List.map_nil]
    rw [List.nodup_append]
    refine ⟨hnd, List.nodup_singleton _, ?_⟩
    intro k hk1 hk2
    rw [List.mem_singleton] at hk2
    obtain ⟨y, hy, hyk⟩ := List.mem_map.mp hk1
    exact hfresh y hy (hyk.trans hk2)
  | IncPriority key d =>
    simp only [applyOp] at hop
    unfold IncPriority at hop
    cases hf : getItemByKey pq key with
    | none =>
      simp only [hf, Option.some.injEq] at hop
      rw [← hop]
      exact hnd
    | some p =>
      cases hitem : pq.items[p]? with
      | none =>
        simp only [hf, hitem, Option.some.injEq] at hop
        rw [← hop]
        exact hnd
      | some item =>
        simp only [hf, hitem] at hop
        have hperm := keys_perm_of_worker_perm (Fix_some_perm hop)
        simp only [keys_set_priority hitem] at hperm
        exact hperm.nodup_iff.mpr hnd
  | UpdatePriority key v =>
    simp only [applyOp] at hop
    unfold UpdatePriority at hop
    cases hf : getItemByKey pq key with
    | none =>
      simp only [hf, Option.some.injEq] at hop
      rw [← hop]
      exact hnd
    | some p =>
      cases hitem : pq.items[p]? with
      | none =>
        simp only [hf, hitem, Option.some.injEq] at hop
        rw [← hop]
        exact hnd
      | some item =>
        simp only [hf, hitem] at hop
        have hperm := keys_perm_of_worker_perm (Fix_some_perm hop)
        simp only [keys_set_priority hitem] at hperm
        exact hperm.nodup_iff.mpr hnd
  | Remove key =>
    simp only [applyOp] at hop
    unfold Remove at hop
    cases hf : getItemByKey pq key with
    | none =>
      simp only [hf, Option.some.injEq] at hop
      rw [← hop]
      exact hnd
    | some p =>
      cases hitem : pq.items[p]? with
      | none =>
        simp only [hf, hitem, Option.some.injEq] at hop
        rw [← hop]
        exact hnd
      | some item =>
        simp only [hf, hitem] at hop
        obtain ⟨x, _, hperm⟩ := heapRemove_some hop
        have hk : (List.map (fun a => a.key) (x :: pq1.items)).Perm
            (pq.items.map (fun a => a.key)) :=
          @keys_perm_of_worker_perm (x :: pq1.items) pq.items (by simpa using hperm)
        have hnd1 := hk.nodup_iff.mpr hnd
        simp only [List.map_cons, List.nodup_cons] at hnd1
        exact hnd1.2

theorem runOps_keys_nodup :
    ∀ (ops : List PQOp) (pq0 pq : PriorityQueue),
      (pq0.items.map (fun a => a.key)).Nodup → runOps pq0 ops = some pq →
      freshPushes pq0 ops → (pq.items.map (fun a => a.key)).Nodup := by
  intro ops
  induction ops with
  | nil =>
    intro pq0 pq hnd hrun _
    simp [runOps] at hrun
    rw [← hrun]
    exact hnd
  | cons op ops ih =>
    intro pq0 pq hnd hrun hfresh
    simp only [runOps, List.foldlM_cons] at hrun
    cases hop : applyOp pq0 op with
    | none => simp [hop] at hrun
    | some pq1 =>
      simp only [hop, Option.bind_eq_bind, Option.some_bind] at hrun
      unfold freshPushes at hfresh
      simp only [hop] at hfresh
      exact ih pq1 pq (applyOp_keys_nodup hnd hfresh.1 hop) hrun hfresh.2

/-- Counterexample to C18 as stated: two calls of `Push` with the key `1` on the empty
queue leave two items with the key `1`. -/
theorem C18_counterexample :
    runOps emptyQueue [PQOp.Push (newItem 1 101 0), PQOp.Push (newItem 1 102 0)] =
        some { items :=
          [{ value := some 101, key := 1, addr := none, priority := 0, index := 0 },
           { value := some 102, key := 1, addr := none, priority := 0, index := 1 }] } ∧
      ¬ (([{ value := some 101, key := 1, addr := none, priority := 0, index := 0 },
          { value := some 102, key := 1, addr := none, priority := 0, index := 1 }] :
            List PQItem).map (fun a => a.key)).Nodup :=
  ⟨by rfl, by decide⟩

/-- C18, as amended: in a queue built from the empty queue by calls of `Push`,
`IncPriority`, `UpdatePriority` and `Remove`, no two items have the same key, provided no
`Push` was given a key that an item of the queue carried at that moment. -/
theorem C18_keys_distinct (ops : List PQOp) (pq : PriorityQueue)
    (hrun : runOps emptyQueue ops = some pq) (hfresh : freshPushes emptyQueue ops) :
    (pq.items.map (fun a => a.key)).Nodup :=
  runOps_keys_nodup ops emptyQueue pq List.nodup_nil hrun hfresh

/-- Counterexample to C19 as stated: no item of the queue `heapOf135` has the key `7`, and
`IncPriority`, `UpdatePriority` and `Remove` with that key return normally: the methods
have no result, so nothing is reported, and they do not panic. -/
theorem C19_counterexample :
    (∀ x ∈ heapOf135.items, x.key ≠ 7) ∧
      IncPriority heapOf135 7 1 = some heapOf135 ∧
      UpdatePriority heapOf135 7 1 = some heapOf135 ∧
      Remove heapOf135 7 = some heapOf135 :=
  ⟨by decide, by decide, by decide, by decide⟩

/-- C19, as amended: with a key that no item carries, `IncPriority`, `UpdatePriority` and
`Remove` return without a panic and leave the queue as it was; they have no result in
which an error could be reported. -/
theorem C19_key_not_found (pq : PriorityQueue) (key : UniqueID) (d v : Int)
    (hkey : ∀ x ∈ pq.items, x.key ≠ key) :
    IncPriority pq key d = some pq ∧ UpdatePriority pq key v = some pq ∧
      Remove pq key = some pq := by
  have hf := getItemByKey_none hkey
  refine ⟨?_, ?_, ?_⟩
  · unfold IncPriority
    simp only [hf]
  · unfold UpdatePriority
    simp only [hf]
  · unfold Remove
    simp only [hf]

end indexservice

namespace indexservice

/-! ## The claims on a heap of three workers -/

/-- Counterexample to C15 as stated: on the min-heap of two workers with the scores `5`
and `2 ^ 63 - 1`, the greatest Go `int`, `IncPriority` of the second worker by `1` wraps
its score to `-2 ^ 63`, which is not `2 ^ 63 - 1 + 1`, and moves it to the first
position, where `PeekClient` finds it. -/
theorem C15_counterexample :
    isMinHeap { items :=
        [{ value := some 101, key := 1, addr := none, priority := 5, index := 0 },
         { value := some 102, key := 2, addr := none, priority := 9223372036854775807,
           index := 1 }] } ∧
      indexConsistent { items :=
        [{ value := some 101, key := 1, addr := none, priority := 5, index := 0 },
         { value := some 102, key := 2, addr := none, priority := 9223372036854775807,
           index := 1 }] } ∧
      IncPriority { items :=
          [{ value := some 101, key := 1, addr := none, priority := 5, index := 0 },
           { value := some 102, key := 2, addr := none, priority := 9223372036854775807,
             index := 1 }] } 2 1 =
        some { items :=
          [{ value := some 102, key := 2, addr := none, priority := -9223372036854775808,
             index := 0 },
           { value := some 101, key := 1, addr := none, priority := 5, index := 1 }] } ∧
      (9223372036854775807 : Int) + 1 ≠ -9223372036854775808 ∧
      PeekClient { items :=
          [{ value := some 102, key := 2, addr := none, priority := -9223372036854775808,
             index := 0 },
           { value := some 101, key := 1, addr := none, priority := 5, index := 1 }] } =
        (2, some 102) :=
  ⟨by decide, by decide, by decide, by decide, by decide⟩

/-- Witness of C15 as amended: on the heap with the scores `1`, `5`, `3`, the worker with score `1`
(key `2`) is increased by `10`; the queue becomes `3`, `5`, `11` and `PeekClient` returns
the worker with score `3` (key `3`). -/
theorem C15_IncPriority_witness :
    (∃ pq1 : PriorityQueue, IncPriority heapOf135 2 10 = some pq1 ∧ isMinHeap pq1 ∧
        ∃ top : PQItem, Peek pq1 = some top ∧ ∀ x ∈ pq1.items, top.priority ≤ x.priority) ∧
      IncPriority heapOf135 2 10 =
        some { items :=
          [{ value := some 103, key := 3, addr := none, priority := 3, index := 0 },
           { value := some 101, key := 1, addr := none, priority := 5, index := 1 },
           { value := some 102, key := 2, addr := none, priority := 11, index := 2 }] } ∧
      PeekClient { items :=
          [{ value := some 103, key := 3, addr := none, priority := 3, index := 0 },
           { value := some 101, key := 1, addr := none, priority := 5, index := 1 },
           { value := some 102, key := 2, addr := none, priority := 11, index := 2 }] } =
        (3, some 103) :=
  ⟨match C15_IncPriority heapOf135 2 10 (by decide) (by decide) (by decide) with
    | ⟨_, _, pq1, _, _, _, h, _, _, hh, _, hp⟩ => ⟨pq1, h, hh, hp⟩,
    by decide, by decide⟩

/-- Witness of C16: on the heap with the scores `1`, `5`, `3`, the worker with score `1`
(key `2`) is set to `4`; the queue becomes `3`, `5`, `4`. -/
theorem C16_UpdatePriority_witness :
    (∃ pq1 : PriorityQueue, UpdatePriority heapOf135 2 4 = some pq1 ∧
        pq1.items.length = heapOf135.items.length ∧ isMinHeap pq1) ∧
      UpdatePriority heapOf135 2 4 =
        some { items :=
          [{ value := some 103, key := 3, addr := none, priority := 3, index := 0 },
           { value := some 101, key := 1, addr := none, priority := 5, index := 1 },
           { value := some 102, key := 2, addr := none, priority := 4, index := 2 }] } :=
  ⟨match C16_UpdatePriority heapOf135 2 4 (by decide) (by decide) (by decide) with
    | ⟨_, _, pq1, _, _, _, h, _, hl, hh, _⟩ => ⟨pq1, h, hl, hh⟩,
    by decide⟩

/-- Witness of C17: on the heap with the scores `1`, `5`, `3`, the worker with key `2`
is removed; the queue becomes `3`, `5`. -/
theorem C17_Remove_witness :
    (∃ pq1 : PriorityQueue, Remove heapOf135 2 = some pq1 ∧
        pq1.items.length + 1 = heapOf135.items.length ∧ isMinHeap pq1 ∧
        ∀ x ∈ pq1.items, x.key ≠ 2) ∧
      Remove heapOf135 2 =
        some { items :=
          [{ value := some 103, key := 3, addr := none, priority := 3, index := 0 },
           { value := some 101, key := 1, addr := none, priority := 5, index := 1 }] } :=
  ⟨match C17_Remove heapOf135 2 (by decide) (by decide) (by decide) with
    | ⟨_, _, pq1, _, _, _, h, hl, _, hk, hh, _⟩ => ⟨pq1, h, hl, hh, hk (by decide)⟩,
    by decide⟩

/-- Witness of C18 as amended: two workers with the keys `1` and `2` are pushed, the
second is increased and the first removed; the key `2` remains, once. -/
theorem C18_keys_distinct_witness :
    (([{ value := some 102, key := 2, addr := none, priority := 11, index := 0 }] :
        List PQItem).map (fun a => a.key)).Nodup :=
  C18_keys_distinct
    [PQOp.Push (newItem 1 101 5), PQOp.Push (newItem 2 102 1), PQOp.IncPriority 2 10,
      PQOp.Remove 1]
    { items := [{ value := some 102, key := 2, addr := none, priority := 11, index := 0 }] }
    (by rfl) ⟨by decide, by decide, trivial, trivial, trivial⟩

/-- Witness of C19 as amended: the key `7` on the heap of three workers. -/
theorem C19_key_not_found_witness :
    IncPriority heapOf135 7 1 = some heapOf135 ∧
      UpdatePriority heapOf135 7 1 = some heapOf135 ∧
      Remove heapOf135 7 = some heapOf135 :=
  C19_key_not_found heapOf135 7 1 1 (by decide)

end indexservice

namespace retry

/-! ## `Impl` and its recursion -/

theorem wrapInt64_of_fits {x : Int} (h1 : -2 ^ 63 ≤ x) (h2 : x < 2 ^ 63) :
    wrapInt64 x = x := by
  unfold wrapInt64
  omega

/-- The body of `Impl`: what one call does, the recursive calls being calls of `Impl`. -/
theorem Impl_eq (attempts sleep : Int) (fn : Nat → GoError) (maxSleepTime : Int) :
    Impl attempts sleep fn maxSleepTime =
      match fn 0 with
      | GoError.nil => { err := GoError.nil, calls := 1, sleeps := [] }
      | GoError.InterruptError s => { err := s, calls := 1, sleeps := [] }
      | GoError.plain msg =>
        if wrapInt64 (attempts - 1) > 0 then
          { err := (Impl (wrapInt64 (attempts - 1))
                (if sleep < maxSleepTime then wrapInt64 (2 * sleep) else maxSleepTime)
                (fun k => fn (k + 1)) maxSleepTime).err
            calls := (Impl (wrapInt64 (attempts - 1))
                (if sleep < maxSleepTime then wrapInt64 (2 * sleep) else maxSleepTime)
                (fun k => fn (k + 1)) maxSleepTime).calls + 1
            sleeps := sleep :: (Impl (wrapInt64 (attempts - 1))
                (if sleep < maxSleepTime then wrapInt64 (2 * sleep) else maxSleepTime)
                (fun k => fn (k + 1)) maxSleepTime).sleeps }
        else { err := GoError.plain msg, calls := 1, sleeps := [] } := by
  unfold Impl
  rw [ImplLoop]
  cases hfn : fn 0 with
  | nil => rfl
  | InterruptError s => rfl
  | plain msg =>
    simp only
    by_cases hpos : wrapInt64 (attempts - 1) > 0
    · have hfuel : (wrapInt64 (attempts - 1)).toNat =
          (wrapInt64 (wrapInt64 (attempts - 1) - 1)).toNat + 1 := by
        unfold wrapInt64 at hpos ⊢
        omega
      rw [if_pos hpos, if_pos hpos, ← hfuel]
      by_cases hs : sleep < maxSleepTime
      · simp only [hs, if_true]
      · simp only [hs, if_false]
    · rw [if_neg hpos, if_neg hpos]

end retry

namespace retry

/-- With an operation that fails at every invocation with an ordinary error, `Impl` with
`m + 1` attempts invokes it `m + 1` times and returns the error of the last invocation. -/
theorem Impl_always_fails (maxSleepTime : Int) :
    ∀ (m : Nat) (sleep : Int) (fn : Nat → GoError),
      ((m : Int) + 1 < 2 ^ 63) → (∀ k, ∃ msg, fn k = GoError.plain msg) →
      (Impl ((m : Int) + 1) sleep fn maxSleepTime).calls = m + 1 ∧
        (Impl ((m : Int) + 1) sleep fn maxSleepTime).err = fn m := by
  intro m
  induction m with
  | zero =>
    intro sleep fn _ hf
    obtain ⟨msg, hmsg⟩ := hf 0
    rw [Impl_eq, hmsg]
    have hw : wrapInt64 0 = 0 := by
      unfold wrapInt64
      omega
    simp [hw]
  | succ m ih =>
    intro sleep fn hm hf
    obtain ⟨msg, hmsg⟩ := hf 0
    rw [Impl_eq, hmsg]
    have hw : wrapInt64 (((m + 1 : Nat) : Int) + 1 - 1) = (m : Int) + 1 := by
      unfold wrapInt64
      omega
    have hpos : (m : Int) + 1 > 0 := by omega
    simp only [hw, hpos, if_true]
    have hm' : (m : Int) + 1 < 2 ^ 63 := by omega
    obtain ⟨h1, h2⟩ := ih (if sleep < maxSleepTime then wrapInt64 (2 * sleep) else maxSleepTime)
      (fun k => fn (k + 1)) hm' (fun k => hf (k + 1))
    exact ⟨by rw [h1], h2⟩

/-- C20 (retry exhaustion): for `n ≥ 1` attempts (a Go `int`), any initial sleep and an
operation that fails at every invocation with an error that is not an `InterruptError`,
`Retry` invokes the operation exactly `n` times and returns the error of the `n`-th
invocation. -/
theorem C20_retry_exhaustion (n : Nat) (sleep : Int) (fn : Nat → GoError)
    (hn : 1 ≤ n) (hint : (n : Int) < 2 ^ 63)
    (hfails : ∀ k, ∃ msg, fn k = GoError.plain msg) :
    (Retry (n : Int) sleep fn).calls = n ∧ (Retry (n : Int) sleep fn).err = fn (n - 1) := by
  obtain ⟨m, hm⟩ : ∃ m, n = m + 1 := ⟨n - 1, by omega⟩
  subst hm
  have h := Impl_always_fails (Millisecond * 1000) m sleep fn (by omega) hfails
  simpa [Retry] using h

/-- Witness of C20: `Retry` with 3 attempts and 100 ms on an operation that always fails
invokes it 3 times and returns the error of the third invocation. -/
theorem C20_retry_exhaustion_witness :
    (Retry 3 (100 * Millisecond) alwaysFails).calls = 3 ∧
      (Retry 3 (100 * Millisecond) alwaysFails).err = alwaysFails 2 :=
  C20_retry_exhaustion 3 (100 * Millisecond) alwaysFails (by decide) (by decide)
    (fun k => ⟨toString k, rfl⟩)

end retry

namespace indexservice

/-! ## The bounds on the loops of `container/heap` are never reached -/

/-- The loop of `up` from `j` gives the same queue for every bound from `j` on. -/
theorem upLoop_fuel (f1 : Nat) :
    ∀ (f2 : Nat) (h : PriorityQueue) (j : Nat), j ≤ f1 → j ≤ f2 →
      heap.upLoop f1 h j = heap.upLoop f2 h j := by
  induction f1 with
  | zero =>
    intro f2 h j h1 _
    have hj : j = 0 := by omega
    subst hj
    cases f2 with
    | zero => rfl
    | succ f2 =>
      rw [upLoop_succ, if_pos (Or.inl (by omega))]
      rfl
  | succ f1 ih =>
    intro f2 h j h1 h2
    cases f2 with
    | zero =>
      have hj : j = 0 := by omega
      subst hj
      rw [upLoop_succ, if_pos (Or.inl (by omega))]
      rfl
    | succ f2 =>
      rw [upLoop_succ, upLoop_succ]
      by_cases hc : (j - 1) / 2 = j ∨ (!Less h j ((j - 1) / 2)) = true
      · rw [if_pos hc, if_pos hc]
      · rw [if_neg hc, if_neg hc]
        have hj : 0 < j := by
          by_contra hn
          exact hc (Or.inl (by omega))
        exact ih f2 _ _ (by omega) (by omega)

/-- The loop of `down` from `i` with the bound `n` gives the same result for every bound
on the iterations from `n - i` on. -/
theorem downLoop_fuel (f1 : Nat) :
    ∀ (f2 : Nat) (h : PriorityQueue) (i n : Nat), n ≤ f1 + i → n ≤ f2 + i →
      heap.downLoop f1 h i n = heap.downLoop f2 h i n := by
  induction f1 with
  | zero =>
    intro f2 h i n h1 _
    cases f2 with
    | zero => rfl
    | succ f2 =>
      rw [downLoop_succ, if_pos (by omega)]
      rfl
  | succ f1 ih =>
    intro f2 h i n h1 h2
    cases f2 with
    | zero =>
      rw [downLoop_succ, if_pos (by omega)]
      rfl
    | succ f2 =>
      rw [downLoop_succ, downLoop_succ]
      by_cases hc : 2 * i + 1 ≥ n
      · rw [if_pos hc, if_pos hc]
      · rw [if_neg hc, if_neg hc]
        have hci : i < heap.minChild h i n := by
          unfold heap.minChild
          split <;> omega
        split
        · rfl
        · exact ih f2 _ _ n (by omega) (by omega)

end indexservice

namespace retry

/-! ## Where `Impl` stops -/

/-- Invocations that fail with ordinary errors are retried while attempts remain: when the
invocation of index `j` is the first that does not fail with an ordinary error, and
`attempts` exceeds `j`, `Impl` stops there, after `j` sleeps. -/
theorem Impl_stops (maxSleepTime : Int) :
    ∀ (j : Nat) (attempts sleep : Int) (fn : Nat → GoError),
      (j : Int) < attempts → attempts < 2 ^ 63 →
      (∀ i, i < j → ∃ msg, fn i = GoError.plain msg) →
      (∀ msg, fn j ≠ GoError.plain msg) →
      (Impl attempts sleep fn maxSleepTime).calls = j + 1 ∧
        (Impl attempts sleep fn maxSleepTime).sleeps.length = j ∧
        (fn j = GoError.nil → (Impl attempts sleep fn maxSleepTime).err = GoError.nil) ∧
        (∀ e, fn j = GoError.InterruptError e →
          (Impl attempts sleep fn maxSleepTime).err = e) := by
  intro j
  induction j with
  | zero =>
    intro attempts sleep fn _ _ _ hlast
    rw [Impl_eq]
    cases hfn : fn 0 with
    | nil => simp
    | InterruptError s => simp
    | plain msg => exact absurd hfn (hlast msg)
  | succ j ih =>
    intro attempts sleep fn hj hint hearlier hlast
    obtain ⟨msg, hmsg⟩ := hearlier 0 (by omega)
    rw [Impl_eq, hmsg]
    have hw : wrapInt64 (attempts - 1) = attempts - 1 := by
      apply wrapInt64_of_fits <;> omega
    have hpos : attempts - 1 > 0 := by omega
    simp only [hw, hpos, if_true]
    obtain ⟨h1, h2, h3, h4⟩ := ih (attempts - 1)
      (if sleep < maxSleepTime then wrapInt64 (2 * sleep) else maxSleepTime)
      (fun k => fn (k + 1)) (by omega) (by omega)
      (fun i hi => hearlier (i + 1) (by omega)) (fun m => hlast m)
    refine ⟨by rw [h1], ?_, h3, h4⟩
    rw [List.length_cons, h2]

theorem ImplLoop_calls_le (maxSleepTime : Int) :
    ∀ (fuel : Nat) (attempts sleep : Int) (fn : Nat → GoError),
      (ImplLoop fuel attempts sleep fn maxSleepTime).calls ≤ fuel := by
  intro fuel
  induction fuel with
  | zero => intro attempts sleep fn; simp [ImplLoop]
  | succ f ih =>
    intro attempts sleep fn
    rw [ImplLoop]
    cases hfn : fn 0 with
    | nil => simp
    | InterruptError s => simp
    | plain msg =>
      simp only
      by_cases hpos : wrapInt64 (attempts - 1) > 0
      · rw [if_pos hpos]
        by_cases hs : sleep < maxSleepTime
        · simp only [hs, if_true]
          have := ih (wrapInt64 (attempts - 1)) (wrapInt64 (2 * sleep)) (fun k => fn (k + 1))
          omega
        · simp only [hs, if_false]
          have := ih (wrapInt64 (attempts - 1)) maxSleepTime (fun k => fn (k + 1))
          omega
      · rw [if_neg hpos]
        simp

theorem ImplLoop_enough_fuel (maxSleepTime : Int) :
    ∀ (fuel : Nat) (attempts sleep : Int) (fn : Nat → GoError),
      (wrapInt64 (attempts - 1)).toNat + 1 ≤ fuel →
      ImplLoop fuel attempts sleep fn maxSleepTime = Impl attempts sleep fn maxSleepTime := by
  intro fuel
  induction fuel with
  | zero => intro attempts sleep fn h; omega
  | succ f ih =>
    intro attempts sleep fn h
    rw [Impl_eq, ImplLoop]
    cases hfn : fn 0 with
    | nil => rfl
    | InterruptError s => rfl
    | plain msg =>
      simp only
      by_cases hpos : wrapInt64 (attempts - 1) > 0
      · have hfuel : (wrapInt64 (wrapInt64 (attempts - 1) - 1)).toNat + 1 ≤ f := by
          unfold wrapInt64 at hpos h ⊢
          omega
        rw [if_pos hpos, if_pos hpos]
        by_cases hs : sleep < maxSleepTime
        · simp only [hs, if_true]
          rw [ih _ _ _ hfuel]
        · simp only [hs, if_false]
          rw [ih _ _ _ hfuel]
      · rw [if_neg hpos, if_neg hpos]

theorem Impl_calls_pos (attempts sleep : Int) (fn : Nat → GoError) (maxSleepTime : Int) :
    1 ≤ (Impl attempts sleep fn maxSleepTime).calls := by
  rw [Impl_eq]
  cases hfn : fn 0 with
  | nil => simp
  | InterruptError s => simp
  | plain msg =>
    simp only
    split <;> simp

/-- With an operation that keeps failing with ordinary errors, the sleeps of `Impl` with
`m + 1` attempts are the first `m` iterates of `nextSleep` from `sleep`. -/
theorem Impl_sleeps (maxSleepTime : Int) :
    ∀ (m : Nat) (sleep : Int) (fn : Nat → GoError),
      ((m : Int) + 1 < 2 ^ 63) → (∀ k, ∃ msg, fn k = GoError.plain msg) →
      (Impl ((m : Int) + 1) sleep fn maxSleepTime).sleeps =
        List.iterate (nextSleep maxSleepTime) sleep m := by
  intro m
  induction m with
  | zero =>
    intro sleep fn _ hf
    obtain ⟨msg, hmsg⟩ := hf 0
    rw [Impl_eq, hmsg]
    have hw : wrapInt64 0 = 0 := by
      unfold wrapInt64
      omega
    simp [hw]
  | succ m ih =>
    intro sleep fn hm hf
    obtain ⟨msg, hmsg⟩ := hf 0
    rw [Impl_eq, hmsg]
    have hw : wrapInt64 (((m + 1 : Nat) : Int) + 1 - 1) = (m : Int) + 1 := by
      unfold wrapInt64
      omega
    have hpos : (m : Int) + 1 > 0 := by omega
    simp only [hw, hpos, if_true]
    have hm' : (m : Int) + 1 < 2 ^ 63 := by omega
    rw [ih _ (fun k => fn (k + 1)) hm' (fun k => hf (k + 1))]
    rfl

/-! ## The claims on `Retry` -/

/-- C21 (no-retry short circuit): for `n ≥ 1` attempts (a Go `int`) and an operation
whose `k`-th invocation, `1 ≤ k ≤ n`, returns `NoRetryError e`, all earlier invocations
failing with ordinary errors, `Retry` invokes the operation exactly `k` times, sleeps
`k - 1` times, so not after that invocation, and returns `e` itself, not the wrapper. -/
theorem C21_no_retry_short_circuit (n k : Nat) (sleep : Int) (fn : Nat → GoError)
    (e : GoError) (hk : 1 ≤ k) (hkn : k ≤ n) (hint : (n : Int) < 2 ^ 63)
    (hearlier : ∀ i, i + 1 < k → ∃ msg, fn i = GoError.plain msg)
    (hkth : fn (k - 1) = NoRetryError e) :
    (Retry (n : Int) sleep fn).calls = k ∧
      (Retry (n : Int) sleep fn).sleeps.length = k - 1 ∧
      (Retry (n : Int) sleep fn).err = e := by
  obtain ⟨j, hj⟩ : ∃ j, k = j + 1 := ⟨k - 1, by omega⟩
  subst hj
  simp only [Nat.add_sub_cancel] at hkth ⊢
  have h := Impl_stops (Millisecond * 1000) j (n : Int) sleep fn (by omega) hint
    (fun i hi => hearlier i (by omega))
    (fun msg hmsg => by rw [hkth] at hmsg; exact GoError.noConfusion hmsg)
  exact ⟨h.1, h.2.1, h.2.2.2 e hkth⟩

/-- Witness of C21: with 3 attempts, an operation that fails once and then returns
`NoRetryError` of an error is invoked twice, with one sleep, and that error is returned. -/
theorem C21_no_retry_short_circuit_witness :
    (Retry 3 (100 * Millisecond)
        (failsUntil 2 (NoRetryError (GoError.plain "fatal")))).calls = 2 ∧
      (Retry 3 (100 * Millisecond)
        (failsUntil 2 (NoRetryError (GoError.plain "fatal")))).sleeps.length = 1 ∧
      (Retry 3 (100 * Millisecond)
        (failsUntil 2 (NoRetryError (GoError.plain "fatal")))).err = GoError.plain "fatal" :=
  C21_no_retry_short_circuit 3 2 (100 * Millisecond)
    (failsUntil 2 (NoRetryError (GoError.plain "fatal"))) (GoError.plain "fatal")
    (by decide) (by decide) (by decide)
    (fun i hi => ⟨toString i, by simp [failsUntil, hi]⟩) (by decide)

/-- C22 (retry success): for `n ≥ 1` attempts (a Go `int`) and an operation that fails
with ordinary errors on its first `k - 1` invocations and returns nil on its `k`-th, with
`1 ≤ k ≤ n`, `Retry` returns nil after exactly `k` invocations and `k - 1` sleeps. -/
theorem C22_retry_success (n k : Nat) (sleep : Int) (fn : Nat → GoError)
    (hk : 1 ≤ k) (hkn : k ≤ n) (hint : (n : Int) < 2 ^ 63)
    (hearlier : ∀ i, i + 1 < k → ∃ msg, fn i = GoError.plain msg)
    (hkth : fn (k - 1) = GoError.nil) :
    (Retry (n : Int) sleep fn).err = GoError.nil ∧
      (Retry (n : Int) sleep fn).calls = k ∧
      (Retry (n : Int) sleep fn).sleeps.length = k - 1 := by
  obtain ⟨j, hj⟩ : ∃ j, k = j + 1 := ⟨k - 1, by omega⟩
  subst hj
  simp only [Nat.add_sub_cancel] at hkth ⊢
  have h := Impl_stops (Millisecond * 1000) j (n : Int) sleep fn (by omega) hint
    (fun i hi => hearlier i (by omega))
    (fun msg hmsg => by rw [hkth] at hmsg; exact GoError.noConfusion hmsg)
  exact ⟨h.2.2.1 hkth, h.1, h.2.1⟩

/-- Witness of C22: with 5 attempts, an operation that fails twice and then succeeds is
invoked 3 times, with 2 sleeps, and `Retry` returns nil. -/
theorem C22_retry_success_witness :
    (Retry 5 (100 * Millisecond) (failsUntil 3 GoError.nil)).err = GoError.nil ∧
      (Retry 5 (100 * Millisecond) (failsUntil 3 GoError.nil)).calls = 3 ∧
      (Retry 5 (100 * Millisecond) (failsUntil 3 GoError.nil)).sleeps.length = 3 - 1 :=
  C22_retry_success 5 3 (100 * Millisecond) (failsUntil 3 GoError.nil)
    (by decide) (by decide) (by decide)
    (fun i hi => ⟨toString i, by simp [failsUntil, hi]⟩) (by decide)

/-- C23 (backoff and its maximum), evaluated: `Retry` with 6 attempts and 100 ms on an
operation that keeps failing sleeps 100, 200, 400, 800 and then 1600 ms, which is longer
than the maximum of 1000 ms and is not `min (2 * 800 ms) (1000 ms)`. -/
theorem C23_backoff_exceeds_maximum :
    (Retry 6 (100 * Millisecond) alwaysFails).sleeps =
        [100 * Millisecond, 200 * Millisecond, 400 * Millisecond, 800 * Millisecond,
          1600 * Millisecond] ∧
      Millisecond * 1000 < 1600 * Millisecond ∧
      min (2 * (800 * Millisecond)) (Millisecond * 1000) ≠ 1600 * Millisecond := by
  decide

/-- Counterexample to C30 as stated: with `attempts` the least Go `int`, which is not
positive, the decrement wraps to the greatest, so an operation that fails once and then
succeeds is invoked twice, with a sleep in between. -/
theorem C30_counterexample :
    (-2 ^ 63 : Int) ≤ 0 ∧
      (Retry (-2 ^ 63) (100 * Millisecond) (failsUntil 2 GoError.nil)).calls = 2 ∧
      (Retry (-2 ^ 63) (100 * Millisecond) (failsUntil 2 GoError.nil)).sleeps =
        [100 * Millisecond] := by
  decide

/-- C30 as amended (attempts that are not positive): for every `attempts ≤ 0` other than
the least Go `int` and every operation, `Retry` invokes the operation exactly once, never
sleeps and returns the result of that invocation: nil, the error, or the error inside an
`InterruptError`. For every `attempts`, `Impl` returns: the recursion ends within
`wrapInt64 (attempts - 1) + 1` levels, with between 1 and `2 ^ 63` invocations. -/
theorem C30_nonpositive_attempts (attempts sleep : Int) (fn : Nat → GoError) :
    (-2 ^ 63 < attempts → attempts ≤ 0 →
      (Retry attempts sleep fn).calls = 1 ∧ (Retry attempts sleep fn).sleeps = [] ∧
        (fn 0 = GoError.nil → (Retry attempts sleep fn).err = GoError.nil) ∧
        (∀ msg, fn 0 = GoError.plain msg →
          (Retry attempts sleep fn).err = GoError.plain msg) ∧
        (∀ e, fn 0 = NoRetryError e → (Retry attempts sleep fn).err = e)) ∧
      (∀ (maxSleepTime : Int) (fuel : Nat), (wrapInt64 (attempts - 1)).toNat + 1 ≤ fuel →
        ImplLoop fuel attempts sleep fn maxSleepTime =
          Impl attempts sleep fn maxSleepTime) ∧
      (∀ maxSleepTime : Int, 1 ≤ (Impl attempts sleep fn maxSleepTime).calls ∧
        (Impl attempts sleep fn maxSleepTime).calls ≤ 2 ^ 63) := by
  refine ⟨?_, fun m fuel h => ImplLoop_enough_fuel m fuel attempts sleep fn h, fun m => ?_⟩
  · intro hlo hhi
    have hneg : ¬ wrapInt64 (attempts - 1) > 0 := by
      unfold wrapInt64
      omega
    unfold Retry
    rw [Impl_eq]
    cases hfn : fn 0 with
    | nil => simp [NoRetryError]
    | InterruptError s => simp [NoRetryError]
    | plain msg => simp [hneg, NoRetryError]
  · refine ⟨Impl_calls_pos attempts sleep fn m, ?_⟩
    have h := ImplLoop_calls_le m ((wrapInt64 (attempts - 1)).toNat + 1) attempts sleep fn
    have hb : (wrapInt64 (attempts - 1)).toNat + 1 ≤ 2 ^ 63 := by
      unfold wrapInt64
      omega
    exact le_trans h hb

/-- Witness of C30 as amended: with `-3` attempts an operation that always fails is
invoked once, without a sleep, and the error of that invocation is returned. -/
theorem C30_nonpositive_attempts_witness :
    (Retry (-3) (100 * Millisecond) alwaysFails).calls = 1 ∧
      (Retry (-3) (100 * Millisecond) alwaysFails).sleeps = [] ∧
      (alwaysFails 0 = GoError.nil →
        (Retry (-3) (100 * Millisecond) alwaysFails).err = GoError.nil) ∧
      (∀ msg, alwaysFails 0 = GoError.plain msg →
        (Retry (-3) (100 * Millisecond) alwaysFails).err = GoError.plain msg) ∧
      (∀ e, alwaysFails 0 = NoRetryError e →
        (Retry (-3) (100 * Millisecond) alwaysFails).err = e) :=
  (C30_nonpositive_attempts (-3) (100 * Millisecond) alwaysFails).1 (by decide) (by decide)

end retry

namespace proxynode

/-! ## The published watermark and the traffic in flight -/

/-- C27 (the advanced watermark stays below the traffic in flight): in a returning cycle
with allocated timestamp `now`, a tracked channel whose statistics entry has `minTs` past
the candidate `currents[c]` gets a watermark that is less than `minTs` and at most
`now`. -/
theorem C27_watermark_below_in_flight (I now : Timestamp) (t t1 : channelsTimeTickerImpl)
    (gs : StatisticsMap × Option Error) (calls : List Call) (c : pChan) (cand : Timestamp)
    (stat : pChanStatistics)
    (htick : tick I t (now, none) gs = .returned none t1 calls)
    (hc : t.currents.lookup c = some cand)
    (hs : gs.1.lookup c = some (some stat))
    (hm : stat.minTs > cand) :
    ∃ w : Timestamp, t1.minTsStatistics.lookup c = some w ∧ w < stat.minTs ∧ w ≤ now := by
  obtain ⟨u, u1, _, e2, e3, e4, _⟩ := tick_channel htick hc
  obtain ⟨h1, _⟩ := tickChannel_advance e2 hs hm e3
  refine ⟨_, e4.trans h1, ?_, ?_⟩
  · simp only [Timestamp] at *
    split
    · assumption
    · exact hm
  · simp only [Timestamp] at *
    split
    · exact Nat.le_refl _
    · omega

/-- Witness of C27: with candidate `5`, `now = 10` and the statistics
`{minTs = 8, maxTs = 9}`, the watermark written for `c1` is `5`, below `8` and `10`. -/
theorem C27_watermark_below_in_flight_witness :
    ∃ w : Timestamp,
      (AList.insert "c2" 5 (AList.insert "c1" 5 ∅) : TimestampMap).lookup "c1" = some w ∧
        w < 8 ∧ w ≤ 10 :=
  C27_watermark_below_in_flight interval200ms 10 startedAt5
    { minTsStatistics := AList.insert "c2" 5 (AList.insert "c1" 5 ∅)
      currents := AList.insert "c2" 10 (AList.insert "c1" 9 ∅) }
    (statisticsOf [("c1", ⟨8, 9⟩)], none) [Call.AllocOne, Call.getStatisticsFunc]
    "c1" 5 ⟨8, 9⟩ (by rfl) (by decide) (by decide) (by decide)

end proxynode

namespace indexservice

/-! ## `Push`, and the positions the items record -/

theorem Push_getElem?_lt (pq : PriorityQueue) (x : PQItem) {k : Nat}
    (hk : k < pq.items.length) : (Push pq x).items[k]? = pq.items[k]? := by
  unfold Push
  exact List.getElem?_append_left hk

theorem Push_getElem?_length (pq : PriorityQueue) (x : PQItem) :
    (Push pq x).items[pq.items.length]? =
      some { x with index := (pq.items.length : Int) } := by
  unfold Push Len
  simp

theorem Push_length (pq : PriorityQueue) (x : PQItem) :
    (Push pq x).items.length = pq.items.length + 1 := by
  unfold Push
  simp

theorem Push_prioAt_lt (pq : PriorityQueue) (x : PQItem) {k : Nat}
    (hk : k < pq.items.length) : prioAt (Push pq x).items k = prioAt pq.items k := by
  unfold prioAt
  rw [Push_getElem?_lt pq x hk]

theorem Push_prioAt_length (pq : PriorityQueue) (x : PQItem) :
    prioAt (Push pq x).items pq.items.length = x.priority := by
  unfold prioAt
  rw [Push_getElem?_length]

/-- After `Push` on a min-heap, the only link that can be out of order is the one of the
new item to its parent. -/
theorem Push_isMinHeap_iff (pq : PriorityQueue) (x : PQItem) (hheap : isMinHeap pq) :
    isMinHeap (Push pq x) ↔
      pq.items.length = 0 ∨ prioAt pq.items ((pq.items.length - 1) / 2) ≤ x.priority := by
  unfold isMinHeap heapOrdered at hheap ⊢
  rw [Push_length]
  constructor
  · intro h
    by_cases hn : pq.items.length = 0
    · exact Or.inl hn
    · right
      have := h pq.items.length (by omega) (by omega)
      rw [Push_prioAt_length, Push_prioAt_lt pq x (by omega)] at this
      exact this
  · intro h k hk hpos
    by_cases hkn : k < pq.items.length
    · rw [Push_prioAt_lt pq x hkn, Push_prioAt_lt pq x (by omega)]
      exact hheap k hkn hpos
    · have hk' : k = pq.items.length := by omega
      subst hk'
      rw [Push_prioAt_length, Push_prioAt_lt pq x (by omega)]
      rcases h with h | h
      · omega
      · exact h

theorem Push_indexConsistent {pq : PriorityQueue} (hidx : indexConsistent pq) (x : PQItem) :
    indexConsistent (Push pq x) := by
  rw [indexConsistent_iff] at hidx ⊢
  intro k a ha
  have hk := getElem?_lt_length ha
  rw [Push_length] at hk
  by_cases hkn : k < pq.items.length
  · rw [Push_getElem?_lt pq x hkn] at ha
    exact hidx k a ha
  · have hk' : k = pq.items.length := by omega
    subst hk'
    rw [Push_getElem?_length] at ha
    cases ha
    rfl

/-- C28 (`Push` appends without sifting): `Push` places the item at the last position,
with the old length as its index, and leaves every other position as it was; so on a
min-heap the queue after `Push` is a min-heap if and only if the queue was empty or the
priority of the new item is at least that of its parent, at position `(n - 1) / 2`; this
holds when every item has the priority of the new one. -/
theorem C28_Push_appends (pq : PriorityQueue) (x : PQItem) :
    (Push pq x).items.length = pq.items.length + 1 ∧
      (Push pq x).items[pq.items.length]? =
        some { x with index := (pq.items.length : Int) } ∧
      (∀ k, k < pq.items.length → (Push pq x).items[k]? = pq.items[k]?) ∧
      (isMinHeap pq →
        (isMinHeap (Push pq x) ↔
          pq.items.length = 0 ∨
            prioAt pq.items ((pq.items.length - 1) / 2) ≤ x.priority)) ∧
      (isMinHeap pq → (∀ y ∈ pq.items, y.priority = x.priority) →
        isMinHeap (Push pq x)) := by
  refine ⟨Push_length pq x, Push_getElem?_length pq x, fun k hk => Push_getElem?_lt pq x hk,
    fun hheap => Push_isMinHeap_iff pq x hheap, fun hheap heq => ?_⟩
  rw [Push_isMinHeap_iff pq x hheap]
  by_cases hn : pq.items.length = 0
  · exact Or.inl hn
  · right
    obtain ⟨a, ha⟩ := @getElem?_of_lt _ pq.items ((pq.items.length - 1) / 2) (by omega)
    rw [prioAt_of_getElem? ha, heq a (List.getElem?_mem ha)]

/-- Witness of C28: on the min-heap with the scores `1`, `5` and `3`, a worker pushed with
score `4` lands at position 3, below its parent at position 1, and a worker pushed on a
queue whose only item has the same score keeps the heap order. -/
theorem C28_Push_appends_witness :
    (isMinHeap (Push heapOf135 (newItem 4 104 4)) ↔
        heapOf135.items.length = 0 ∨
          prioAt heapOf135.items ((heapOf135.items.length - 1) / 2) ≤
            (newItem 4 104 4).priority) ∧
      isMinHeap (Push (Push emptyQueue (newItem 1 101 2)) (newItem 2 102 2)) :=
  ⟨(C28_Push_appends heapOf135 (newItem 4 104 4)).2.2.2.1 (by decide),
    (C28_Push_appends (Push emptyQueue (newItem 1 101 2)) (newItem 2 102 2)).2.2.2.2
      (by decide) (by decide)⟩

end indexservice

namespace indexservice

/-- When the items record their positions, a change of priority followed by `heap.Fix`
at the position the item records returns, and the items still record their positions. -/
theorem setPriority_Fix_indexConsistent {pq : PriorityQueue} {p : Nat} {item : PQItem}
    (hidx : indexConsistent pq) (hitem : pq.items[p]? = some item) (v : Int) :
    ∃ pq1 : PriorityQueue,
      heap.Fix { items := pq.items.set p { item with priority := v } } item.index =
          some pq1 ∧
        indexConsistent pq1 := by
  have hindex : item.index = (p : Int) := (indexConsistent_iff pq).mp hidx p item hitem
  have hp := getElem?_lt_length hitem
  obtain ⟨h1, k1, _, _, k4⟩ :=
    Fix_keeps { items := pq.items.set p { item with priority := v } } p
      (by simpa using hp)
  exact ⟨h1, (congrArg (heap.Fix _) hindex).trans k1,
    k4 (indexConsistent_set hidx hitem v)⟩

/-- C29 (index-field invariant): the predicate that every item records its own position
holds on the empty queue and is kept by `Push`, by `Swap` at positions in range, and by
`IncPriority`, `UpdatePriority` and `Remove`, which return; the item that `Pop` takes
off the queue records `-1`; so the position that `IncPriority`, `UpdatePriority` and
`Remove` read in the item found by key, and hand to `heap.Fix` or `heap.Remove`, is the
position of that item. -/
theorem C29_index_invariant (pq : PriorityQueue) (x : PQItem) (key : UniqueID) (d v : Int)
    (hidx : indexConsistent pq) :
    indexConsistent emptyQueue ∧
      indexConsistent (Push pq x) ∧
      (∀ i j, i < pq.items.length → j < pq.items.length →
        indexConsistent (Swap pq i j)) ∧
      (∃ pq1, IncPriority pq key d = some pq1 ∧ indexConsistent pq1) ∧
      (∃ pq1, UpdatePriority pq key v = some pq1 ∧ indexConsistent pq1) ∧
      (∃ pq1, Remove pq key = some pq1 ∧ indexConsistent pq1) ∧
      (∀ item pq1, Pop pq = some (item, pq1) → item.index = -1 ∧ indexConsistent pq1) ∧
      (∀ p item, getItemByKey pq key = some p → pq.items[p]? = some item →
        item.index = (p : Int)) := by
  refine ⟨?_, Push_indexConsistent hidx x, fun i j _ _ => Swap_indexConsistent hidx i j,
    ?_, ?_, ?_, ?_, fun p item _ hitem => (indexConsistent_iff pq).mp hidx p item hitem⟩
  · intro i hi
    simp [emptyQueue] at hi
  · cases hf : getItemByKey pq key with
    | none => exact ⟨pq, by unfold IncPriority; simp only [hf], hidx⟩
    | some p =>
      obtain ⟨item, hitem, _⟩ := getItemByKey_some hf
      rw [IncPriority_found hf hitem]
      exact setPriority_Fix_indexConsistent hidx hitem _
  · cases hf : getItemByKey pq key with
    | none => exact ⟨pq, by unfold UpdatePriority; simp only [hf], hidx⟩
    | some p =>
      obtain ⟨item, hitem, _⟩ := getItemByKey_some hf
      rw [UpdatePriority_found hf hitem]
      exact setPriority_Fix_indexConsistent hidx hitem _
  · cases hf : getItemByKey pq key with
    | none => exact ⟨pq, by unfold Remove; simp only [hf], hidx⟩
    | some p =>
      obtain ⟨item, hitem, _⟩ := getItemByKey_some hf
      have hindex : item.index = (p : Int) := (indexConsistent_iff pq).mp hidx p item hitem
      rw [Remove_found hf hitem, hindex]
      obtain ⟨h1, k1, _, _, k4⟩ := heapRemove_keeps pq p item hitem
      exact ⟨h1, k1, k4 hidx⟩
  · intro item pq1 hpop
    unfold Pop at hpop
    cases hl : pq.items.getLast? with
    | none => simp [hl] at hpop
    | some last =>
      simp only [hl, Option.some.injEq, Prod.mk.injEq] at hpop
      obtain ⟨e1, e2⟩ := hpop
      subst e1 e2
      exact ⟨rfl, indexConsistent_dropLast hidx⟩

/-- Witness of C29: on the heap of three workers, whose items record their positions, the
calls keep that, and the worker with key 3 is found at the position it records. -/
theorem C29_index_invariant_witness :
    indexConsistent emptyQueue ∧
      indexConsistent (Push heapOf135 (newItem 4 104 4)) ∧
      (∀ i j, i < heapOf135.items.length → j < heapOf135.items.length →
        indexConsistent (Swap heapOf135 i j)) ∧
      (∃ pq1, IncPriority heapOf135 3 (-5) = some pq1 ∧ indexConsistent pq1) ∧
      (∃ pq1, UpdatePriority heapOf135 3 9 = some pq1 ∧ indexConsistent pq1) ∧
      (∃ pq1, Remove heapOf135 3 = some pq1 ∧ indexConsistent pq1) ∧
      (∀ item pq1, Pop heapOf135 = some (item, pq1) →
        item.index = -1 ∧ indexConsistent pq1) ∧
      (∀ p item, getItemByKey heapOf135 3 = some p → heapOf135.items[p]? = some item →
        item.index = (p : Int)) :=
  C29_index_invariant heapOf135 (newItem 4 104 4) 3 (-5) 9 (by decide)

end indexservice

namespace querynode

/-! ## What the handlers return -/

/-- C24 (task failure and the caller), evaluated: when `Enqueue` succeeds and
`WaitToFinish` returns an error, each of the four handlers logs the error and returns the
status `Success` with a nil error; here for `WatchDmChannels` on the error
"collection 1 not loaded", and for every error and each handler. -/
theorem C24_task_failure_returns_success :
    WatchDmChannels none (some "collection 1 not loaded") =
        { status := { ErrorCode := ErrorCode.Success, Reason := "" },
          err := none,
          calls := [Call.Enqueue, Call.WaitToFinish],
          logged := ["collection 1 not loaded"] } ∧
      ∀ e : Error,
        ((WatchDmChannels none (some e)).status.ErrorCode = ErrorCode.Success ∧
          (WatchDmChannels none (some e)).err = none) ∧
        ((LoadSegments none (some e)).status.ErrorCode = ErrorCode.Success ∧
          (LoadSegments none (some e)).err = none) ∧
        ((ReleaseCollection none (some e)).status.ErrorCode = ErrorCode.Success ∧
          (ReleaseCollection none (some e)).err = none) ∧
        ((ReleasePartitions none (some e)).status.ErrorCode = ErrorCode.Success ∧
          (ReleasePartitions none (some e)).err = none) :=
  ⟨rfl, fun _ => ⟨⟨rfl, rfl⟩, ⟨rfl, rfl⟩, ⟨rfl, rfl⟩, ⟨rfl, rfl⟩⟩⟩

/-- C25 (failure of `Enqueue`): when `Enqueue` returns an error, each of the four
handlers returns the status `UnexpectedError` with the message of the error as `Reason`,
together with that error, and `Enqueue` is the only call it makes: it does not wait for
the task. -/
theorem C25_enqueue_failure_reported (e : Error) (w : Option Error) :
    WatchDmChannels (some e) w =
        { status := { ErrorCode := ErrorCode.UnexpectedError, Reason := e },
          err := some e, calls := [Call.Enqueue], logged := [e] } ∧
      LoadSegments (some e) w =
        { status := { ErrorCode := ErrorCode.UnexpectedError, Reason := e },
          err := some e, calls := [Call.Enqueue], logged := [e] } ∧
      ReleaseCollection (some e) w =
        { status := { ErrorCode := ErrorCode.UnexpectedError, Reason := e },
          err := some e, calls := [Call.Enqueue], logged := [e] } ∧
      ReleasePartitions (some e) w =
        { status := { ErrorCode := ErrorCode.UnexpectedError, Reason := e },
          err := some e, calls := [Call.Enqueue], logged := [e] } :=
  ⟨rfl, rfl, rfl, rfl⟩

end querynode
